import Mathlib

/-!
# C-Long-Arithmetic: a shallow embedding of `superlong.c`

A `superlong` is a growable little-endian buffer of base-256 digits (`uint8_t`)
together with an `int` sign.  Every C function that writes its result through a
`superlong* res` pointer is embedded as a function returning the new contents
of `res`; unless said otherwise the destination is a distinct object from the
operands, and since each such function starts by emptying the destination, the
old contents of `res` do not appear as an argument.

Machine integers are natural numbers or integers with an explicit reduction
modulo `2 ^ w` wherever the C code narrows a value.
-/

namespace SuperLong

/-! ## Data model -/

/-- The C struct `superlong`: `digits` is the used part of the dynamic array
(`arr[0 .. len-1]`, least significant digit first), `sign` is the `int` field. -/
structure superlong where
  digits : List Nat
  sign : Int
deriving DecidableEq

/-- Every stored digit is a `uint8_t`. -/
def digits_ok (ds : List Nat) : Prop := ∀ d ∈ ds, d < 256

instance (ds : List Nat) : Decidable (digits_ok ds) := by
  unfold digits_ok; infer_instance

/-- The base-256 little-endian magnitude of a digit sequence. -/
def magnitude : List Nat → Nat
  | [] => 0
  | d :: ds => d + 256 * magnitude ds

/-- The integer denoted by a superlong: sign times magnitude. -/
def value (a : superlong) : Int := a.sign * (magnitude a.digits : Int)

/-- A canonical superlong: digits are bytes, the sign is one of -1, 0, +1, the
sign is 0 exactly when the magnitude is zero, and there is no most-significant
zero digit other than a lone zero digit.  Both representations of zero that the
library produces are covered: the single digit 0 left by `superlong_init` and
the empty buffer left by `superlong_clean` and `superlong_from_uint(0)`. -/
def canonical (a : superlong) : Prop :=
  digits_ok a.digits ∧
  (a.sign = 0 ∨ a.sign = 1 ∨ a.sign = -1) ∧
  (a.sign = 0 ↔ magnitude a.digits = 0) ∧
  (a.digits.getLast? ≠ some 0 ∨ a.digits = [0])

instance (a : superlong) : Decidable (canonical a) := by
  unfold canonical; infer_instance

/-! ## Representation and lifecycle -/

/-- The bytes appended by `while (n > 0) { add_tail(n & 0xFF); n >>= 8; }`.
The first argument bounds the number of iterations; `n` itself is always
enough because `n / 256 < n` for positive `n`. -/
def le_bytes : Nat → Nat → List Nat
  | 0, _ => []
  | fuel + 1, n => if n > 0 then (n % 256) :: le_bytes fuel (n / 256) else []

/-- `superlong_init`: one digit 0, sign 0. -/
def superlong_init : superlong := ⟨[0], 0⟩

/-- `superlong_clean`: the buffer is re-created empty (`len = 0`), sign 0. -/
def superlong_clean : superlong := ⟨[], 0⟩

/-- `superlong_from_uint(num, n)` for a `uint32_t n`. -/
def superlong_from_uint (n : Nat) : superlong :=
  if n = 0 then { superlong_clean with sign := 0 }
  else { digits := superlong_clean.digits ++ le_bytes n n, sign := 1 }

/-- `superlong_from_int(num, n)` for an `int16_t n`; `(uint32_t)(-n)` is the
negation computed in `int` and converted modulo `2 ^ 32`. -/
def superlong_from_int (n : Int) : superlong :=
  if n ≥ 0 then superlong_from_uint (n % 2 ^ 32).toNat
  else { superlong_from_uint ((-n) % 2 ^ 32).toNat with sign := -1 }

/-- `superlong_is_zero`. -/
def superlong_is_zero (num : superlong) : Bool :=
  if num.sign = 0 then true
  else if num.digits.length = 1 ∧ num.digits.getD 0 0 = 0 then true
  else false

/-- The loop of `superlong_normalize`:
`while (len > 1 && digits[len-1] == 0) del_tail;` with an iteration bound
(the length of the buffer is always enough, each iteration removes a digit). -/
def normalize_loop : Nat → List Nat → List Nat
  | 0, ds => ds
  | fuel + 1, ds =>
    if ds.length > 1 ∧ ds.getLast? = some 0 then normalize_loop fuel ds.dropLast else ds

/-- `superlong_normalize`. -/
def superlong_normalize (num : superlong) : superlong :=
  let num1 : superlong := { num with digits := normalize_loop num.digits.length num.digits }
  if superlong_is_zero num1 then { num1 with sign := 0 } else num1

/-- `superlong_negate`. -/
def superlong_negate (num : superlong) : superlong :=
  if num.sign ≠ 0 then { num with sign := -num.sign } else num

/-- `superlong_copy(num, res)` with `res` distinct from `num`. -/
def superlong_copy (num : superlong) : superlong :=
  { digits := superlong_clean.digits ++ num.digits, sign := num.sign }

/-! ## Absolute-value primitives -/

/-- The loop of `superlong_abs_compare`, run on the two buffers read from the
most significant digit down (both reversed, equal lengths). -/
def abs_compare_loop : List Nat → List Nat → Int
  | da :: as, db :: bs =>
    if da ≠ db then (if da > db then 1 else -1) else abs_compare_loop as bs
  | _, _ => 0

/-- `superlong_abs_compare`. -/
def superlong_abs_compare (a b : superlong) : Int :=
  if a.digits.length ≠ b.digits.length then
    (if a.digits.length > b.digits.length then 1 else -1)
  else abs_compare_loop a.digits.reverse b.digits.reverse

/-- The loop of `superlong_abs_add`: `max_len` iterations (first argument), each
reading the next digit of `a` and of `b`, a missing digit reading as 0
(`sldigits_get_or`); `sum` and `carry` are `uint16_t`.  After the loop a nonzero
carry is appended as one digit. -/
def abs_add_loop : Nat → List Nat → List Nat → Nat → List Nat
  | 0, _, _, carry => if carry > 0 then [carry % 256] else []
  | n + 1, as, bs, carry =>
    let sum := (carry + as.headD 0 + bs.headD 0) % 65536
    (sum % 256) :: abs_add_loop n as.tail bs.tail (sum / 256)

/-- `superlong_abs_add(a, b, res)` with `res` distinct from `a` and `b`. -/
def superlong_abs_add (a b : superlong) : superlong :=
  let max_len := if a.digits.length > b.digits.length then a.digits.length else b.digits.length
  superlong_normalize { superlong_clean with digits := abs_add_loop max_len a.digits b.digits 0 }

/-- The loop of `superlong_abs_sub` over the digits of `a`, a missing digit of
`b` reading as 0 (`sldigits_get_or`); `diff` and `borrow` are `int`, and the
stored digit is `(n256) diff`. -/
def abs_sub_loop : List Nat → List Nat → Int → List Nat
  | [], _, _ => []
  | da :: as, bs, borrow =>
    let diff : Int := (da : Int) - (bs.headD 0 : Int) - borrow
    if diff < 0 then ((diff + 256) % 256).toNat :: abs_sub_loop as bs.tail 1
    else (diff % 256).toNat :: abs_sub_loop as bs.tail 0

/-- `superlong_abs_sub(a, b, res)` with `res` distinct from `a` and `b`.  The
sign of `res` is the 0 left by `superlong_clean`. -/
def superlong_abs_sub (a b : superlong) : superlong :=
  superlong_normalize { superlong_clean with digits := abs_sub_loop a.digits b.digits 0 }

/-! ## Signed addition and subtraction -/

/-- `superlong_add(a, b, res)` with `res` distinct from `a` and `b`. -/
def superlong_add (a b : superlong) : superlong :=
  if a.sign = 0 then superlong_copy b
  else if b.sign = 0 then superlong_copy a
  else
    let res : superlong :=
      if a.sign = b.sign then { superlong_abs_add a b with sign := a.sign }
      else
        let cmp := superlong_abs_compare a b
        if cmp = 0 then { superlong_clean with sign := 0 }
        else if cmp > 0 then { superlong_abs_sub a b with sign := a.sign }
        else { superlong_abs_sub b a with sign := b.sign }
    superlong_normalize res

/-- `superlong_sub(a, b, res)`: add the negated copy of `b`. -/
def superlong_sub (a b : superlong) : superlong :=
  let neg_b := superlong_copy b
  let neg_b := if neg_b.sign ≠ 0 then { neg_b with sign := -neg_b.sign } else neg_b
  superlong_add a neg_b

/-- The loop of `superlong_abs_compare_uint`:
`val |= (uint32_t) digit << (i * 8)` for each digit, in `uint32_t`. -/
def abs_compare_uint_loop : List Nat → Nat → Nat → Nat
  | [], _, val => val
  | d :: ds, i, val => abs_compare_uint_loop ds (i + 1) (val ||| ((d <<< (i * 8)) % 2 ^ 32))

/-- `superlong_abs_compare_uint`. -/
def superlong_abs_compare_uint (a : superlong) (b : Nat) : Int :=
  if a.digits.length = 0 then (if b = 0 then 0 else -1)
  else if a.digits.length > 4 then 1
  else
    let val := abs_compare_uint_loop a.digits 0 0
    if val > b then 1 else if val < b then -1 else 0

/-- The two loops of `superlong_abs_add_uint`: the `uint64_t` carry starts at
`b`, absorbs one digit per position, and is flushed byte by byte at the end. -/
def abs_add_uint_loop : List Nat → Nat → List Nat
  | [], carry => le_bytes carry carry
  | d :: ds, carry =>
    let carry := (carry + d) % 2 ^ 64
    (carry % 256) :: abs_add_uint_loop ds (carry / 256)

/-- `superlong_abs_add_uint`. -/
def superlong_abs_add_uint (a : superlong) (b : Nat) : superlong :=
  superlong_normalize { superlong_clean with digits := abs_add_uint_loop a.digits b }

/-- The loop of `superlong_abs_sub_uint` over the digits of `a`; position `i`
subtracts byte `i` of `bval` (0 from position 4 on). -/
def abs_sub_uint_loop (bval : Nat) : List Nat → Nat → Int → List Nat
  | [], _, _ => []
  | digit :: ds, i, borrow =>
    let sub : Nat := if i < 4 then (bval / 2 ^ (i * 8)) % 256 else 0
    let diff : Int := (digit : Int) - (sub : Int) - borrow
    if diff < 0 then ((diff + 256) % 256).toNat :: abs_sub_uint_loop bval ds (i + 1) 1
    else (diff % 256).toNat :: abs_sub_uint_loop bval ds (i + 1) 0

/-- `superlong_abs_sub_uint`. -/
def superlong_abs_sub_uint (a : superlong) (b : Nat) : superlong :=
  superlong_normalize { superlong_clean with digits := abs_sub_uint_loop b a.digits 0 0 }

/-- The loop of `superlong_abs_uint_sub`: it runs over the digits of `a`
(`i < a->digits.len`) and at position `i` computes byte `i` of `bval` minus the
digit of `a`. -/
def abs_uint_sub_loop (bval : Nat) : List Nat → Nat → Int → List Nat
  | [], _, _ => []
  | a_digit :: ds, i, borrow =>
    let b_digit : Nat := if i < 4 then (bval / 2 ^ (i * 8)) % 256 else 0
    let diff : Int := (b_digit : Int) - (a_digit : Int) - borrow
    if diff < 0 then ((diff + 256) % 256).toNat :: abs_uint_sub_loop bval ds (i + 1) 1
    else (diff % 256).toNat :: abs_uint_sub_loop bval ds (i + 1) 0

/-- `superlong_abs_uint_sub(b, a, res)`. -/
def superlong_abs_uint_sub (b : Nat) (a : superlong) : superlong :=
  superlong_normalize { superlong_clean with digits := abs_uint_sub_loop b a.digits 0 0 }

/-- `superlong_add_uint(a, b, res)` with `res` distinct from `a`. -/
def superlong_add_uint (a : superlong) (b : Nat) : superlong :=
  if a.sign = 0 then superlong_from_uint b
  else if b = 0 then superlong_copy a
  else
    let res : superlong :=
      if a.sign > 0 then { superlong_abs_add_uint a b with sign := 1 }
      else
        let cmp := superlong_abs_compare_uint a b
        if cmp = 0 then { superlong_clean with sign := 0 }
        else if cmp > 0 then { superlong_abs_sub_uint a b with sign := -1 }
        else { superlong_abs_uint_sub b a with sign := 1 }
    superlong_normalize res

/-- `superlong_sub_uint(a, b, res)` with `res` distinct from `a`. -/
def superlong_sub_uint (a : superlong) (b : Nat) : superlong :=
  if a.sign = 0 then { superlong_from_uint b with sign := -1 }
  else if b = 0 then superlong_copy a
  else
    let res : superlong :=
      if a.sign > 0 then
        let cmp := superlong_abs_compare_uint a b
        if cmp = 0 then { superlong_clean with sign := 0 }
        else if cmp > 0 then { superlong_abs_sub_uint a b with sign := 1 }
        else { superlong_abs_uint_sub b a with sign := -1 }
      else { superlong_abs_add_uint a b with sign := -1 }
    superlong_normalize res

/-! ## Multiplication -/

/-- The two loops of the general case of `superlong_mul_uint`; `product` and
`carry` are `uint64_t`. -/
def mul_uint_loop (b : Nat) : List Nat → Nat → List Nat
  | [], carry => le_bytes carry carry
  | d :: ds, carry =>
    let product := (d * b + carry) % 2 ^ 64
    (product % 256) :: mul_uint_loop b ds (product / 256)

/-- `superlong_mul_uint(a, b, res)` with `res` distinct from `a`. -/
def superlong_mul_uint (a : superlong) (b : Nat) : superlong :=
  if a.sign = 0 ∨ b = 0 then { superlong_clean with sign := 0 }
  else if b = 1 then superlong_copy a
  else if b = 256 then
    superlong_normalize { digits := superlong_clean.digits ++ [0] ++ a.digits, sign := a.sign }
  else
    superlong_normalize { digits := superlong_clean.digits ++ mul_uint_loop b a.digits 0, sign := a.sign }

/-- `superlong_shift_left_bytes(num, bytes)`: the temporary is created by
`superlong_init`, so it already holds one digit 0 when the `bytes` zero digits
and then the digits of `num` are appended to it. -/
def superlong_shift_left_bytes (num : superlong) (bytes : Nat) : superlong :=
  if bytes = 0 ∨ superlong_is_zero num = true then num
  else { digits := superlong_init.digits ++ List.replicate bytes 0 ++ num.digits, sign := num.sign }

/-- The inner loops of `superlong_mul_simple` for one digit of `a`: the digits
of `a_digit * b` with a `uint32_t` running carry, flushed at the end. -/
def mul_simple_row (a_digit : Nat) : List Nat → Nat → List Nat
  | [], carry => le_bytes carry carry
  | b_digit :: bs, carry =>
    let product := ((a_digit * b_digit) % 2 ^ 32 + carry) % 2 ^ 32
    (product % 256) :: mul_simple_row a_digit bs (product / 256)

/-- The outer loop of `superlong_mul_simple` over the digits of `a` from index
`i` on: `temp` is `i` zero digits followed by the row of `a[i]`, with sign +1,
and is added to the running total with `superlong_add`. -/
def mul_simple_loop (b : superlong) : List Nat → Nat → superlong → superlong
  | [], _, temp_res => temp_res
  | a_digit :: as, i, temp_res =>
    let temp : superlong :=
      { digits := superlong_clean.digits ++ List.replicate i 0 ++ mul_simple_row a_digit b.digits 0,
        sign := 1 }
    mul_simple_loop b as (i + 1) (superlong_add temp_res temp)

/-- `superlong_mul_simple`: the running total starts as `superlong_from_uint(0)`. -/
def superlong_mul_simple (a b : superlong) : superlong :=
  superlong_normalize (mul_simple_loop b a.digits 0 (superlong_from_uint 0))

/-- The body of `superlong_mul_karatsuba` with a bound on the recursion depth.
The four halves are created by `superlong_init` (one digit 0) and the digits of
the operand are appended after that digit. -/
def mul_karatsuba_depth : Nat → superlong → superlong → superlong
  | 0, x, y => superlong_mul_simple x y
  | depth + 1, x, y =>
    let min_len := if x.digits.length < y.digits.length then x.digits.length else y.digits.length
    if min_len < 16 then superlong_mul_simple x y
    else
      let k := min_len / 2
      let b : superlong := { digits := superlong_init.digits ++ x.digits.take k, sign := 1 }
      let a : superlong := { digits := superlong_init.digits ++ x.digits.drop k, sign := 1 }
      let d : superlong := { digits := superlong_init.digits ++ y.digits.take k, sign := 1 }
      let c : superlong := { digits := superlong_init.digits ++ y.digits.drop k, sign := 1 }
      let ac := mul_karatsuba_depth depth a c
      let bd := mul_karatsuba_depth depth b d
      let a_b := superlong_add a b
      let c_d := superlong_add c d
      let ad_bc_ac_bd := mul_karatsuba_depth depth a_b c_d
      let temp := superlong_sub ad_bc_ac_bd ac
      let ad_bc_ac_bd := superlong_sub temp bd
      let ac := superlong_shift_left_bytes ac (2 * k)
      let ad_bc_ac_bd := superlong_shift_left_bytes ad_bc_ac_bd k
      let temp := superlong_add ac ad_bc_ac_bd
      superlong_add temp bd

/-- `superlong_mul_karatsuba`.  The depth bound is the length of the shorter
operand, which strictly decreases at every recursive call. -/
def superlong_mul_karatsuba (x y : superlong) : superlong :=
  mul_karatsuba_depth (min x.digits.length y.digits.length) x y

/-- `superlong_mul(a, b, res)` with `res` distinct from `a` and `b`. -/
def superlong_mul (a b : superlong) : superlong :=
  if a.sign = 0 ∨ b.sign = 0 then { superlong_clean with sign := 0 }
  else
    superlong_normalize
      { superlong_mul_karatsuba a b with sign := if a.sign = b.sign then 1 else -1 }

/-! ## Division -/

/-- How a call of a division entry point ends: it returns with the destination
holding `res`, or it calls `exit(1)` while the destination holds `res`, or it
never returns. -/
inductive Outcome where
  | returned (res : superlong)
  | exited (res : superlong)
  | hang
deriving DecidableEq

/-- The loop of `bin_find_digit`; `left`, `right`, `mid` and `best` are
`uint8_t`, so `mid + 1` and `mid - 1` are stored modulo 256.  The first argument
bounds the number of iterations; `none` means the bound was reached with
`left <= right` still true. -/
def bin_find_digit_loop (remainder divisor : superlong) : Nat → Nat → Nat → Nat → Option Nat
  | 0, left, right, best => if left ≤ right then none else some best
  | fuel + 1, left, right, best =>
    if left ≤ right then
      let mid := (left + (right - left) / 2) % 256
      let prod := superlong_mul_uint divisor mid
      let cmp := superlong_abs_compare prod remainder
      if cmp ≤ 0 then bin_find_digit_loop remainder divisor fuel ((mid + 1) % 256) right mid
      else bin_find_digit_loop remainder divisor fuel left ((mid + 255) % 256) best
    else some best

/-- `bin_find_digit`: `left = 1, right = 255, best = 0`. -/
def bin_find_digit (fuel : Nat) (remainder divisor : superlong) : Option Nat :=
  bin_find_digit_loop remainder divisor fuel 1 255 0

/-- The main loop of `superlong_div_uint`, run over the digits of `a` from the
most significant one down; `cur` and `remaind` are `uint64_t`, each quotient
digit is stored as `(n256) q_digit` at the end of `q_digits`. -/
def div_uint_loop (b : Nat) : List Nat → Nat → List Nat → List Nat
  | [], _, q_digits => q_digits
  | d :: ds, remaind, q_digits =>
    let cur := (d + remaind * 256) % 2 ^ 64
    let q_digit := cur / b
    div_uint_loop b ds (cur % b) (q_digits ++ [q_digit % 256])

/-- `superlong_div_uint(a, b, res)` with `res` distinct from `a`; the third
argument is the content of the destination before the call. -/
def superlong_div_uint (a : superlong) (b : Nat) (res : superlong) : Outcome :=
  if b = 0 then Outcome.exited res
  else if a.sign = 0 then Outcome.returned { superlong_clean with sign := 0 }
  else if b = 1 then Outcome.returned (superlong_copy a)
  else if b = 256 then
    Outcome.returned (superlong_normalize
      { digits := superlong_clean.digits ++ (if a.digits.length > 1 then a.digits.drop 1 else []),
        sign := a.sign })
  else
    Outcome.returned (superlong_normalize
      { digits := superlong_clean.digits ++ (div_uint_loop b a.digits.reverse 0 []).reverse,
        sign := a.sign })

/-- The main loop of the long-division path of `superlong_div`, run over the
digits of the dividend from the most significant one down. -/
def div_loop (fuel : Nat) (divis : superlong) : List Nat → superlong → List Nat → Option (List Nat)
  | [], _, q_digits => some q_digits
  | current_byte :: ds, remaind, q_digits =>
    let tmp := superlong_mul_uint remaind 256
    let byte_val := superlong_from_uint current_byte
    let new_rem := superlong_add tmp byte_val
    let remaind := new_rem
    if superlong_abs_compare remaind divis ≥ 0 then
      match bin_find_digit fuel remaind divis with
      | none => none
      | some q_digit =>
        let product := superlong_mul_uint divis q_digit
        let new_rem2 := superlong_abs_sub remaind product
        div_loop fuel divis ds new_rem2 (q_digits ++ [q_digit])
    else div_loop fuel divis ds remaind (q_digits ++ [0])

/-- `superlong_div(a, b, res)` with `res` distinct from `a` and `b`; `fuel`
bounds the iterations of each binary search, the last argument is the content
of the destination before the call. -/
def superlong_div (fuel : Nat) (a b res : superlong) : Outcome :=
  if b.sign = 0 then Outcome.exited res
  else if a.sign = 0 then Outcome.returned { superlong_clean with sign := 0 }
  else
    let sign : Int := if a.sign = b.sign then 1 else -1
    let b_val := abs_compare_uint_loop b.digits 0 0
    if b.digits.length ≤ 4 ∧ b_val ≠ 0 then
      match superlong_div_uint a b_val res with
      | Outcome.returned r =>
        Outcome.returned (if sign < 0 ∧ r.sign ≠ 0 then { r with sign := -1 } else r)
      | other => other
    else
      let divid : superlong := { superlong_copy a with sign := 1 }
      let divis : superlong := { superlong_copy b with sign := 1 }
      if superlong_abs_compare divid divis < 0 then
        Outcome.returned { superlong_clean with sign := 0 }
      else
        match div_loop fuel divis divid.digits.reverse (superlong_from_uint 0) [] with
        | none => Outcome.hang
        | some q_digits =>
          Outcome.returned (superlong_normalize
            { digits := superlong_clean.digits ++ q_digits.reverse, sign := sign })

/-! ## Factorial -/

/-- The loop of `superlong_factorial`: `for (uint32_t i = 2; i <= n; i++)`, the
counter wrapping modulo `2 ^ 32`.  The first argument bounds the number of
iterations; `none` means the bound was reached with `i <= n` still true. -/
def factorial_loop (n : Nat) : Nat → Nat → superlong → Option superlong
  | 0, i, res => if i ≤ n then none else some res
  | fuel + 1, i, res =>
    if i ≤ n then
      let temp := superlong_mul_uint res i
      factorial_loop n fuel ((i + 1) % 2 ^ 32) (superlong_copy temp)
    else some res

/-- `superlong_factorial(n, res)`. -/
def superlong_factorial (fuel n : Nat) : Option superlong :=
  factorial_loop n fuel 2 (superlong_from_uint 1)

/-! ## Decimal conversion -/

/-- The loop of `superlong_div_uint10`, from the most significant digit down:
the result is the new digit buffer and the final remainder; `current`,
`new_digit` and `remainder` are `uint16_t`. -/
def div_uint10_loop : List Nat → List Nat × Nat
  | [] => ([], 0)
  | d :: ds =>
    let r := div_uint10_loop ds
    let remainder := r.2
    let current := (d + remainder * 256) % 65536
    let new_digit := current / 10
    ((new_digit % 256) :: r.1, current % 10)

/-- `superlong_div_uint10(num)`: the number is divided in place and normalized,
the remainder is returned. -/
def superlong_div_uint10 (num : superlong) : superlong × Nat :=
  let r := div_uint10_loop num.digits
  (superlong_normalize { num with digits := r.1 }, r.2)

/-- The `while (!superlong_is_zero(&temp))` loop of `superlong_to_decimal_str`.
The first argument is the room left in the scratch buffer `digits`; `none`
means a write past its end. -/
def to_decimal_loop : Nat → superlong → List Char → Option (List Char)
  | 0, temp, digits => if superlong_is_zero temp = true then some digits else none
  | room + 1, temp, digits =>
    if superlong_is_zero temp = true then some digits
    else
      let r := superlong_div_uint10 temp
      to_decimal_loop room r.1 (digits ++ [Char.ofNat ((48 + r.2) % 256)])

/-- `superlong_to_decimal_str`: the scratch buffer has `len * 3 + 10` bytes. -/
def superlong_to_decimal_str (num : superlong) : Option String :=
  if superlong_is_zero num = true then some "0"
  else
    let temp : superlong := { superlong_copy num with sign := 1 }
    let max_digits := temp.digits.length * 3 + 10
    match to_decimal_loop max_digits temp [] with
    | none => none
    | some digits => some (String.mk ((if num.sign < 0 then ['-'] else []) ++ digits.reverse))


/-! ## The public arithmetic entry points -/

/-- A call of one of the eight public arithmetic entry points, with a
destination distinct from the operands. -/
inductive Call where
  | add (a b : superlong)
  | add_uint (a : superlong) (b : Nat)
  | sub (a b : superlong)
  | sub_uint (a : superlong) (b : Nat)
  | mul (a b : superlong)
  | mul_uint (a : superlong) (b : Nat)
  | div (a b : superlong)
  | div_uint (a : superlong) (b : Nat)

/-- Running a call while the destination holds `res`. -/
def run (fuel : Nat) (c : Call) (res : superlong) : Outcome :=
  match c with
  | Call.add a b => Outcome.returned (superlong_add a b)
  | Call.add_uint a b => Outcome.returned (superlong_add_uint a b)
  | Call.sub a b => Outcome.returned (superlong_sub a b)
  | Call.sub_uint a b => Outcome.returned (superlong_sub_uint a b)
  | Call.mul a b => Outcome.returned (superlong_mul a b)
  | Call.mul_uint a b => Outcome.returned (superlong_mul_uint a b)
  | Call.div a b => superlong_div fuel a b res
  | Call.div_uint a b => superlong_div_uint a b res

/-- The call is a division by zero: a superlong divisor of sign 0, or the
scalar divisor 0. -/
def divides_by_zero : Call → Prop
  | Call.div _ b => b.sign = 0
  | Call.div_uint _ b => b = 0
  | _ => False

/-! ## Shape of results -/

/-- The digit sequence has no most-significant zero digit, other than a lone
zero digit. -/
def no_leading_zero (ds : List Nat) : Prop := ds.getLast? ≠ some 0 ∨ ds = [0]

instance (ds : List Nat) : Decidable (no_leading_zero ds) := by
  unfold no_leading_zero; infer_instance

/-- The digit sequence of a number of magnitude zero is one of the two zeros of
the library: the empty buffer left by `superlong_clean`, or the single digit 0
left by `superlong_init` and by `superlong_normalize`. -/
def zero_digits_form (r : superlong) : Prop :=
  magnitude r.digits = 0 → (r.digits = [] ∨ r.digits = [0])

/-- A number of magnitude zero is one of the two zeros of the library and has
sign 0; a number of sign 0 is one of the two zeros; a number of nonzero sign
has at least one digit. -/
def zero_form (r : superlong) : Prop :=
  (magnitude r.digits = 0 → (r.digits = [] ∨ r.digits = [0]) ∧ r.sign = 0) ∧
    (r.sign = 0 → r.digits = [] ∨ r.digits = [0]) ∧
    (r.sign ≠ 0 → 1 ≤ r.digits.length)

/-- The general branch of `superlong_mul_uint` (the carry loop followed by the
sign assignment and `superlong_normalize`), taken for any scalar `b` without the
shortcuts for 1 and 256. -/
def superlong_mul_uint_general (a : superlong) (b : Nat) : superlong :=
  superlong_normalize { digits := superlong_clean.digits ++ mul_uint_loop b a.digits 0, sign := a.sign }

/-! ## Calls whose destination is the first operand

In the definitions below `res` and `a` are the same object: the function
returns the content of that object after the call.  Every statement of the C
function is applied to the shared object in order, so a read of `a` that follows
a write to `res` sees what was written. -/

/-- `superlong_copy(num, num)`: `superlong_clean(res)` empties the shared
object; the copying loop runs `num->digits.len = 0` times; `res->sign =
num->sign` reads back the sign 0 just written. -/
def superlong_copy_aliased (_num : superlong) : superlong :=
  let o : superlong := superlong_clean
  { o with sign := o.sign }

/-- `superlong_mul_uint(a, b, a)`: the shortcut for `b == 1` leaves the object
untouched (`if (a != res) superlong_copy`), and the general case goes through a
temporary copy of `a`. -/
def superlong_mul_uint_aliased (a : superlong) (b : Nat) : superlong :=
  if a.sign = 0 ∨ b = 0 then { superlong_clean with sign := 0 }
  else if b = 1 then a
  else
    let temp := superlong_copy a
    superlong_mul_uint temp b

/-- `superlong_sub_uint(a, b, a)`: the first statement copies `a` into a
temporary and calls `superlong_sub_uint(&temp, b, res)`. -/
def superlong_sub_uint_aliased (a : superlong) (b : Nat) : superlong :=
  let temp := superlong_copy a
  superlong_sub_uint temp b

/-- `superlong_div_uint(a, b, a)`: after the test for a zero divisor, `a` is
copied into a temporary and `superlong_div_uint(&temp, b, res)` is called. -/
def superlong_div_uint_aliased (a : superlong) (b : Nat) : Outcome :=
  if b = 0 then Outcome.exited a
  else
    let temp := superlong_copy a
    superlong_div_uint temp b a

/-- `superlong_abs_add(a, b, a)`: both operands are copied into temporaries and
`superlong_abs_add(&temp_a, &temp_b, res)` is called. -/
def superlong_abs_add_aliased (a b : superlong) : superlong :=
  let temp_a := superlong_copy a
  let temp_b := superlong_copy b
  superlong_abs_add temp_a temp_b

/-- `superlong_abs_sub(a, b, res)` with `res` one of the operands: the same
guard as in `superlong_abs_add`. -/
def superlong_abs_sub_aliased (a b : superlong) : superlong :=
  let temp_a := superlong_copy a
  let temp_b := superlong_copy b
  superlong_abs_sub temp_a temp_b

/-- `superlong_add(a, b, a)` with `b` a distinct object.  There is no guard:
`superlong_copy(a, res)` is the aliased copy, and `res->sign = a->sign` assigns
to the shared object its own sign, the one left by `superlong_abs_add` or
`superlong_abs_sub`. -/
def superlong_add_aliased (a b : superlong) : superlong :=
  if a.sign = 0 then superlong_copy b
  else if b.sign = 0 then superlong_copy_aliased a
  else
    let res : superlong :=
      if a.sign = b.sign then
        let o := superlong_abs_add_aliased a b
        { o with sign := o.sign }
      else
        let cmp := superlong_abs_compare a b
        if cmp = 0 then { superlong_clean with sign := 0 }
        else if cmp > 0 then
          let o := superlong_abs_sub_aliased a b
          { o with sign := o.sign }
        else { superlong_abs_sub_aliased b a with sign := b.sign }
    superlong_normalize res

/-- `superlong_abs_add_uint(a, b, a)`: `superlong_clean(res)` empties the shared
object, so the digit loop runs over an empty buffer and only the bytes of the
carry `b` are written. -/
def superlong_abs_add_uint_aliased (_a : superlong) (b : Nat) : superlong :=
  let o : superlong := superlong_clean
  superlong_normalize { o with digits := abs_add_uint_loop o.digits b }

/-- `superlong_abs_sub_uint(a, b, a)`: the digit loop runs over the buffer
emptied by `superlong_clean(res)`. -/
def superlong_abs_sub_uint_aliased (_a : superlong) (b : Nat) : superlong :=
  let o : superlong := superlong_clean
  superlong_normalize { o with digits := abs_sub_uint_loop b o.digits 0 0 }

/-- `superlong_abs_uint_sub(b, a, a)`: the digit loop runs over the buffer
emptied by `superlong_clean(res)`. -/
def superlong_abs_uint_sub_aliased (b : Nat) (_a : superlong) : superlong :=
  let o : superlong := superlong_clean
  superlong_normalize { o with digits := abs_uint_sub_loop b o.digits 0 0 }

/-- `superlong_add_uint(a, b, a)`.  There is no guard. -/
def superlong_add_uint_aliased (a : superlong) (b : Nat) : superlong :=
  if a.sign = 0 then superlong_from_uint b
  else if b = 0 then superlong_copy_aliased a
  else
    let res : superlong :=
      if a.sign > 0 then { superlong_abs_add_uint_aliased a b with sign := 1 }
      else
        let cmp := superlong_abs_compare_uint a b
        if cmp = 0 then { superlong_clean with sign := 0 }
        else if cmp > 0 then { superlong_abs_sub_uint_aliased a b with sign := -1 }
        else { superlong_abs_uint_sub_aliased b a with sign := 1 }
    superlong_normalize res

/-- `superlong_mul_simple(a, b, a)`: the first statement `superlong_clean(res)`
empties the shared object, so the outer loop over the digits of `a` does not
run and the running total stays `superlong_from_uint(0)`. -/
def superlong_mul_simple_aliased (_a b : superlong) : superlong :=
  let o : superlong := superlong_clean
  superlong_normalize (mul_simple_loop b o.digits 0 (superlong_from_uint 0))

/-- `superlong_mul_karatsuba(x, y, x)`: below the threshold the call is
`superlong_mul_simple(x, y, res)`; above it `res` is written only at the end
(`*res = final`), after the last read of `x`. -/
def superlong_mul_karatsuba_aliased (x y : superlong) : superlong :=
  let min_len := if x.digits.length < y.digits.length then x.digits.length else y.digits.length
  if min_len < 16 then superlong_mul_simple_aliased x y
  else superlong_mul_karatsuba x y

/-- `superlong_mul(a, b, a)` with `b` a distinct object.  There is no guard:
`res->sign = (a->sign == b->sign) ? 1 : -1` compares with the sign of `b` the
sign that `superlong_mul_karatsuba` has just left in the shared object. -/
def superlong_mul_aliased (a b : superlong) : superlong :=
  if a.sign = 0 ∨ b.sign = 0 then { superlong_clean with sign := 0 }
  else
    let o := superlong_mul_karatsuba_aliased a b
    superlong_normalize { o with sign := if o.sign = b.sign then 1 else -1 }

/-! ## Argument conversion at `superlong_from_int`, and the schoolbook accumulator -/

/-- The conversion of a wider signed argument to the `int16_t` parameter of
`superlong_from_int(superlong* num, int16_t n)`: the low 16 bits, read as a
two's-complement number between -32768 and 32767. -/
def int16_arg (n : Int) : Int := (n + 32768) % 65536 - 32768

/-- A call `superlong_from_int(&num, n)` whose argument expression `n` is a
32-bit `int`: the argument is converted to the parameter type first. -/
def superlong_from_int_call (n : Int) : superlong := superlong_from_int (int16_arg n)

/-- Along the inner loop of `superlong_mul_simple` for one digit of `a`, every
`a_digit * b_digit + carry` is below 2^32, so that the `uint32_t` variable
`product` holds it without wrapping.  The carry follows `mul_simple_row`. -/
def mul_simple_row_fits (a_digit : Nat) : List Nat → Nat → Bool
  | [], _ => true
  | b_digit :: bs, carry =>
    decide (a_digit * b_digit + carry < 2 ^ 32) &&
      mul_simple_row_fits a_digit bs
        ((((a_digit * b_digit) % 2 ^ 32 + carry) % 2 ^ 32) / 256)

/-- A bound for the analysis of `superlong_mul_karatsuba`: the result for operands
of `lx` and `ly` digits, the shorter one of `m` digits, is below
`256 ^ (lx + ly + karatsuba_excess m)` in magnitude. -/
def karatsuba_excess (m : Nat) : Nat := if m < 16 then 0 else m - 11

/-! ## Budgeted recursion and intermediate ranges -/

/-- The recursion of `superlong_mul_karatsuba` with an explicit budget of nested
calls (first argument): the same body as `mul_karatsuba_depth`, except that
`none` is returned when the budget runs out while the shorter operand still
has 16 or more digits. -/
def mul_karatsuba_fuel : Nat → superlong → superlong → Option superlong
  | 0, x, y =>
    let min_len := if x.digits.length < y.digits.length then x.digits.length else y.digits.length
    if min_len < 16 then some (superlong_mul_simple x y) else none
  | depth + 1, x, y =>
    let min_len := if x.digits.length < y.digits.length then x.digits.length else y.digits.length
    if min_len < 16 then some (superlong_mul_simple x y)
    else
      let k := min_len / 2
      let b : superlong := { digits := superlong_init.digits ++ x.digits.take k, sign := 1 }
      let a : superlong := { digits := superlong_init.digits ++ x.digits.drop k, sign := 1 }
      let d : superlong := { digits := superlong_init.digits ++ y.digits.take k, sign := 1 }
      let c : superlong := { digits := superlong_init.digits ++ y.digits.drop k, sign := 1 }
      match mul_karatsuba_fuel depth a c with
      | none => none
      | some ac =>
        match mul_karatsuba_fuel depth b d with
        | none => none
        | some bd =>
          let a_b := superlong_add a b
          let c_d := superlong_add c d
          match mul_karatsuba_fuel depth a_b c_d with
          | none => none
          | some ad_bc_ac_bd =>
            let temp := superlong_sub ad_bc_ac_bd ac
            let ad_bc_ac_bd := superlong_sub temp bd
            let ac := superlong_shift_left_bytes ac (2 * k)
            let ad_bc_ac_bd := superlong_shift_left_bytes ad_bc_ac_bd k
            let temp := superlong_add ac ad_bc_ac_bd
            some (superlong_add temp bd)

/-- Along the loop of `superlong_div_uint10`, from the most significant digit
down, every `digit + remainder * 256` is at most 2559 and every new digit
`current / 10` is at most 255.  The remainder follows `div_uint10_loop`. -/
def div_uint10_loop_fits : List Nat → Bool
  | [] => true
  | d :: ds =>
    div_uint10_loop_fits ds &&
      decide (d + (div_uint10_loop ds).2 * 256 ≤ 2559) &&
      decide ((d + (div_uint10_loop ds).2 * 256) / 10 ≤ 255)

/-! ## Basic facts about magnitudes -/

theorem magnitude_append (xs ys : List Nat) :
    magnitude (xs ++ ys) = magnitude xs + 256 ^ xs.length * magnitude ys := by
  induction xs with
  | nil => simp [magnitude]
  | cons x xs ih =>
    rw [List.cons_append]
    simp only [magnitude, List.length_cons, pow_succ]
    rw [ih]
    ring

theorem magnitude_lt_pow (ds : List Nat) (h : digits_ok ds) :
    magnitude ds < 256 ^ ds.length := by
  induction ds with
  | nil => simp [magnitude]
  | cons d ds ih =>
    have hd : d < 256 := h d (List.mem_cons_self _ _)
    have ht : digits_ok ds := fun x hx => h x (List.mem_cons_of_mem _ hx)
    have := ih ht
    simp only [magnitude, List.length_cons, pow_succ]
    omega

theorem magnitude_replicate_zero (n : Nat) : magnitude (List.replicate n 0) = 0 := by
  induction n with
  | zero => rfl
  | succ n ih => simp [List.replicate_succ, magnitude, ih]

theorem magnitude_headD_tail (ds : List Nat) :
    magnitude ds = ds.headD 0 + 256 * magnitude ds.tail := by
  cases ds <;> simp [magnitude]

theorem digits_ok_tail (ds : List Nat) (h : digits_ok ds) : digits_ok ds.tail :=
  fun x hx => h x (List.mem_of_mem_tail hx)

theorem digits_ok_headD (ds : List Nat) (h : digits_ok ds) : ds.headD 0 < 256 := by
  cases ds with
  | nil => simp
  | cons d ds => exact h d (List.mem_cons_self _ _)

theorem digits_ok_cons {d : Nat} {ds : List Nat} :
    digits_ok (d :: ds) ↔ d < 256 ∧ digits_ok ds := by
  simp [digits_ok]

theorem digits_ok_append {xs ys : List Nat} :
    digits_ok (xs ++ ys) ↔ digits_ok xs ∧ digits_ok ys := by
  simp only [digits_ok, List.mem_append]
  constructor
  · intro h
    exact ⟨fun d hd => h d (Or.inl hd), fun d hd => h d (Or.inr hd)⟩
  · rintro ⟨h1, h2⟩ d (hd | hd)
    · exact h1 d hd
    · exact h2 d hd

/-- A digit sequence whose last digit is nonzero is at least `256 ^ (len - 1)`. -/
theorem magnitude_ge_pow (ds : List Nat) (x : Nat) (hl : ds.getLast? = some x) (hx : x ≠ 0) :
    256 ^ (ds.length - 1) ≤ magnitude ds := by
  have h := List.dropLast_append_getLast? x hl
  rw [← h, magnitude_append]
  simp only [List.length_append, List.length_singleton, Nat.add_sub_cancel, magnitude]
  have hx1 : 1 ≤ x := Nat.one_le_iff_ne_zero.mpr hx
  calc 256 ^ ds.dropLast.length = 256 ^ ds.dropLast.length * 1 := by ring
    _ ≤ 256 ^ ds.dropLast.length * (x + 256 * 0) := Nat.mul_le_mul_left _ (by omega)
    _ ≤ magnitude ds.dropLast + 256 ^ ds.dropLast.length * (x + 256 * 0) := Nat.le_add_left _ _

/-! ## The byte-flushing loop -/

theorem le_bytes_zero (fuel : Nat) : le_bytes fuel 0 = [] := by
  cases fuel <;> simp [le_bytes]

theorem le_bytes_spec (fuel n : Nat) (h : n ≤ fuel) :
    magnitude (le_bytes fuel n) = n ∧ digits_ok (le_bytes fuel n) ∧
      (le_bytes fuel n).getLast? ≠ some 0 := by
  induction fuel generalizing n with
  | zero =>
    have : n = 0 := by omega
    subst this
    simp [le_bytes, magnitude, digits_ok]
  | succ fuel ih =>
    by_cases hn : n > 0
    · have hlt : n / 256 ≤ fuel := by omega
      obtain ⟨h1, h2, h3⟩ := ih (n / 256) hlt
      simp only [le_bytes, hn, if_true]
      refine ⟨?_, ?_, ?_⟩
      · simp only [magnitude, h1]; omega
      · rw [digits_ok_cons]; exact ⟨by omega, h2⟩
      · by_cases hq : n / 256 = 0
        · rw [hq, le_bytes_zero]
          simp only [List.getLast?_singleton, ne_eq, Option.some.injEq]
          omega
        · cases hfu : le_bytes fuel (n / 256) with
          | nil =>
            rw [hfu] at h1
            simp [magnitude] at h1
            omega
          | cons y ys =>
            rw [hfu] at h3
            rw [List.getLast?_cons_cons]
            exact h3
    · have : n = 0 := by omega
      subst this
      simp [le_bytes, magnitude, digits_ok]

/-! ## Normalization -/

theorem normalize_loop_spec (fuel : Nat) (ds : List Nat) (h : ds.length ≤ fuel) :
    magnitude (normalize_loop fuel ds) = magnitude ds ∧
      (digits_ok ds → digits_ok (normalize_loop fuel ds)) ∧
      (normalize_loop fuel ds).length ≤ ds.length ∧
      (ds ≠ [] → normalize_loop fuel ds ≠ []) ∧
      ((normalize_loop fuel ds).getLast? ≠ some 0 ∨ normalize_loop fuel ds = [0]) := by
  induction fuel generalizing ds with
  | zero =>
    have : ds = [] := List.length_eq_zero.mp (by omega)
    subst this
    simp [normalize_loop]
  | succ fuel ih =>
    by_cases hc : ds.length > 1 ∧ ds.getLast? = some 0
    · have hdl := List.dropLast_append_getLast? 0 hc.2
      have hlen : ds.dropLast.length = ds.length - 1 := List.length_dropLast ds
      obtain ⟨h1, h2, h3, h4, h5⟩ := ih ds.dropLast (by omega)
      simp only [normalize_loop, hc, and_self, if_true]
      refine ⟨?_, ?_, ?_, ?_, h5⟩
      · rw [h1]
        conv_rhs => rw [← hdl]
        rw [magnitude_append]
        simp [magnitude]
      · intro hok
        apply h2
        rw [← hdl] at hok
        exact (digits_ok_append.mp hok).1
      · omega
      · intro _
        apply h4
        intro hnil
        rw [hnil] at hlen
        simp at hlen
        omega
    · have hre : normalize_loop (fuel + 1) ds = ds := by
        simp only [normalize_loop, hc, if_false]
      rw [hre]
      refine ⟨rfl, fun hok => hok, le_refl _, fun hne => hne, ?_⟩
      by_cases hl : ds.getLast? = some 0
      · right
        have hlen : ¬ ds.length > 1 := fun hgt => hc ⟨hgt, hl⟩
        match ds, hl, hlen with
        | [], hl, _ => simp at hl
        | [x], hl, _ =>
          simp at hl
          rw [hl]
        | x :: y :: zs, _, hlen => simp at hlen
      · left; exact hl

theorem nolead_mag_zero (nd : List Nat) (hl : nd.getLast? ≠ some 0 ∨ nd = [0])
    (hm : magnitude nd = 0) : nd = [] ∨ nd = [0] := by
  rcases hl with hl | hl
  · left
    cases hg : nd.getLast? with
    | none => exact List.getLast?_eq_none_iff.mp hg
    | some x =>
      have hx : x ≠ 0 := by
        intro hx0
        rw [hx0] at hg
        exact hl hg
      have := magnitude_ge_pow nd x hg hx
      have hpos : 0 < 256 ^ (nd.length - 1) := Nat.pow_pos (by norm_num)
      omega
  · right; exact hl

theorem is_zero_iff (ds : List Nat) (sg : Int) :
    superlong_is_zero ⟨ds, sg⟩ = true ↔ sg = 0 ∨ ds = [0] := by
  unfold superlong_is_zero
  by_cases h0 : sg = 0
  · simp [h0]
  · simp only [h0, if_false, false_or]
    match ds with
    | [] => simp
    | [x] => simp
    | x :: y :: zs => simp

/-- What `superlong_normalize` achieves on a buffer of bytes whose sign is in
range, provided a zero sign comes with a zero magnitude and a nonzero sign with
a nonempty buffer. -/
theorem normalize_spec (s : superlong) (hok : digits_ok s.digits)
    (hs : s.sign = 0 ∨ s.sign = 1 ∨ s.sign = -1)
    (hne : s.digits ≠ [] ∨ s.sign = 0)
    (hz : s.sign = 0 → magnitude s.digits = 0) :
    canonical (superlong_normalize s) ∧
      magnitude (superlong_normalize s).digits = magnitude s.digits ∧
      (superlong_normalize s).sign = (if magnitude s.digits = 0 then 0 else s.sign) ∧
      value (superlong_normalize s) = value s ∧
      (superlong_normalize s).digits.length ≤ s.digits.length ∧
      (s.digits ≠ [] → (superlong_normalize s).digits ≠ []) := by
  obtain ⟨ds, sg⟩ := s
  simp only at hok hs hne hz
  obtain ⟨h1, h2, h3, h4, h5⟩ := normalize_loop_spec ds.length ds (le_refl _)
  unfold superlong_normalize
  simp only [is_zero_iff]
  by_cases h0 : sg = 0
  · subst h0
    have hm := hz rfl
    simp only [true_or, if_true, hm, value]
    refine ⟨⟨h2 hok, Or.inl rfl, ?_, h5⟩, ?_, trivial, ?_, h3, h4⟩
    · simp [h1, hm]
    · rw [h1, hm]
    · simp
  · have hds : ds ≠ [] := by
      rcases hne with hne | hne
      · exact hne
      · exact absurd hne h0
    simp only [h0, false_or]
    by_cases hnz : normalize_loop ds.length ds = [0]
    · have hm : magnitude ds = 0 := by
        rw [← h1, hnz]; simp [magnitude]
      simp only [hnz, if_true, hm, value]
      refine ⟨⟨?_, Or.inl rfl, ?_, Or.inr rfl⟩, ?_, trivial, ?_, ?_, ?_⟩
      · simp [digits_ok]
      · simp [magnitude]
      · simp [magnitude]
      · simp [magnitude]
      · rw [hnz] at h3; exact h3
      · intro _; simp
    · have hm : magnitude ds ≠ 0 := by
        intro hm
        rw [← h1] at hm
        rcases nolead_mag_zero _ h5 hm with h | h
        · exact h4 hds h
        · exact hnz h
      simp only [hnz, if_false, hm, value]
      refine ⟨⟨h2 hok, hs, ?_, h5⟩, h1, trivial, ?_, h3, h4⟩
      · simp [h0, h1, hm]
      · rw [h1]

/-! ## Magnitude addition, subtraction and comparison -/

theorem abs_add_loop_spec (n : Nat) (as bs : List Nat) (carry : Nat)
    (ha : as.length ≤ n) (hb : bs.length ≤ n) (hc : carry ≤ 1)
    (hoa : digits_ok as) (hob : digits_ok bs) :
    magnitude (abs_add_loop n as bs carry) = magnitude as + magnitude bs + carry ∧
      digits_ok (abs_add_loop n as bs carry) ∧
      (0 < n → abs_add_loop n as bs carry ≠ []) := by
  induction n generalizing as bs carry with
  | zero =>
    have h1 : as = [] := List.length_eq_zero.mp (by omega)
    have h2 : bs = [] := List.length_eq_zero.mp (by omega)
    subst h1 h2
    simp only [abs_add_loop]
    by_cases h : carry > 0
    · have : carry = 1 := by omega
      subst this
      simp [magnitude, digits_ok]
    · have : carry = 0 := by omega
      subst this
      simp [magnitude, digits_ok]
  | succ n ih =>
    have hda := digits_ok_headD as hoa
    have hdb := digits_ok_headD bs hob
    have hla : as.tail.length ≤ n := by rw [List.length_tail]; omega
    have hlb : bs.tail.length ≤ n := by rw [List.length_tail]; omega
    have hsum : (carry + as.headD 0 + bs.headD 0) % 65536 = carry + as.headD 0 + bs.headD 0 :=
      Nat.mod_eq_of_lt (by omega)
    obtain ⟨h1, h2, _⟩ := ih as.tail bs.tail ((carry + as.headD 0 + bs.headD 0) / 256)
      hla hlb (by omega) (digits_ok_tail as hoa) (digits_ok_tail bs hob)
    simp only [abs_add_loop, hsum]
    refine ⟨?_, ?_, fun _ => by simp⟩
    · simp only [magnitude, h1]
      rw [magnitude_headD_tail as, magnitude_headD_tail bs]
      omega
    · rw [digits_ok_cons]
      exact ⟨Nat.mod_lt _ (by norm_num), h2⟩

theorem abs_sub_loop_spec (as bs : List Nat) (borrow : Int)
    (hb : borrow = 0 ∨ borrow = 1) (hoa : digits_ok as) (hob : digits_ok bs)
    (hlen : bs.length ≤ as.length) :
    (abs_sub_loop as bs borrow).length = as.length ∧
      digits_ok (abs_sub_loop as bs borrow) ∧
      ∃ bout : Int, (bout = 0 ∨ bout = 1) ∧
        (magnitude (abs_sub_loop as bs borrow) : Int) + magnitude bs + borrow =
          magnitude as + 256 ^ as.length * bout := by
  induction as generalizing bs borrow with
  | nil =>
    have h2 : bs = [] := List.length_eq_zero.mp (by simpa using hlen)
    subst h2
    refine ⟨rfl, by simp [abs_sub_loop, digits_ok], borrow, hb, ?_⟩
    simp [abs_sub_loop, magnitude]
  | cons da as ih =>
    have hda : da < 256 := (digits_ok_cons.mp hoa).1
    have hoa2 : digits_ok as := (digits_ok_cons.mp hoa).2
    have hdb := digits_ok_headD bs hob
    have hlb : bs.tail.length ≤ as.length := by
      rw [List.length_tail]; simp only [List.length_cons] at hlen; omega
    have hmb := magnitude_headD_tail bs
    by_cases hd : (da : Int) - (bs.headD 0 : Int) - borrow < 0
    · obtain ⟨h1, h2, bout, hbo, h3⟩ := ih bs.tail 1 (Or.inr rfl) hoa2 (digits_ok_tail bs hob) hlb
      simp only [abs_sub_loop, hd, if_true]
      have hdig : (((da : Int) - (bs.headD 0 : Int) - borrow + 256) % 256).toNat < 256 := by
        omega
      have hval : ((((da : Int) - (bs.headD 0 : Int) - borrow + 256) % 256).toNat : Int) =
          (da : Int) - (bs.headD 0 : Int) - borrow + 256 := by
        omega
      refine ⟨by simp [h1], digits_ok_cons.mpr ⟨hdig, h2⟩, bout, hbo, ?_⟩
      simp only [magnitude, List.length_cons, pow_succ]
      push_cast
      rw [hval, hmb]
      push_cast
      linear_combination 256 * h3
    · obtain ⟨h1, h2, bout, hbo, h3⟩ := ih bs.tail 0 (Or.inl rfl) hoa2 (digits_ok_tail bs hob) hlb
      simp only [abs_sub_loop, hd, if_false]
      have hdig : (((da : Int) - (bs.headD 0 : Int) - borrow) % 256).toNat < 256 := by
        omega
      have hval : ((((da : Int) - (bs.headD 0 : Int) - borrow) % 256).toNat : Int) =
          (da : Int) - (bs.headD 0 : Int) - borrow := by
        omega
      refine ⟨by simp [h1], digits_ok_cons.mpr ⟨hdig, h2⟩, bout, hbo, ?_⟩
      simp only [magnitude, List.length_cons, pow_succ]
      push_cast
      rw [hval, hmb]
      push_cast
      linear_combination 256 * h3

/-- When the minuend is at least the subtrahend, the borrow loop computes the
difference of the magnitudes. -/
theorem abs_sub_loop_value (as bs : List Nat) (hoa : digits_ok as) (hob : digits_ok bs)
    (hlen : bs.length ≤ as.length) (hge : magnitude bs ≤ magnitude as) :
    magnitude (abs_sub_loop as bs 0) = magnitude as - magnitude bs := by
  obtain ⟨h1, h2, bout, hbo, h3⟩ := abs_sub_loop_spec as bs 0 (Or.inl rfl) hoa hob hlen
  have hlt := magnitude_lt_pow _ h2
  rw [h1] at hlt
  have hlt2 : (magnitude (abs_sub_loop as bs 0) : Int) < 256 ^ as.length := by
    exact_mod_cast hlt
  have hge2 : (magnitude bs : Int) ≤ magnitude as := by exact_mod_cast hge
  rcases hbo with hbo | hbo
  · subst hbo
    have h4 : (magnitude (abs_sub_loop as bs 0) : Int) = magnitude as - magnitude bs := by
      linarith
    omega
  · subst hbo
    have h5 : (0 : Int) ≤ magnitude bs := by positivity
    linarith

theorem magnitude_reverse_cons (d : Nat) (ds : List Nat) :
    magnitude (d :: ds).reverse = magnitude ds.reverse + 256 ^ ds.length * d := by
  rw [List.reverse_cons, magnitude_append]
  simp [magnitude]

theorem digits_ok_reverse (ds : List Nat) (h : digits_ok ds) : digits_ok ds.reverse :=
  fun d hd => h d (List.mem_reverse.mp hd)

theorem abs_compare_loop_spec (ra rb : List Nat) (hlen : ra.length = rb.length)
    (hoa : digits_ok ra) (hob : digits_ok rb) :
    (abs_compare_loop ra rb = 1 ∧ magnitude rb.reverse < magnitude ra.reverse) ∨
      (abs_compare_loop ra rb = 0 ∧ ra = rb) ∨
      (abs_compare_loop ra rb = -1 ∧ magnitude ra.reverse < magnitude rb.reverse) := by
  induction ra generalizing rb with
  | nil =>
    have : rb = [] := List.length_eq_zero.mp (by simpa using hlen.symm)
    subst this
    right; left
    simp [abs_compare_loop]
  | cons da as ih =>
    match rb, hlen, hob with
    | [], hlen, _ => simp at hlen
    | db :: bs, hlen, hob =>
      have hl : as.length = bs.length := by simpa using hlen
      have hoa2 := (digits_ok_cons.mp hoa).2
      have hob2 := (digits_ok_cons.mp hob).2
      have hma := magnitude_lt_pow _ (digits_ok_reverse _ hoa2)
      have hmb := magnitude_lt_pow _ (digits_ok_reverse _ hob2)
      rw [List.length_reverse] at hma hmb
      rw [magnitude_reverse_cons, magnitude_reverse_cons, hl]
      rw [hl] at hma
      by_cases hd : da = db
      · subst hd
        simp only [abs_compare_loop, ne_eq, not_true_eq_false, if_false]
        rcases ih bs hl hoa2 hob2 with h | h | h
        · left; exact ⟨h.1, by omega⟩
        · right; left; exact ⟨h.1, by rw [h.2]⟩
        · right; right; exact ⟨h.1, by omega⟩
      · simp only [abs_compare_loop, ne_eq, hd, not_false_eq_true, if_true]
        by_cases hgt : da > db
        · left
          simp only [hgt, if_true, true_and]
          have : 256 ^ bs.length * (db + 1) ≤ 256 ^ bs.length * da :=
            Nat.mul_le_mul_left _ hgt
          rw [Nat.mul_add] at this
          omega
        · right; right
          simp only [hgt, if_false, true_and]
          have hlt : da + 1 ≤ db := by omega
          have : 256 ^ bs.length * (da + 1) ≤ 256 ^ bs.length * db :=
            Nat.mul_le_mul_left _ hlt
          rw [Nat.mul_add] at this
          omega

/-- `superlong_abs_compare` orders two byte buffers without a leading zero
digit by magnitude. -/
theorem abs_compare_spec (a b : superlong) (hoa : digits_ok a.digits) (hob : digits_ok b.digits)
    (hla : ∃ x, a.digits.getLast? = some x ∧ x ≠ 0)
    (hlb : ∃ x, b.digits.getLast? = some x ∧ x ≠ 0) :
    (superlong_abs_compare a b = 1 ∧ magnitude b.digits < magnitude a.digits) ∨
      (superlong_abs_compare a b = 0 ∧ a.digits = b.digits) ∨
      (superlong_abs_compare a b = -1 ∧ magnitude a.digits < magnitude b.digits) := by
  obtain ⟨xa, hxa, hxa0⟩ := hla
  obtain ⟨xb, hxb, hxb0⟩ := hlb
  have hga := magnitude_ge_pow _ _ hxa hxa0
  have hgb := magnitude_ge_pow _ _ hxb hxb0
  have hua := magnitude_lt_pow _ hoa
  have hub := magnitude_lt_pow _ hob
  unfold superlong_abs_compare
  by_cases hlen : a.digits.length = b.digits.length
  · simp only [hlen, ne_eq, not_true_eq_false, if_false]
    have := abs_compare_loop_spec a.digits.reverse b.digits.reverse
      (by simp [hlen]) (digits_ok_reverse _ hoa) (digits_ok_reverse _ hob)
    simp only [List.reverse_reverse, List.reverse_inj] at this
    exact this
  · simp only [ne_eq, hlen, not_false_eq_true, if_true]
    by_cases hgt : a.digits.length > b.digits.length
    · left
      simp only [hgt, if_true, true_and]
      have : 256 ^ b.digits.length ≤ 256 ^ (a.digits.length - 1) :=
        Nat.pow_le_pow_right (by norm_num) (by omega)
      omega
    · right; right
      simp only [hgt, if_false, true_and]
      have : 256 ^ a.digits.length ≤ 256 ^ (b.digits.length - 1) :=
        Nat.pow_le_pow_right (by norm_num) (by omega)
      omega

theorem canonical_nonzero_last (a : superlong) (h : canonical a) (hs : a.sign ≠ 0) :
    ∃ x, a.digits.getLast? = some x ∧ x ≠ 0 := by
  obtain ⟨_, _, h3, h4⟩ := h
  have hm : magnitude a.digits ≠ 0 := fun hm => hs (h3.mpr hm)
  rcases h4 with h4 | h4
  · cases hg : a.digits.getLast? with
    | none =>
      have := List.getLast?_eq_none_iff.mp hg
      rw [this] at hm
      exact absurd rfl hm
    | some x =>
      refine ⟨x, rfl, ?_⟩
      intro hx
      rw [hx] at hg
      exact h4 hg
  · rw [h4] at hm
    exact absurd rfl hm

/-! ## Signed addition and subtraction: correctness -/

theorem normalize_digits (s : superlong) :
    (superlong_normalize s).digits = normalize_loop s.digits.length s.digits := by
  unfold superlong_normalize
  simp only
  split <;> rfl

theorem copy_eq (a : superlong) : superlong_copy a = a := by
  simp [superlong_copy, superlong_clean]

theorem length_le_of_magnitude_le (as bs : List Nat)
    (hla : ∃ x, as.getLast? = some x ∧ x ≠ 0) (hob : digits_ok bs)
    (hle : magnitude as ≤ magnitude bs) : as.length ≤ bs.length := by
  obtain ⟨x, hx, hx0⟩ := hla
  have h1 := magnitude_ge_pow _ _ hx hx0
  have h2 := magnitude_lt_pow _ hob
  by_contra hcon
  have : 256 ^ bs.length ≤ 256 ^ (as.length - 1) :=
    Nat.pow_le_pow_right (by norm_num) (by omega)
  omega

/-- The digits and value left by `superlong_abs_sub` followed by the sign
assignment and the final `superlong_normalize` of `superlong_add`. -/
theorem sub_branch_spec (a b : superlong) (sg : Int) (hoa : digits_ok a.digits)
    (hob : digits_ok b.digits) (hlb : ∃ x, b.digits.getLast? = some x ∧ x ≠ 0)
    (hsg : sg = 1 ∨ sg = -1) (hlt : magnitude b.digits < magnitude a.digits) :
    canonical (superlong_normalize { superlong_abs_sub a b with sign := sg }) ∧
      value (superlong_normalize { superlong_abs_sub a b with sign := sg }) =
        sg * ((magnitude a.digits : Int) - magnitude b.digits) := by
  have hlen := length_le_of_magnitude_le _ _ hlb hoa (Nat.le_of_lt hlt)
  obtain ⟨h1, h2, _⟩ := abs_sub_loop_spec a.digits b.digits 0 (Or.inl rfl) hoa hob hlen
  have hv := abs_sub_loop_value a.digits b.digits hoa hob hlen (Nat.le_of_lt hlt)
  have hd : (superlong_abs_sub a b).digits =
      normalize_loop (abs_sub_loop a.digits b.digits 0).length (abs_sub_loop a.digits b.digits 0) := by
    unfold superlong_abs_sub
    rw [normalize_digits]
  obtain ⟨n1, n2, _, n4, _⟩ := normalize_loop_spec _ (abs_sub_loop a.digits b.digits 0) (le_refl _)
  have hane : a.digits ≠ [] := by
    intro h
    rw [h] at hlt
    simp [magnitude] at hlt
  have hne : abs_sub_loop a.digits b.digits 0 ≠ [] := by
    intro h
    rw [h] at h1
    exact hane (List.length_eq_zero.mp h1.symm)
  have hsg0 : sg ≠ 0 := by rcases hsg with h | h <;> rw [h] <;> decide
  obtain ⟨c1, c2, _, c4, _⟩ := normalize_spec { superlong_abs_sub a b with sign := sg }
    (by simp only [hd]; exact n2 h2)
    (by simp only; exact Or.inr hsg)
    (by left; simp only [hd]; exact n4 hne)
    (by intro h; exact absurd h hsg0)
  refine ⟨c1, ?_⟩
  rw [c4]
  simp only [value, hd, n1, hv]
  rw [Nat.cast_sub (Nat.le_of_lt hlt)]

theorem add_spec (a b : superlong) (ha : canonical a) (hb : canonical b) :
    canonical (superlong_add a b) ∧ value (superlong_add a b) = value a + value b := by
  unfold superlong_add
  by_cases ha0 : a.sign = 0
  · simp only [ha0, if_true, copy_eq]
    exact ⟨hb, by simp [value, ha0]⟩
  by_cases hb0 : b.sign = 0
  · simp only [ha0, hb0, if_true, if_false, copy_eq]
    exact ⟨ha, by simp [value, hb0]⟩
  simp only [ha0, hb0, if_false]
  have hla := canonical_nonzero_last a ha ha0
  have hlb := canonical_nonzero_last b hb hb0
  obtain ⟨hoa, hsa, hza, _⟩ := ha
  obtain ⟨hob, hsb, hzb, _⟩ := hb
  have hsa1 : a.sign = 1 ∨ a.sign = -1 := by
    rcases hsa with h | h
    · exact absurd h ha0
    · exact h
  have hsb1 : b.sign = 1 ∨ b.sign = -1 := by
    rcases hsb with h | h
    · exact absurd h hb0
    · exact h
  by_cases heq : a.sign = b.sign
  · simp only [heq, if_true]
    have hmax : ∀ (m : Nat), a.digits.length ≤ m → b.digits.length ≤ m → 0 < m →
        canonical (superlong_normalize
          { superlong_normalize { superlong_clean with digits := abs_add_loop m a.digits b.digits 0 }
            with sign := b.sign }) ∧
        value (superlong_normalize
          { superlong_normalize { superlong_clean with digits := abs_add_loop m a.digits b.digits 0 }
            with sign := b.sign }) = value a + value b := by
      intro m hm1 hm2 hm3
      obtain ⟨h1, h2, h3⟩ := abs_add_loop_spec m a.digits b.digits 0 hm1 hm2 (by omega) hoa hob
      obtain ⟨n1, n2, _, n4, _⟩ := normalize_loop_spec _ (abs_add_loop m a.digits b.digits 0)
        (le_refl _)
      obtain ⟨c1, _, _, c4, _⟩ := normalize_spec
        { superlong_normalize { superlong_clean with digits := abs_add_loop m a.digits b.digits 0 }
            with sign := b.sign }
        (by simp only [normalize_digits]; exact n2 h2)
        (by simp only; exact Or.inr hsb1)
        (by left; simp only [normalize_digits]; exact n4 (h3 hm3))
        (by intro h; exact absurd h hb0)
      refine ⟨c1, ?_⟩
      rw [c4]
      simp only [value, normalize_digits, n1, h1, heq]
      push_cast
      ring
    have hapos : 0 < a.digits.length := by
      obtain ⟨x, hx, _⟩ := hla
      rcases Nat.eq_zero_or_pos a.digits.length with h | h
      · rw [List.length_eq_zero.mp h] at hx
        simp at hx
      · exact h
    unfold superlong_abs_add
    simp only
    split
    · exact hmax _ (le_refl _) (by omega) hapos
    · exact hmax _ (by omega) (le_refl _) (by omega)
  · simp only [heq, if_false]
    have hneg : a.sign = -b.sign := by
      rcases hsa1 with h1 | h1 <;> rcases hsb1 with h2 | h2 <;> rw [h1, h2] at heq ⊢ <;> simp at heq ⊢
    rcases abs_compare_spec a b hoa hob hla hlb with ⟨hc, hm⟩ | ⟨hc, hm⟩ | ⟨hc, hm⟩
    · simp only [hc, one_ne_zero, if_false, gt_iff_lt, zero_lt_one, if_true]
      obtain ⟨c1, c2⟩ := sub_branch_spec a b a.sign hoa hob hlb hsa1 hm
      refine ⟨c1, ?_⟩
      rw [c2]
      simp only [value, hneg]
      ring
    · simp only [hc, if_true]
      obtain ⟨c1, _, _, c4, _⟩ := normalize_spec { superlong_clean with sign := 0 }
        (by simp [superlong_clean, digits_ok]) (Or.inl rfl) (Or.inr rfl)
        (by intro _; simp [superlong_clean, magnitude])
      refine ⟨c1, ?_⟩
      rw [c4]
      simp only [value, hm, hneg, superlong_clean]
      simp
    · simp only [hc]
      have e1 : ((-1 : Int) = 0) = False := by simp
      have e2 : ((-1 : Int) > 0) = False := by simp
      simp only [e1, e2, if_false]
      obtain ⟨c1, c2⟩ := sub_branch_spec b a b.sign hob hoa hla hsb1 hm
      refine ⟨c1, ?_⟩
      rw [c2]
      simp only [value, hneg]
      ring

theorem negated_copy_spec (b : superlong) (hb : canonical b) :
    canonical (if (superlong_copy b).sign ≠ 0
        then { superlong_copy b with sign := -(superlong_copy b).sign } else superlong_copy b) ∧
      value (if (superlong_copy b).sign ≠ 0
        then { superlong_copy b with sign := -(superlong_copy b).sign } else superlong_copy b) =
        -value b := by
  rw [copy_eq]
  obtain ⟨h1, h2, h3, h4⟩ := hb
  by_cases h0 : b.sign = 0
  · simp only [h0, ne_eq, not_true_eq_false, if_false]
    exact ⟨⟨h1, h2, h3, h4⟩, by simp [value, h0]⟩
  · simp only [ne_eq, h0, not_false_eq_true, if_true]
    refine ⟨⟨h1, ?_, ?_, h4⟩, ?_⟩
    · simp only
      rcases h2 with h | h | h
      · exact absurd h h0
      · right; right; rw [h]
      · right; left; rw [h]; rfl
    · simp only [neg_eq_zero]
      exact h3
    · simp [value]

theorem sub_spec (a b : superlong) (ha : canonical a) (hb : canonical b) :
    canonical (superlong_sub a b) ∧ value (superlong_sub a b) = value a - value b := by
  unfold superlong_sub
  simp only
  obtain ⟨n1, n2⟩ := negated_copy_spec b hb
  obtain ⟨c1, c2⟩ := add_spec a _ ha n1
  refine ⟨c1, ?_⟩
  rw [c2, n2]
  ring

/-! ## More fuel never changes a result -/

theorem bin_find_digit_loop_succ (remainder divisor : superlong) (fuel left right best v : Nat)
    (h : bin_find_digit_loop remainder divisor fuel left right best = some v) :
    bin_find_digit_loop remainder divisor (fuel + 1) left right best = some v := by
  induction fuel generalizing left right best with
  | zero =>
    simp only [bin_find_digit_loop] at h
    by_cases hlr : left ≤ right
    · simp [hlr] at h
    · simp only [hlr, if_false] at h
      simp only [bin_find_digit_loop, hlr, if_false]
      exact h
  | succ fuel ih =>
    rw [bin_find_digit_loop] at h
    rw [bin_find_digit_loop]
    by_cases hlr : left ≤ right
    · simp only [hlr, if_true] at h ⊢
      split
      · rename_i hc
        simp only [hc, if_true] at h
        exact ih _ _ _ h
      · rename_i hc
        simp only [hc, if_false] at h
        exact ih _ _ _ h
    · simp only [hlr, if_false] at h ⊢
      exact h

theorem bin_find_digit_mono (remainder divisor : superlong) (fuel fuel2 v : Nat)
    (hle : fuel ≤ fuel2) (h : bin_find_digit fuel remainder divisor = some v) :
    bin_find_digit fuel2 remainder divisor = some v := by
  unfold bin_find_digit at h ⊢
  induction hle with
  | refl => exact h
  | step _ ih => exact bin_find_digit_loop_succ _ _ _ _ _ _ _ ih

theorem div_loop_mono (fuel fuel2 : Nat) (hle : fuel ≤ fuel2) (divis : superlong)
    (ds : List Nat) (remaind : superlong) (q_digits q : List Nat)
    (h : div_loop fuel divis ds remaind q_digits = some q) :
    div_loop fuel2 divis ds remaind q_digits = some q := by
  induction ds generalizing remaind q_digits with
  | nil =>
    simp only [div_loop] at h ⊢
    exact h
  | cons d ds ih =>
    rw [div_loop] at h
    rw [div_loop]
    simp only at h ⊢
    split
    · rename_i hc
      simp only [hc, if_true] at h
      cases hb : bin_find_digit fuel
          (superlong_add (superlong_mul_uint remaind 256) (superlong_from_uint d)) divis with
      | none => simp [hb] at h
      | some qd =>
        rw [bin_find_digit_mono _ _ fuel fuel2 qd hle hb]
        simp only [hb] at h
        exact ih _ _ h
    · rename_i hc
      simp only [hc, if_false] at h
      exact ih _ _ h

theorem superlong_div_mono (fuel fuel2 : Nat) (hle : fuel ≤ fuel2) (a b res r : superlong)
    (h : superlong_div fuel a b res = Outcome.returned r) :
    superlong_div fuel2 a b res = Outcome.returned r := by
  unfold superlong_div at h ⊢
  simp only at h ⊢
  by_cases h1 : b.sign = 0
  · rw [if_pos h1] at h
    simp at h
  rw [if_neg h1] at h ⊢
  by_cases h2 : a.sign = 0
  · rw [if_pos h2] at h ⊢
    exact h
  rw [if_neg h2] at h ⊢
  by_cases h3 : b.digits.length ≤ 4 ∧ abs_compare_uint_loop b.digits 0 0 ≠ 0
  · rw [if_pos h3] at h ⊢
    exact h
  rw [if_neg h3] at h ⊢
  by_cases h4 : superlong_abs_compare { superlong_copy a with sign := 1 }
      { superlong_copy b with sign := 1 } < 0
  · rw [if_pos h4] at h ⊢
    exact h
  rw [if_neg h4] at h ⊢
  cases hd : div_loop fuel { superlong_copy b with sign := 1 }
      ({ superlong_copy a with sign := 1 } : superlong).digits.reverse
      (superlong_from_uint 0) [] with
  | none =>
    simp only at hd
    simp [hd] at h
  | some q =>
    have hd2 := div_loop_mono fuel fuel2 hle _ _ _ _ q hd
    simp only at hd hd2
    rw [hd2]
    rw [hd] at h
    exact h

/-! ## Decimal conversion: correctness -/

theorem div_uint10_loop_spec (ds : List Nat) (hok : digits_ok ds) :
    magnitude (div_uint10_loop ds).1 = magnitude ds / 10 ∧
      (div_uint10_loop ds).2 = magnitude ds % 10 ∧
      digits_ok (div_uint10_loop ds).1 ∧
      (div_uint10_loop ds).1.length = ds.length := by
  induction ds with
  | nil => simp [div_uint10_loop, magnitude, digits_ok]
  | cons d ds ih =>
    have hd : d < 256 := (digits_ok_cons.mp hok).1
    obtain ⟨h1, h2, h3, h4⟩ := ih (digits_ok_cons.mp hok).2
    have hr : (div_uint10_loop ds).2 < 10 := by rw [h2]; exact Nat.mod_lt _ (by norm_num)
    have hcur : (d + (div_uint10_loop ds).2 * 256) % 65536 =
        d + (div_uint10_loop ds).2 * 256 := by omega
    simp only [div_uint10_loop, hcur]
    refine ⟨?_, ?_, ?_, ?_⟩
    · simp only [magnitude, h1]
      rw [h2]
      omega
    · simp only [magnitude]
      rw [h2]
      omega
    · rw [digits_ok_cons]
      exact ⟨Nat.mod_lt _ (by norm_num), h3⟩
    · simp [h4]

/-- The state of the working copy inside `superlong_to_decimal_str`: a
canonical, non-negative number with a nonempty buffer. -/
theorem div_uint10_spec (temp : superlong) (hc : canonical temp) (hne : temp.digits ≠ [])
    (hs : temp.sign = 1) :
    canonical (superlong_div_uint10 temp).1 ∧ (superlong_div_uint10 temp).1.digits ≠ [] ∧
      ((superlong_div_uint10 temp).1.sign = 1 ∨ (superlong_div_uint10 temp).1.sign = 0) ∧
      magnitude (superlong_div_uint10 temp).1.digits = magnitude temp.digits / 10 ∧
      (superlong_div_uint10 temp).2 = magnitude temp.digits % 10 ∧
      (superlong_div_uint10 temp).1.digits.length ≤ temp.digits.length := by
  obtain ⟨hok, _, _, _⟩ := hc
  obtain ⟨h1, h2, h3, h4⟩ := div_uint10_loop_spec temp.digits hok
  have hne2 : (div_uint10_loop temp.digits).1 ≠ [] := by
    intro h
    rw [h] at h4
    exact hne (List.length_eq_zero.mp h4.symm)
  obtain ⟨c1, c2, c3, _, c5, c6⟩ := normalize_spec
    { temp with digits := (div_uint10_loop temp.digits).1 }
    h3 (by simp only; exact Or.inr (Or.inl hs)) (Or.inl hne2)
    (by simp only; intro h; rw [hs] at h; exact absurd h one_ne_zero)
  simp only at c2 c3 c5 c6
  unfold superlong_div_uint10
  simp only
  refine ⟨c1, c6 hne2, ?_, by rw [c2, h1], h2, by rw [← h4]; exact c5⟩
  rw [c3, hs]
  split
  · right; rfl
  · left; rfl

theorem is_zero_canonical (a : superlong) (hc : canonical a) :
    superlong_is_zero a = true ↔ magnitude a.digits = 0 := by
  obtain ⟨ds, sg⟩ := a
  obtain ⟨_, _, h3, _⟩ := hc
  simp only at h3
  rw [is_zero_iff]
  constructor
  · rintro (h | h)
    · exact h3.mp h
    · rw [h]; simp [magnitude]
  · intro h
    exact Or.inl (h3.mpr h)

theorem digit_char_eq (r : Nat) (h : r < 10) :
    Char.ofNat ((48 + r) % 256) = Nat.digitChar r := by
  interval_cases r <;> rfl

/-- The digit loop writes, least significant first, exactly the characters that
`Nat.toDigitsCore` produces for the magnitude, provided the scratch buffer has
room for them. -/
theorem to_decimal_loop_spec (room : Nat) (temp : superlong) (acc : List Char)
    (hc : canonical temp) (hne : temp.digits ≠ []) (hs : temp.sign = 1 ∨ temp.sign = 0)
    (hpos : magnitude temp.digits ≠ 0) (hroom : magnitude temp.digits < 10 ^ room) :
    ∃ l, to_decimal_loop room temp acc = some l ∧
      ∀ fuel ds, magnitude temp.digits < fuel →
        l.reverse ++ ds = Nat.toDigitsCore 10 fuel (magnitude temp.digits) (acc.reverse ++ ds) := by
  induction room generalizing temp acc with
  | zero =>
    simp only [pow_zero, Nat.lt_one_iff] at hroom
    exact absurd hroom hpos
  | succ room ih =>
    have hnz : ¬ superlong_is_zero temp = true := by
      rw [is_zero_canonical temp hc]; exact hpos
    have hs1 : temp.sign = 1 := by
      rcases hs with h | h
      · exact h
      · exact absurd (hc.2.2.1.mp h) hpos
    obtain ⟨d1, d2, d3, d4, d5, _⟩ := div_uint10_spec temp hc hne hs1
    have hrem : (superlong_div_uint10 temp).2 < 10 := by
      rw [d5]; exact Nat.mod_lt _ (by norm_num)
    rw [to_decimal_loop]
    simp only [hnz, if_false]
    rw [digit_char_eq _ hrem, d5]
    by_cases hq : magnitude temp.digits / 10 = 0
    · have hz : superlong_is_zero (superlong_div_uint10 temp).1 = true := by
        rw [is_zero_canonical _ d1, d4]; exact hq
      refine ⟨acc ++ [Nat.digitChar (magnitude temp.digits % 10)], ?_, ?_⟩
      · cases room with
        | zero => simp [to_decimal_loop, hz]
        | succ room => simp [to_decimal_loop, hz]
      · intro fuel ds hf
        cases fuel with
        | zero => omega
        | succ fuel =>
          rw [Nat.toDigitsCore]
          simp [hq]
    · have hroom2 : magnitude (superlong_div_uint10 temp).1.digits < 10 ^ room := by
        rw [d4]
        rw [pow_succ] at hroom
        omega
      obtain ⟨l, hl1, hl2⟩ := ih (superlong_div_uint10 temp).1
        (acc ++ [Nat.digitChar (magnitude temp.digits % 10)]) d1 d2 d3 (by rw [d4]; exact hq) hroom2
      refine ⟨l, hl1, ?_⟩
      intro fuel ds hf
      cases fuel with
      | zero => omega
      | succ fuel =>
        rw [Nat.toDigitsCore]
        simp only [hq, if_false]
        have := hl2 fuel ds (by rw [d4]; omega)
        rw [this, d4]
        simp

theorem pow256_le_pow10 (n : Nat) : 256 ^ n ≤ 10 ^ (n * 3 + 10) := by
  calc 256 ^ n ≤ 1000 ^ n := Nat.pow_le_pow_left (by norm_num) n
    _ = 10 ^ (n * 3) := by rw [Nat.mul_comm, pow_mul]; norm_num
    _ ≤ 10 ^ (n * 3 + 10) := Nat.pow_le_pow_right (by norm_num) (by omega)

/-- The numeral printed by `Nat.toDigitsCore` for a positive number does not
start with the character 0. -/
theorem toDigitsCore_head (fuel v : Nat) (ds : List Char) (hv : 0 < v) (hf : v < fuel) :
    (Nat.toDigitsCore 10 fuel v ds).head? ≠ some '0' := by
  induction fuel generalizing v ds with
  | zero => omega
  | succ fuel ih =>
    rw [Nat.toDigitsCore]
    by_cases hq : v / 10 = 0
    · simp only [hq, if_true, List.head?_cons, ne_eq, Option.some.injEq]
      have h9 : v < 10 := by omega
      have : v % 10 = v := Nat.mod_eq_of_lt h9
      rw [this]
      interval_cases v <;> decide
    · simp only [hq, if_false]
      exact ih (v / 10) _ (by omega) (by omega)

theorem to_decimal_str_spec (a : superlong) (h : canonical a) :
    superlong_to_decimal_str a =
      some (if a.sign = 0 then "0"
        else if a.sign < 0 then "-" ++ Nat.repr (magnitude a.digits)
        else Nat.repr (magnitude a.digits)) := by
  unfold superlong_to_decimal_str
  by_cases h0 : a.sign = 0
  · have hz : superlong_is_zero a = true := by
      rw [is_zero_canonical a h]; exact h.2.2.1.mp h0
    simp [hz, h0]
  · have hm : magnitude a.digits ≠ 0 := fun hm => h0 (h.2.2.1.mpr hm)
    have hnz : ¬ superlong_is_zero a = true := by
      rw [is_zero_canonical a h]; exact hm
    have hne : a.digits ≠ [] := by
      intro hnil
      rw [hnil] at hm
      exact hm rfl
    have hct : canonical ({ superlong_copy a with sign := 1 } : superlong) := by
      rw [copy_eq]
      obtain ⟨h1, _, _, h4⟩ := h
      exact ⟨h1, Or.inr (Or.inl rfl), by simp [hm], h4⟩
    have hroom : magnitude a.digits < 10 ^ (a.digits.length * 3 + 10) :=
      lt_of_lt_of_le (magnitude_lt_pow _ h.1) (pow256_le_pow10 _)
    obtain ⟨l, hl1, hl2⟩ := to_decimal_loop_spec (a.digits.length * 3 + 10)
      { superlong_copy a with sign := 1 } []
      hct (by rw [copy_eq]; exact hne) (Or.inl rfl) (by rw [copy_eq]; exact hm)
      (by rw [copy_eq]; exact hroom)
    have hl3 := hl2 (magnitude a.digits + 1) [] (by simp only [copy_eq]; omega)
    simp only [copy_eq, List.append_nil, List.reverse_nil] at hl3 hl1
    simp only [hnz, if_false, h0, copy_eq, hl1]
    have hrepr : Nat.repr (magnitude a.digits) = String.mk l.reverse := by
      rw [hl3]; rfl
    rw [hrepr]
    by_cases hneg : a.sign < 0
    · simp only [hneg, if_true]
      rfl
    · simp only [hneg, if_false, List.nil_append]
      rfl

/-! ## Construction from native integers -/

theorem from_uint_spec (n : Nat) :
    canonical (superlong_from_uint n) ∧ magnitude (superlong_from_uint n).digits = n ∧
      (superlong_from_uint n).sign = (if n = 0 then 0 else 1) := by
  unfold superlong_from_uint
  by_cases h0 : n = 0
  · subst h0
    simp [superlong_clean, canonical, digits_ok, magnitude]
  · obtain ⟨h1, h2, h3⟩ := le_bytes_spec n n (le_refl _)
    simp only [h0, if_false, superlong_clean, List.nil_append]
    refine ⟨⟨h2, Or.inr (Or.inl rfl), ?_, Or.inl h3⟩, h1, trivial⟩
    simp [h1, h0]

theorem from_uint_value (n : Nat) : value (superlong_from_uint n) = n := by
  obtain ⟨_, h2, h3⟩ := from_uint_spec n
  unfold value
  rw [h2, h3]
  split
  · rename_i h; simp [h]
  · simp

theorem from_int_spec (n : Int) (hlo : -32768 ≤ n) (hhi : n ≤ 32767) :
    canonical (superlong_from_int n) ∧ magnitude (superlong_from_int n).digits = n.natAbs ∧
      (superlong_from_int n).sign = (if n = 0 then 0 else if n < 0 then -1 else 1) := by
  unfold superlong_from_int
  by_cases hn : n ≥ 0
  · have hm : (n % 2 ^ 32).toNat = n.natAbs := by omega
    obtain ⟨h1, h2, h3⟩ := from_uint_spec n.natAbs
    simp only [hn, if_true, hm]
    refine ⟨h1, h2, ?_⟩
    rw [h3]
    by_cases h0 : n = 0
    · simp [h0]
    · have : ¬ n < 0 := by omega
      simp [h0, this]
  · have hm : ((-n) % 2 ^ 32).toNat = n.natAbs := by omega
    obtain ⟨⟨c1, _, c3, c4⟩, h2, h3⟩ := from_uint_spec n.natAbs
    have h0 : n ≠ 0 := by omega
    have hna : n.natAbs ≠ 0 := by omega
    have hlt : n < 0 := by omega
    simp only [hn, if_false, hm]
    refine ⟨⟨c1, Or.inr (Or.inr rfl), ?_, c4⟩, h2, ?_⟩
    · simp only [h2]
      constructor
      · intro h; exact absurd h (by decide)
      · intro h; exact absurd h hna
    · simp [h0, hlt]

/-! ## Scalar multiplication and factorial: correctness -/

theorem mul_uint_loop_spec (b : Nat) (ds : List Nat) (carry : Nat) (hb : b < 2 ^ 32)
    (hc : carry < 2 ^ 32) (hok : digits_ok ds) :
    magnitude (mul_uint_loop b ds carry) = magnitude ds * b + carry ∧
      digits_ok (mul_uint_loop b ds carry) ∧
      (ds ≠ [] → mul_uint_loop b ds carry ≠ []) := by
  induction ds generalizing carry with
  | nil =>
    obtain ⟨h1, h2, _⟩ := le_bytes_spec carry carry (le_refl _)
    simp only [mul_uint_loop, magnitude, Nat.zero_mul, Nat.zero_add]
    exact ⟨h1, h2, fun h => absurd rfl h⟩
  | cons d ds ih =>
    have hd : d < 256 := (digits_ok_cons.mp hok).1
    have hdb : d * b ≤ 255 * 4294967295 := Nat.mul_le_mul (by omega) (by omega)
    have hp : (d * b + carry) % 2 ^ 64 = d * b + carry := Nat.mod_eq_of_lt (by omega)
    obtain ⟨h1, h2, _⟩ := ih ((d * b + carry) / 256) (by omega) (digits_ok_cons.mp hok).2
    simp only [mul_uint_loop, hp]
    refine ⟨?_, ?_, fun _ => by simp⟩
    · simp only [magnitude, h1]
      have : (d + 256 * magnitude ds) * b = d * b + 256 * (magnitude ds * b) := by ring
      rw [this]
      omega
    · rw [digits_ok_cons]
      exact ⟨Nat.mod_lt _ (by norm_num), h2⟩

/-- `superlong_mul_uint` on a canonical operand and a 32-bit scalar, with a
distinct destination: the result is canonical and its value is the product. -/
theorem mul_uint_spec (a : superlong) (b : Nat) (ha : canonical a) (hb : b < 2 ^ 32) :
    canonical (superlong_mul_uint a b) ∧ value (superlong_mul_uint a b) = value a * b := by
  unfold superlong_mul_uint
  by_cases h0 : a.sign = 0 ∨ b = 0
  · simp only [h0, if_true]
    refine ⟨by simp [canonical, superlong_clean, digits_ok, magnitude], ?_⟩
    rcases h0 with h | h
    · simp [value, h, superlong_clean]
    · simp [value, h, superlong_clean]
  simp only [h0, if_false]
  have ha0 : a.sign ≠ 0 := fun h => h0 (Or.inl h)
  have hb0 : b ≠ 0 := fun h => h0 (Or.inr h)
  have hne : a.digits ≠ [] := by
    obtain ⟨x, hx, _⟩ := canonical_nonzero_last a ha ha0
    intro h
    rw [h] at hx
    simp at hx
  obtain ⟨hoa, hsa, hza, _⟩ := ha
  by_cases h1 : b = 1
  · simp only [h1, if_true, copy_eq]
    exact ⟨⟨hoa, hsa, hza, by assumption⟩, by simp⟩
  simp only [h1, if_false]
  by_cases h256 : b = 256
  · simp only [h256, if_true, superlong_clean, List.nil_append]
    obtain ⟨c1, _, _, c4, _⟩ := normalize_spec { digits := [0] ++ a.digits, sign := a.sign }
      (by rw [digits_ok_append]; exact ⟨by simp [digits_ok], hoa⟩) hsa (Or.inl (by simp))
      (by intro h; exact absurd h ha0)
    refine ⟨c1, ?_⟩
    rw [c4]
    show a.sign * ((magnitude (0 :: a.digits) : Nat) : Int) = value a * ((256 : Nat) : Int)
    simp only [value, magnitude]
    push_cast
    ring
  · simp only [h256, if_false, superlong_clean, List.nil_append]
    obtain ⟨m1, m2, m3⟩ := mul_uint_loop_spec b a.digits 0 hb (by norm_num) hoa
    obtain ⟨c1, _, _, c4, _⟩ := normalize_spec
      { digits := mul_uint_loop b a.digits 0, sign := a.sign }
      m2 hsa (Or.inl (m3 hne)) (by intro h; exact absurd h ha0)
    refine ⟨c1, ?_⟩
    rw [c4]
    simp only [value, m1]
    push_cast
    ring

theorem mul_uint_sign (a : superlong) (b : Nat) (ha : canonical a) (hb : b < 2 ^ 32)
    (hs : a.sign = 1) (hb0 : b ≠ 0) : (superlong_mul_uint a b).sign = 1 := by
  obtain ⟨c1, c2⟩ := mul_uint_spec a b ha hb
  have hm : magnitude a.digits ≠ 0 := fun h => by
    have := ha.2.2.1.mpr h
    rw [hs] at this
    exact absurd this one_ne_zero
  have hv : value (superlong_mul_uint a b) > 0 := by
    rw [c2]
    simp only [value, hs, one_mul]
    have : 0 < magnitude a.digits * b := Nat.mul_pos (Nat.pos_of_ne_zero hm) (Nat.pos_of_ne_zero hb0)
    exact_mod_cast this
  obtain ⟨_, hsg, _, _⟩ := c1
  unfold value at hv
  rcases hsg with h | h | h
  · rw [h] at hv; simp at hv
  · exact h
  · rw [h] at hv
    have : (0 : Int) ≤ magnitude (superlong_mul_uint a b).digits := by positivity
    linarith

theorem factorial_loop_spec (n : Nat) (hn : n + 1 < 2 ^ 32) (fuel i : Nat) (res : superlong)
    (hi2 : 2 ≤ i) (hile : i ≤ n + 1) (hfuel : n + 1 - i ≤ fuel) (hc : canonical res)
    (hs : res.sign = 1) (hv : value res = ((i - 1).factorial : Int)) :
    ∃ r, factorial_loop n fuel i res = some r ∧ canonical r ∧ r.sign = 1 ∧
      value r = (n.factorial : Int) := by
  induction fuel generalizing i res with
  | zero =>
    have hin : ¬ i ≤ n := by omega
    have : i - 1 = n := by omega
    refine ⟨res, by simp [factorial_loop, hin], hc, hs, ?_⟩
    rw [hv, this]
  | succ fuel ih =>
    rw [factorial_loop]
    by_cases hin : i ≤ n
    · simp only [hin, if_true, copy_eq]
      have hi32 : i < 2 ^ 32 := by omega
      obtain ⟨c1, c2⟩ := mul_uint_spec res i hc hi32
      have c3 := mul_uint_sign res i hc hi32 hs (by omega)
      have hmod : (i + 1) % 2 ^ 32 = i + 1 := Nat.mod_eq_of_lt (by omega)
      rw [hmod]
      apply ih (i + 1) _ (by omega) (by omega) (by omega) c1 c3
      rw [c2, hv]
      have : i + 1 - 1 = (i - 1) + 1 := by omega
      rw [this, Nat.factorial_succ]
      have : i - 1 + 1 = i := by omega
      rw [this]
      push_cast
      ring
    · simp only [hin, if_false]
      have : i - 1 = n := by omega
      refine ⟨res, rfl, hc, hs, ?_⟩
      rw [hv, this]

theorem factorial_spec (fuel n : Nat) (hn : n < 2 ^ 32 - 1) (hfuel : n ≤ fuel) :
    ∃ r, superlong_factorial fuel n = some r ∧ canonical r ∧ r.sign = 1 ∧
      value r = (n.factorial : Int) := by
  unfold superlong_factorial
  obtain ⟨c1, c2, c3⟩ := from_uint_spec 1
  have hv1 : value (superlong_from_uint 1) = 1 := by
    rw [from_uint_value]; rfl
  simp only [one_ne_zero, if_false] at c3
  by_cases h0 : n = 0
  · subst h0
    refine ⟨superlong_from_uint 1, ?_, c1, c3, ?_⟩
    · cases fuel <;> simp [factorial_loop]
    · rw [hv1]; rfl
  · exact factorial_loop_spec n (by omega) fuel 2 _ (le_refl _) (by omega) (by omega) c1 c3
      (by rw [hv1]; rfl)

theorem div_uint_returned (a : superlong) (b : Nat) (res : superlong) (hb : b ≠ 0) :
    ∃ q, superlong_div_uint a b res = Outcome.returned q := by
  unfold superlong_div_uint
  rw [if_neg hb]
  split_ifs <;> exact ⟨_, rfl⟩

/-! ## The recursion depth of Karatsuba multiplication -/

theorem abs_add_loop_length (n : Nat) (as bs : List Nat) (carry : Nat) :
    (abs_add_loop n as bs carry).length ≤ n + 1 := by
  induction n generalizing as bs carry with
  | zero =>
    simp only [abs_add_loop]
    split <;> simp
  | succ n ih =>
    simp only [abs_add_loop, List.length_cons]
    have := ih as.tail bs.tail ((carry + as.headD 0 + bs.headD 0) % 65536 / 256)
    omega

theorem normalize_length_le (s : superlong) :
    (superlong_normalize s).digits.length ≤ s.digits.length := by
  rw [normalize_digits]
  exact (normalize_loop_spec _ _ (le_refl _)).2.2.1

/-- Adding two numbers of sign +1 gives at most one digit more than the longer
operand has. -/
theorem add_length_le (a b : superlong) (ha : a.sign = 1) (hb : b.sign = 1) :
    (superlong_add a b).digits.length ≤ max a.digits.length b.digits.length + 1 := by
  unfold superlong_add
  simp only [ha, hb, one_ne_zero, if_false, if_true]
  refine le_trans (normalize_length_le _) ?_
  simp only
  unfold superlong_abs_add
  simp only
  refine le_trans (normalize_length_le _) ?_
  simp only
  refine le_trans (abs_add_loop_length _ _ _ _) ?_
  split <;> omega

/-- Any depth bound that is at least the length of the shorter operand gives the
same result: the recursion never runs into the bound. -/
theorem mul_karatsuba_depth_enough (d1 d2 : Nat) (x y : superlong)
    (h1 : min x.digits.length y.digits.length ≤ d1)
    (h2 : min x.digits.length y.digits.length ≤ d2) :
    mul_karatsuba_depth d1 x y = mul_karatsuba_depth d2 x y := by
  induction d1 generalizing d2 x y with
  | zero =>
    have hm : (if x.digits.length < y.digits.length then x.digits.length else y.digits.length)
        < 16 := by
      split <;> omega
    cases d2 with
    | zero => rfl
    | succ d2 => simp only [mul_karatsuba_depth, hm, if_true]
  | succ d1 ih =>
    cases d2 with
    | zero =>
      have hm : (if x.digits.length < y.digits.length then x.digits.length else y.digits.length)
          < 16 := by
        split <;> omega
      simp only [mul_karatsuba_depth, hm, if_true]
    | succ d2 =>
      by_cases hm : (if x.digits.length < y.digits.length then x.digits.length
          else y.digits.length) < 16
      · simp only [mul_karatsuba_depth, hm, if_true]
      · have hmin : (if x.digits.length < y.digits.length then x.digits.length
            else y.digits.length) = min x.digits.length y.digits.length := by
          split <;> omega
        rw [hmin] at hm
        have e1 := ih d2
          { digits := superlong_init.digits ++
              x.digits.drop (min x.digits.length y.digits.length / 2), sign := 1 }
          { digits := superlong_init.digits ++
              y.digits.drop (min x.digits.length y.digits.length / 2), sign := 1 }
          (by simp only [superlong_init, List.length_append, List.length_drop,
                List.length_singleton]; omega)
          (by simp only [superlong_init, List.length_append, List.length_drop,
                List.length_singleton]; omega)
        have e2 := ih d2
          { digits := superlong_init.digits ++
              x.digits.take (min x.digits.length y.digits.length / 2), sign := 1 }
          { digits := superlong_init.digits ++
              y.digits.take (min x.digits.length y.digits.length / 2), sign := 1 }
          (by simp only [superlong_init, List.length_append, List.length_take,
                List.length_singleton]; omega)
          (by simp only [superlong_init, List.length_append, List.length_take,
                List.length_singleton]; omega)
        have la := add_length_le
          { digits := superlong_init.digits ++
              x.digits.drop (min x.digits.length y.digits.length / 2), sign := 1 }
          { digits := superlong_init.digits ++
              x.digits.take (min x.digits.length y.digits.length / 2), sign := 1 } rfl rfl
        have lc := add_length_le
          { digits := superlong_init.digits ++
              y.digits.drop (min x.digits.length y.digits.length / 2), sign := 1 }
          { digits := superlong_init.digits ++
              y.digits.take (min x.digits.length y.digits.length / 2), sign := 1 } rfl rfl
        simp only [superlong_init, List.length_append, List.length_drop, List.length_take,
          List.length_singleton] at la lc
        have e3 := ih d2
          (superlong_add
            { digits := superlong_init.digits ++
                x.digits.drop (min x.digits.length y.digits.length / 2), sign := 1 }
            { digits := superlong_init.digits ++
                x.digits.take (min x.digits.length y.digits.length / 2), sign := 1 })
          (superlong_add
            { digits := superlong_init.digits ++
                y.digits.drop (min x.digits.length y.digits.length / 2), sign := 1 }
            { digits := superlong_init.digits ++
                y.digits.take (min x.digits.length y.digits.length / 2), sign := 1 })
          (by simp only [superlong_init]; omega)
          (by simp only [superlong_init]; omega)
        rw [mul_karatsuba_depth, mul_karatsuba_depth]
        simp only [hmin, hm, if_false, e1, e2, e3]

theorem mul_karatsuba_depth_eq (d : Nat) (x y : superlong)
    (h : min x.digits.length y.digits.length ≤ d) :
    mul_karatsuba_depth d x y = superlong_mul_karatsuba x y :=
  mul_karatsuba_depth_enough d _ x y h (le_refl _)

/-! ## The binary search when the quotient digit is 255 -/

set_option maxRecDepth 100000

/-- When every trial product up to `divisor * 255` is at most the remainder, the
search keeps `right = 255`, reaches `mid = 255`, stores `mid + 1 = 0` in `left`
and starts over: no iteration bound is ever enough. -/
theorem bin_find_digit_loop_never_ends (remainder divisor : superlong)
    (hall : ∀ mid, mid < 256 →
      superlong_abs_compare (superlong_mul_uint divisor mid) remainder ≤ 0)
    (fuel left best : Nat) (hl : left ≤ 255) :
    bin_find_digit_loop remainder divisor fuel left 255 best = none := by
  induction fuel generalizing left best with
  | zero => simp [bin_find_digit_loop, hl]
  | succ fuel ih =>
    rw [bin_find_digit_loop]
    have hmid : (left + (255 - left) / 2) % 256 < 256 := Nat.mod_lt _ (by norm_num)
    simp only [hl, if_true, hall _ hmid]
    exact ih _ _ (by omega)

theorem bin_find_digit_255_never_ends (fuel : Nat) :
    bin_find_digit fuel ⟨[0, 0, 0, 0, 255], 1⟩ ⟨[0, 0, 0, 0, 1], 1⟩ = none := by
  unfold bin_find_digit
  exact bin_find_digit_loop_never_ends _ _ (by decide) fuel 1 0 (by norm_num)

theorem div_loop_zero_digit (fuel : Nat) (divis : superlong) (d : Nat) (ds : List Nat)
    (remaind : superlong) (q_digits : List Nat)
    (h : ¬ superlong_abs_compare
      (superlong_add (superlong_mul_uint remaind 256) (superlong_from_uint d)) divis ≥ 0) :
    div_loop fuel divis (d :: ds) remaind q_digits =
      div_loop fuel divis ds
        (superlong_add (superlong_mul_uint remaind 256) (superlong_from_uint d))
        (q_digits ++ [0]) := by
  rw [div_loop]
  simp only [h, if_false]

theorem div_loop_search_never_ends (fuel : Nat) (divis : superlong) (d : Nat) (ds : List Nat)
    (remaind : superlong) (q_digits : List Nat)
    (h : superlong_abs_compare
      (superlong_add (superlong_mul_uint remaind 256) (superlong_from_uint d)) divis ≥ 0)
    (hb : bin_find_digit fuel
      (superlong_add (superlong_mul_uint remaind 256) (superlong_from_uint d)) divis = none) :
    div_loop fuel divis (d :: ds) remaind q_digits = none := by
  rw [div_loop]
  simp only [h, if_true, hb]

/-- Dividing `255 * 256 ^ 4` by `256 ^ 4` never returns, whatever the iteration
bound given to the binary search. -/
theorem superlong_div_255_never_returns (fuel : Nat) (res : superlong) :
    superlong_div fuel ⟨[0, 0, 0, 0, 255], 1⟩ ⟨[0, 0, 0, 0, 1], 1⟩ res = Outcome.hang := by
  have hstep : superlong_div fuel ⟨[0, 0, 0, 0, 255], 1⟩ ⟨[0, 0, 0, 0, 1], 1⟩ res =
      (match div_loop fuel ⟨[0, 0, 0, 0, 1], 1⟩ [255, 0, 0, 0, 0] ⟨[], 0⟩ [] with
        | none => Outcome.hang
        | some q_digits =>
          Outcome.returned (superlong_normalize
            { digits := superlong_clean.digits ++ q_digits.reverse, sign := 1 })) := rfl
  have hd : div_loop fuel ⟨[0, 0, 0, 0, 1], 1⟩ [255, 0, 0, 0, 0] ⟨[], 0⟩ [] = none := by
    rw [div_loop_zero_digit _ _ _ _ _ _ (by decide)]
    rw [div_loop_zero_digit _ _ _ _ _ _ (by decide)]
    rw [div_loop_zero_digit _ _ _ _ _ _ (by decide)]
    rw [div_loop_zero_digit _ _ _ _ _ _ (by decide)]
    apply div_loop_search_never_ends _ _ _ _ _ _ (by decide)
    have e : superlong_add (superlong_mul_uint (superlong_add (superlong_mul_uint
        (superlong_add (superlong_mul_uint (superlong_add (superlong_mul_uint
        (superlong_add (superlong_mul_uint ⟨[], 0⟩ 256) (superlong_from_uint 255)) 256)
        (superlong_from_uint 0)) 256) (superlong_from_uint 0)) 256) (superlong_from_uint 0)) 256)
        (superlong_from_uint 0) = ⟨[0, 0, 0, 0, 255], 1⟩ := by decide
    rw [e]
    exact bin_find_digit_255_never_ends fuel
  rw [hstep, hd]

/-! ## Normalization without side conditions -/

theorem normalize_magnitude (s : superlong) :
    magnitude (superlong_normalize s).digits = magnitude s.digits := by
  rw [normalize_digits]
  exact (normalize_loop_spec _ _ (le_refl _)).1

theorem normalize_no_leading_zero (s : superlong) :
    no_leading_zero (superlong_normalize s).digits := by
  rw [normalize_digits]
  exact (normalize_loop_spec _ _ (le_refl _)).2.2.2.2

theorem normalize_digits_ok (s : superlong) (h : digits_ok s.digits) :
    digits_ok (superlong_normalize s).digits := by
  rw [normalize_digits]
  exact (normalize_loop_spec _ _ (le_refl _)).2.1 h

theorem normalize_sign (s : superlong) :
    (superlong_normalize s).sign = s.sign ∨
      ((superlong_normalize s).sign = 0 ∧ magnitude s.digits = 0) ∨
      ((superlong_normalize s).sign = 0 ∧ s.sign = 0) := by
  obtain ⟨ds, sg⟩ := s
  have h1 := (normalize_loop_spec ds.length ds (le_refl _)).1
  unfold superlong_normalize
  simp only [is_zero_iff]
  by_cases h0 : sg = 0
  · right; right
    simp [h0]
  · by_cases hnz : normalize_loop ds.length ds = [0]
    · right; left
      simp only [h0, false_or, hnz, if_true, true_and]
      rw [← h1, hnz]
      simp [magnitude]
    · left
      simp [h0, hnz]

/-- `superlong_normalize` never changes the integer value. -/
theorem normalize_value (s : superlong) : value (superlong_normalize s) = value s := by
  unfold value
  rw [normalize_magnitude]
  rcases normalize_sign s with h | ⟨h, hm⟩ | ⟨h, hs⟩
  · rw [h]
  · rw [h, hm]; simp
  · rw [h, hs]

/-! ## Scalar multiplication: the general loop and the shortcuts -/

theorem mul_uint_general_value (a : superlong) (b : Nat) (ha : digits_ok a.digits)
    (hb : b < 2 ^ 32) : value (superlong_mul_uint_general a b) = value a * b := by
  unfold superlong_mul_uint_general
  rw [normalize_value]
  obtain ⟨m1, _, _⟩ := mul_uint_loop_spec b a.digits 0 hb (by norm_num) ha
  simp only [value, superlong_clean, List.nil_append, m1]
  push_cast
  ring

/-! ## Scalar division: correctness -/

theorem magnitude_reverse_concat (q : List Nat) (x : Nat) :
    magnitude (q ++ [x]).reverse = x + 256 * magnitude q.reverse := by
  rw [List.reverse_append]
  rfl

theorem div_uint_step_lt (b d remaind : Nat) (hb : b < 2 ^ 32) (hd : d < 256)
    (hr : remaind < b) :
    (d + remaind * 256) % 2 ^ 64 = d + remaind * 256 ∧ (d + remaind * 256) / b < 256 := by
  constructor
  · exact Nat.mod_eq_of_lt (by omega)
  · rw [Nat.div_lt_iff_lt_mul (by omega)]
    have : (remaind + 1) * 256 ≤ b * 256 := Nat.mul_le_mul_right _ hr
    rw [Nat.mul_comm 256 b]
    omega

theorem div_uint_loop_spec (b : Nat) (hb0 : 0 < b) (hb : b < 2 ^ 32) (ds : List Nat)
    (remaind : Nat) (q_digits : List Nat) (hok : digits_ok ds) (hq : digits_ok q_digits)
    (hr : remaind < b) :
    magnitude (div_uint_loop b ds remaind q_digits).reverse =
        magnitude q_digits.reverse * 256 ^ ds.length +
          (remaind * 256 ^ ds.length + magnitude ds.reverse) / b ∧
      digits_ok (div_uint_loop b ds remaind q_digits) ∧
      (div_uint_loop b ds remaind q_digits).length = q_digits.length + ds.length := by
  induction ds generalizing remaind q_digits with
  | nil =>
    simp only [div_uint_loop, List.length_nil, pow_zero, Nat.mul_one, List.reverse_nil,
      magnitude, Nat.add_zero]
    refine ⟨?_, hq, trivial⟩
    rw [Nat.div_eq_of_lt hr]
    rfl
  | cons d ds ih =>
    have hd : d < 256 := (digits_ok_cons.mp hok).1
    obtain ⟨e1, e2⟩ := div_uint_step_lt b d remaind hb hd hr
    have hq2 : digits_ok (q_digits ++ [(d + remaind * 256) / b % 256]) := by
      rw [digits_ok_append]
      refine ⟨hq, ?_⟩
      intro x hx
      simp only [List.mem_singleton] at hx
      rw [hx]
      exact Nat.mod_lt _ (by norm_num)
    obtain ⟨h1, h2, h3⟩ := ih ((d + remaind * 256) % b)
      (q_digits ++ [(d + remaind * 256) / b % 256]) (digits_ok_cons.mp hok).2 hq2
      (Nat.mod_lt _ hb0)
    have hstep : div_uint_loop b (d :: ds) remaind q_digits =
        div_uint_loop b ds ((d + remaind * 256) % b)
          (q_digits ++ [(d + remaind * 256) / b % 256]) := by
      simp only [div_uint_loop, e1]
    rw [hstep]
    refine ⟨?_, h2, ?_⟩
    · rw [h1, magnitude_reverse_cons, magnitude_reverse_concat, Nat.mod_eq_of_lt e2]
      have key : (remaind * 256 ^ (ds.length + 1) + (magnitude ds.reverse + 256 ^ ds.length * d)) / b
          = (d + remaind * 256) / b * 256 ^ ds.length +
            ((d + remaind * 256) % b * 256 ^ ds.length + magnitude ds.reverse) / b := by
        have hsplit : remaind * 256 ^ (ds.length + 1) + (magnitude ds.reverse + 256 ^ ds.length * d)
            = ((d + remaind * 256) % b * 256 ^ ds.length + magnitude ds.reverse) +
              b * ((d + remaind * 256) / b * 256 ^ ds.length) := by
          have hdm := Nat.div_add_mod (d + remaind * 256) b
          have : (d + remaind * 256) * 256 ^ ds.length =
              (b * ((d + remaind * 256) / b) + (d + remaind * 256) % b) * 256 ^ ds.length := by
            rw [hdm]
          rw [pow_succ]
          nlinarith [this]
        rw [hsplit, Nat.add_mul_div_left _ _ hb0]
        ring
      rw [List.length_cons, key, pow_succ]
      ring
    · rw [h3]
      simp only [List.length_append, List.length_cons, List.length_nil]
      omega

theorem div_uint_spec (a : superlong) (b : Nat) (res : superlong) (ha : canonical a)
    (hb0 : b ≠ 0) (hb : b < 2 ^ 32) :
    ∃ r, superlong_div_uint a b res = Outcome.returned r ∧
      magnitude r.digits = magnitude a.digits / b ∧
      value r = (value a).tdiv (b : Int) ∧ digits_ok r.digits := by
  obtain ⟨hoa, hsa, hza, hla⟩ := ha
  have hval : ∀ r : superlong, magnitude r.digits = magnitude a.digits / b →
      value r = r.sign * ((magnitude a.digits / b : Nat) : Int) := by
    intro r hr
    simp only [value, hr]
  have htd : ∀ sg : Int, (sg = 0 ∨ sg = 1 ∨ sg = -1) →
      sg * ((magnitude a.digits / b : Nat) : Int) =
        (sg * (magnitude a.digits : Int)).tdiv (b : Int) := by
    intro sg hsg
    rcases hsg with h | h | h
    · rw [h]; simp
    · rw [h]; simp only [one_mul]; exact Int.ofNat_tdiv _ _
    · rw [h]
      simp only [neg_mul, one_mul, Int.neg_tdiv]
      rw [← Int.ofNat_tdiv]
  unfold superlong_div_uint
  simp only [hb0, if_false]
  by_cases h0 : a.sign = 0
  · simp only [h0, if_true]
    refine ⟨_, rfl, ?_, ?_, by simp [superlong_clean, digits_ok]⟩
    · simp [superlong_clean, magnitude, hza.mp h0]
    · simp [value, h0]
  simp only [h0, if_false]
  by_cases h1 : b = 1
  · simp only [h1, if_true, copy_eq]
    refine ⟨_, rfl, by simp, ?_, hoa⟩
    simp [value]
  simp only [h1, if_false]
  by_cases h256 : b = 256
  · simp only [h256, if_true, superlong_clean, List.nil_append]
    have hm : magnitude (if a.digits.length > 1 then a.digits.drop 1 else []) =
        magnitude a.digits / 256 := by
      match hd : a.digits with
      | [] => simp [magnitude]
      | [x] =>
        have hx : x < 256 := by
          apply hoa; rw [hd]; simp
        simp only [List.length_singleton, gt_iff_lt, lt_self_iff_false, if_false, magnitude]
        omega
      | x :: y :: zs =>
        have hx : x < 256 := by
          apply hoa; rw [hd]; simp
        simp only [List.length_cons, gt_iff_lt, List.drop_succ_cons, List.drop_zero, magnitude]
        have : 1 < zs.length + 1 + 1 := by omega
        simp only [this, if_true, magnitude]
        omega
    have hdo : digits_ok (if a.digits.length > 1 then a.digits.drop 1 else []) := by
      split
      · intro x hx
        exact hoa x (List.mem_of_mem_drop hx)
      · simp [digits_ok]
    refine ⟨_, rfl, ?_, ?_, normalize_digits_ok _ hdo⟩
    · rw [normalize_magnitude]
      exact hm
    · rw [normalize_value]
      simp only [value, hm]
      rw [← h256]
      exact htd a.sign hsa
  · simp only [h256, if_false, superlong_clean, List.nil_append]
    obtain ⟨d1, d2, _⟩ := div_uint_loop_spec b (Nat.pos_of_ne_zero hb0) hb a.digits.reverse 0 []
      (digits_ok_reverse _ hoa) (by simp [digits_ok]) (Nat.pos_of_ne_zero hb0)
    simp only [List.reverse_nil, magnitude, Nat.zero_mul, Nat.zero_add, List.reverse_reverse]
      at d1
    refine ⟨_, rfl, ?_, ?_, normalize_digits_ok _ (digits_ok_reverse _ d2)⟩
    · rw [normalize_magnitude]
      exact d1
    · rw [normalize_value]
      simp only [value, d1]
      exact htd a.sign hsa

/-! ## No operation leaves a leading zero digit -/

theorem canonical_no_leading_zero (a : superlong) (h : canonical a) :
    no_leading_zero a.digits := h.2.2.2

theorem clean_no_leading_zero : no_leading_zero superlong_clean.digits := by
  left
  simp [superlong_clean]

theorem from_uint_no_leading_zero (n : Nat) : no_leading_zero (superlong_from_uint n).digits :=
  canonical_no_leading_zero _ (from_uint_spec n).1

theorem add_no_leading_zero (a b : superlong) (ha : canonical a) (hb : canonical b) :
    no_leading_zero (superlong_add a b).digits :=
  canonical_no_leading_zero _ (add_spec a b ha hb).1

theorem sub_no_leading_zero (a b : superlong) (ha : canonical a) (hb : canonical b) :
    no_leading_zero (superlong_sub a b).digits :=
  canonical_no_leading_zero _ (sub_spec a b ha hb).1

theorem mul_uint_no_leading_zero (a : superlong) (b : Nat) (ha : no_leading_zero a.digits) :
    no_leading_zero (superlong_mul_uint a b).digits := by
  unfold superlong_mul_uint
  split
  · exact clean_no_leading_zero
  · split
    · rw [copy_eq]; exact ha
    · split <;> exact normalize_no_leading_zero _

theorem add_uint_no_leading_zero (a : superlong) (b : Nat) (ha : no_leading_zero a.digits) :
    no_leading_zero (superlong_add_uint a b).digits := by
  unfold superlong_add_uint
  split
  · exact from_uint_no_leading_zero b
  · split
    · rw [copy_eq]; exact ha
    · exact normalize_no_leading_zero _

theorem sub_uint_no_leading_zero (a : superlong) (b : Nat) (ha : no_leading_zero a.digits) :
    no_leading_zero (superlong_sub_uint a b).digits := by
  unfold superlong_sub_uint
  split
  · exact from_uint_no_leading_zero b
  · split
    · rw [copy_eq]; exact ha
    · exact normalize_no_leading_zero _

theorem mul_no_leading_zero (a b : superlong) : no_leading_zero (superlong_mul a b).digits := by
  unfold superlong_mul
  split
  · exact clean_no_leading_zero
  · exact normalize_no_leading_zero _

theorem div_uint_no_leading_zero (a : superlong) (b : Nat) (res r : superlong)
    (ha : no_leading_zero a.digits) (h : superlong_div_uint a b res = Outcome.returned r) :
    no_leading_zero r.digits := by
  unfold superlong_div_uint at h
  split at h
  · simp at h
  · split at h
    · simp only [Outcome.returned.injEq] at h
      rw [← h]; exact clean_no_leading_zero
    · split at h
      · simp only [Outcome.returned.injEq] at h
        rw [← h, copy_eq]; exact ha
      · split at h
        · simp only [Outcome.returned.injEq] at h
          rw [← h]; exact normalize_no_leading_zero _
        · simp only [Outcome.returned.injEq] at h
          rw [← h]; exact normalize_no_leading_zero _

theorem div_no_leading_zero (fuel : Nat) (a b res r : superlong)
    (ha : no_leading_zero a.digits) (h : superlong_div fuel a b res = Outcome.returned r) :
    no_leading_zero r.digits := by
  unfold superlong_div at h
  simp only at h
  by_cases h1 : b.sign = 0
  · rw [if_pos h1] at h
    simp at h
  rw [if_neg h1] at h
  by_cases h2 : a.sign = 0
  · rw [if_pos h2] at h
    simp only [Outcome.returned.injEq] at h
    rw [← h]; exact clean_no_leading_zero
  rw [if_neg h2] at h
  by_cases h3 : b.digits.length ≤ 4 ∧ abs_compare_uint_loop b.digits 0 0 ≠ 0
  · rw [if_pos h3] at h
    obtain ⟨q, hq⟩ := div_uint_returned a _ res h3.2
    rw [hq] at h
    simp only [Outcome.returned.injEq] at h
    have hqn := div_uint_no_leading_zero a _ res q ha hq
    have hdig : ∀ (c : Prop) [Decidable c],
        (if c then ({ q with sign := -1 } : superlong) else q).digits = q.digits := by
      intro c _
      split <;> rfl
    rw [← h, hdig]
    exact hqn
  rw [if_neg h3] at h
  by_cases h4 : superlong_abs_compare { superlong_copy a with sign := 1 }
      { superlong_copy b with sign := 1 } < 0
  · rw [if_pos h4] at h
    simp only [Outcome.returned.injEq] at h
    rw [← h]; exact clean_no_leading_zero
  rw [if_neg h4] at h
  split at h
  · simp at h
  · simp only [Outcome.returned.injEq] at h
    rw [← h]; exact normalize_no_leading_zero _

theorem factorial_loop_no_leading_zero (n fuel i : Nat) (res r : superlong)
    (hres : no_leading_zero res.digits) (h : factorial_loop n fuel i res = some r) :
    no_leading_zero r.digits := by
  induction fuel generalizing i res with
  | zero =>
    simp only [factorial_loop] at h
    split at h
    · simp at h
    · simp only [Option.some.injEq] at h
      rw [← h]; exact hres
  | succ fuel ih =>
    rw [factorial_loop] at h
    split at h
    · simp only [copy_eq] at h
      exact ih _ _ (mul_uint_no_leading_zero res i hres) h
    · simp only [Option.some.injEq] at h
      rw [← h]; exact hres

theorem factorial_no_leading_zero (fuel n : Nat) (r : superlong)
    (h : superlong_factorial fuel n = some r) : no_leading_zero r.digits :=
  factorial_loop_no_leading_zero n fuel 2 _ r (from_uint_no_leading_zero 1) h

/-! ## Results that are canonical -/

theorem normalize_ne_nil (s : superlong) (h : s.digits ≠ []) :
    (superlong_normalize s).digits ≠ [] := by
  rw [normalize_digits]
  exact (normalize_loop_spec _ _ (le_refl _)).2.2.2.1 h

/-- The pattern shared by the signed operations: a magnitude primitive leaves a
nonempty normalized buffer, the caller assigns a nonzero sign and normalizes
again. -/
theorem renormalize_canonical (x : superlong) (sg : Int) (hok : digits_ok x.digits)
    (hne : x.digits ≠ []) (hsg : sg = 1 ∨ sg = -1) :
    canonical (superlong_normalize { superlong_normalize x with sign := sg }) := by
  have hsg0 : sg ≠ 0 := by rcases hsg with h | h <;> rw [h] <;> decide
  exact (normalize_spec { superlong_normalize x with sign := sg }
    (normalize_digits_ok x hok) (Or.inr hsg) (Or.inl (normalize_ne_nil x hne))
    (fun h => absurd h hsg0)).1

theorem clean_canonical : canonical { superlong_clean with sign := 0 } := by
  simp [canonical, superlong_clean, digits_ok, magnitude]

theorem normalize_clean_canonical :
    canonical (superlong_normalize { superlong_clean with sign := 0 }) :=
  (normalize_spec { superlong_clean with sign := 0 } (by simp [superlong_clean, digits_ok])
    (Or.inl rfl) (Or.inr rfl) (by intro _; simp [superlong_clean, magnitude])).1

theorem canonical_ne_nil (a : superlong) (ha : canonical a) (hs : a.sign ≠ 0) :
    a.digits ≠ [] := by
  obtain ⟨x, hx, _⟩ := canonical_nonzero_last a ha hs
  intro h
  rw [h] at hx
  simp at hx

theorem abs_add_uint_loop_shape (ds : List Nat) (carry : Nat) :
    digits_ok (abs_add_uint_loop ds carry) ∧ (ds ≠ [] → abs_add_uint_loop ds carry ≠ []) := by
  induction ds generalizing carry with
  | nil =>
    simp only [abs_add_uint_loop]
    exact ⟨(le_bytes_spec carry carry (le_refl _)).2.1, fun h => absurd rfl h⟩
  | cons d ds ih =>
    simp only [abs_add_uint_loop]
    refine ⟨?_, fun _ => by simp⟩
    rw [digits_ok_cons]
    exact ⟨Nat.mod_lt _ (by norm_num), (ih _).1⟩

theorem abs_sub_uint_loop_shape (bval : Nat) (ds : List Nat) (i : Nat) (borrow : Int) :
    digits_ok (abs_sub_uint_loop bval ds i borrow) ∧
      (ds ≠ [] → abs_sub_uint_loop bval ds i borrow ≠ []) := by
  induction ds generalizing i borrow with
  | nil => simp [abs_sub_uint_loop, digits_ok]
  | cons d ds ih =>
    simp only [abs_sub_uint_loop]
    generalize (if i < 4 then bval / 2 ^ (i * 8) % 256 else 0) = sub
    by_cases hd : (d : Int) - (sub : Int) - borrow < 0
    · simp only [hd, if_true]
      refine ⟨?_, fun _ => by simp⟩
      rw [digits_ok_cons]
      exact ⟨by omega, (ih _ _).1⟩
    · simp only [hd, if_false]
      refine ⟨?_, fun _ => by simp⟩
      rw [digits_ok_cons]
      exact ⟨by omega, (ih _ _).1⟩

theorem abs_uint_sub_loop_shape (bval : Nat) (ds : List Nat) (i : Nat) (borrow : Int) :
    digits_ok (abs_uint_sub_loop bval ds i borrow) ∧
      (ds ≠ [] → abs_uint_sub_loop bval ds i borrow ≠ []) := by
  induction ds generalizing i borrow with
  | nil => simp [abs_uint_sub_loop, digits_ok]
  | cons d ds ih =>
    simp only [abs_uint_sub_loop]
    generalize (if i < 4 then bval / 2 ^ (i * 8) % 256 else 0) = sub
    by_cases hd : (sub : Int) - (d : Int) - borrow < 0
    · simp only [hd, if_true]
      refine ⟨?_, fun _ => by simp⟩
      rw [digits_ok_cons]
      exact ⟨by omega, (ih _ _).1⟩
    · simp only [hd, if_false]
      refine ⟨?_, fun _ => by simp⟩
      rw [digits_ok_cons]
      exact ⟨by omega, (ih _ _).1⟩

theorem add_uint_canonical (a : superlong) (b : Nat) (ha : canonical a) :
    canonical (superlong_add_uint a b) := by
  unfold superlong_add_uint
  by_cases h0 : a.sign = 0
  · simp only [h0, if_true]
    exact (from_uint_spec b).1
  simp only [h0, if_false]
  by_cases hb0 : b = 0
  · simp only [hb0, if_true, copy_eq]
    exact ha
  simp only [hb0, if_false]
  have hne := canonical_ne_nil a ha h0
  by_cases hpos : a.sign > 0
  · simp only [hpos, if_true]
    unfold superlong_abs_add_uint
    exact renormalize_canonical _ 1 (abs_add_uint_loop_shape _ _).1
      ((abs_add_uint_loop_shape _ _).2 hne) (Or.inl rfl)
  · simp only [hpos, if_false]
    split
    · exact normalize_clean_canonical
    · split
      · unfold superlong_abs_sub_uint
        exact renormalize_canonical _ (-1) (abs_sub_uint_loop_shape _ _ _ _).1
          ((abs_sub_uint_loop_shape _ _ _ _).2 hne) (Or.inr rfl)
      · unfold superlong_abs_uint_sub
        exact renormalize_canonical _ 1 (abs_uint_sub_loop_shape _ _ _ _).1
          ((abs_uint_sub_loop_shape _ _ _ _).2 hne) (Or.inl rfl)

/-- `superlong_sub_uint` leaves a canonical number unless both operands are
zero. -/
theorem sub_uint_canonical (a : superlong) (b : Nat) (ha : canonical a)
    (hab : a.sign ≠ 0 ∨ b ≠ 0) : canonical (superlong_sub_uint a b) := by
  unfold superlong_sub_uint
  by_cases h0 : a.sign = 0
  · have hb0 : b ≠ 0 := by
      rcases hab with h | h
      · exact absurd h0 h
      · exact h
    simp only [h0, if_true]
    obtain ⟨⟨c1, _, _, c4⟩, c2, _⟩ := from_uint_spec b
    refine ⟨c1, Or.inr (Or.inr rfl), ?_, c4⟩
    simp only [c2]
    constructor
    · intro h; exact absurd h (by decide)
    · intro h; exact absurd h hb0
  simp only [h0, if_false]
  by_cases hb0 : b = 0
  · simp only [hb0, if_true, copy_eq]
    exact ha
  simp only [hb0, if_false]
  have hne := canonical_ne_nil a ha h0
  by_cases hpos : a.sign > 0
  · simp only [hpos, if_true]
    split
    · exact normalize_clean_canonical
    · split
      · unfold superlong_abs_sub_uint
        exact renormalize_canonical _ 1 (abs_sub_uint_loop_shape _ _ _ _).1
          ((abs_sub_uint_loop_shape _ _ _ _).2 hne) (Or.inl rfl)
      · unfold superlong_abs_uint_sub
        exact renormalize_canonical _ (-1) (abs_uint_sub_loop_shape _ _ _ _).1
          ((abs_uint_sub_loop_shape _ _ _ _).2 hne) (Or.inr rfl)
  · simp only [hpos, if_false]
    unfold superlong_abs_add_uint
    exact renormalize_canonical _ (-1) (abs_add_uint_loop_shape _ _).1
      ((abs_add_uint_loop_shape _ _).2 hne) (Or.inr rfl)

theorem abs_add_loop_shape (n : Nat) (as bs : List Nat) (carry : Nat) :
    digits_ok (abs_add_loop n as bs carry) ∧ (0 < n → abs_add_loop n as bs carry ≠ []) := by
  induction n generalizing as bs carry with
  | zero =>
    simp only [abs_add_loop]
    refine ⟨?_, fun h => absurd h (Nat.lt_irrefl 0)⟩
    split
    · intro x hx
      simp only [List.mem_singleton] at hx
      rw [hx]
      exact Nat.mod_lt _ (by norm_num)
    · simp [digits_ok]
  | succ n ih =>
    simp only [abs_add_loop]
    refine ⟨?_, fun _ => by simp⟩
    rw [digits_ok_cons]
    exact ⟨Nat.mod_lt _ (by norm_num), (ih _ _ _).1⟩

/-- Adding a nonempty number of sign +1 to a running total of sign 0 or +1. -/
theorem add_running_total (t x : superlong)
    (hts : t.sign = 0 ∨ t.sign = 1) (hx : digits_ok x.digits) (hxs : x.sign = 1)
    (hxn : x.digits ≠ []) :
    digits_ok (superlong_add t x).digits ∧ (superlong_add t x).digits ≠ [] ∧
      ((superlong_add t x).sign = 0 ∨ (superlong_add t x).sign = 1) := by
  unfold superlong_add
  rcases hts with h0 | h1
  · simp only [h0, if_true, copy_eq]
    exact ⟨hx, hxn, Or.inr hxs⟩
  · simp only [h1, hxs, one_ne_zero, if_false, if_true]
    have hpos : 0 < (if t.digits.length > x.digits.length then t.digits.length
        else x.digits.length) := by
      have : 0 < x.digits.length := List.length_pos.mpr hxn
      split <;> omega
    have hshape := abs_add_loop_shape
      (if t.digits.length > x.digits.length then t.digits.length else x.digits.length)
      t.digits x.digits 0
    have hd : digits_ok (superlong_abs_add t x).digits := by
      unfold superlong_abs_add
      exact normalize_digits_ok _ hshape.1
    have hn : (superlong_abs_add t x).digits ≠ [] := by
      unfold superlong_abs_add
      exact normalize_ne_nil _ (hshape.2 hpos)
    refine ⟨normalize_digits_ok _ hd, normalize_ne_nil _ hn, ?_⟩
    rcases normalize_sign { superlong_abs_add t x with sign := 1 } with h | ⟨h, _⟩ | ⟨h, _⟩
    · right; exact h
    · left; exact h
    · left; exact h

theorem mul_simple_row_shape (a_digit : Nat) (bs : List Nat) (carry : Nat) :
    digits_ok (mul_simple_row a_digit bs carry) ∧
      (bs ≠ [] → mul_simple_row a_digit bs carry ≠ []) := by
  induction bs generalizing carry with
  | nil =>
    simp only [mul_simple_row]
    exact ⟨(le_bytes_spec carry carry (le_refl _)).2.1, fun h => absurd rfl h⟩
  | cons d ds ih =>
    simp only [mul_simple_row]
    refine ⟨?_, fun _ => by simp⟩
    rw [digits_ok_cons]
    exact ⟨Nat.mod_lt _ (by norm_num), (ih _).1⟩

theorem mul_simple_loop_shape (b : superlong) (hb : b.digits ≠ []) (as : List Nat) (i : Nat)
    (t : superlong) (ht : digits_ok t.digits) (hts : t.sign = 0 ∨ t.sign = 1) :
    digits_ok (mul_simple_loop b as i t).digits ∧
      ((mul_simple_loop b as i t).sign = 0 ∨ (mul_simple_loop b as i t).sign = 1) ∧
      (as ≠ [] ∨ t.digits ≠ [] → (mul_simple_loop b as i t).digits ≠ []) := by
  induction as generalizing i t with
  | nil =>
    simp only [mul_simple_loop]
    refine ⟨ht, hts, ?_⟩
    rintro (h | h)
    · exact absurd rfl h
    · exact h
  | cons d ds ih =>
    simp only [mul_simple_loop]
    have hrow := mul_simple_row_shape d b.digits 0
    have hx : digits_ok (superlong_clean.digits ++ List.replicate i 0 ++
        mul_simple_row d b.digits 0) := by
      rw [digits_ok_append, digits_ok_append]
      refine ⟨⟨by simp [superlong_clean, digits_ok], ?_⟩, hrow.1⟩
      intro x hx
      rw [List.eq_of_mem_replicate hx]
      norm_num
    have hxn : superlong_clean.digits ++ List.replicate i 0 ++ mul_simple_row d b.digits 0 ≠ [] := by
      intro h
      exact hrow.2 hb (List.append_eq_nil.mp h).2
    obtain ⟨s1, s2, s3⟩ := add_running_total t
      { digits := superlong_clean.digits ++ List.replicate i 0 ++ mul_simple_row d b.digits 0,
        sign := 1 } hts hx rfl hxn
    obtain ⟨r1, r2, r3⟩ := ih (i + 1) _ s1 s3
    exact ⟨r1, r2, fun _ => r3 (Or.inr s2)⟩

theorem mul_simple_shape (a b : superlong) (ha : a.digits ≠ []) (hb : b.digits ≠ []) :
    digits_ok (superlong_mul_simple a b).digits ∧ (superlong_mul_simple a b).digits ≠ [] := by
  unfold superlong_mul_simple
  obtain ⟨r1, _, r3⟩ := mul_simple_loop_shape b hb a.digits 0 (superlong_from_uint 0)
    (from_uint_spec 0).1.1 (Or.inl (by simp [superlong_from_uint, superlong_clean]))
  exact ⟨normalize_digits_ok _ r1, normalize_ne_nil _ (r3 (Or.inl ha))⟩

/-- Below the threshold `superlong_mul_karatsuba` is `superlong_mul_simple`. -/
theorem mul_karatsuba_small (x y : superlong)
    (h : min x.digits.length y.digits.length < 16) :
    superlong_mul_karatsuba x y = superlong_mul_simple x y := by
  unfold superlong_mul_karatsuba
  cases hm : min x.digits.length y.digits.length with
  | zero => rfl
  | succ d =>
    have hlt : (if x.digits.length < y.digits.length then x.digits.length
        else y.digits.length) < 16 := by
      split <;> omega
    simp only [mul_karatsuba_depth, hlt, if_true]

/-- On the schoolbook path `superlong_mul` leaves a canonical number. -/
theorem mul_canonical_small (a b : superlong) (ha : canonical a) (hb : canonical b)
    (h : min a.digits.length b.digits.length < 16) : canonical (superlong_mul a b) := by
  unfold superlong_mul
  by_cases h0 : a.sign = 0 ∨ b.sign = 0
  · simp only [h0, if_true]
    exact clean_canonical
  · simp only [h0, if_false]
    have ha0 : a.sign ≠ 0 := fun h => h0 (Or.inl h)
    have hb0 : b.sign ≠ 0 := fun h => h0 (Or.inr h)
    rw [mul_karatsuba_small a b h]
    obtain ⟨m1, m2⟩ := mul_simple_shape a b (canonical_ne_nil a ha ha0) (canonical_ne_nil b hb hb0)
    have hsg : (if a.sign = b.sign then (1 : Int) else -1) = 1 ∨
        (if a.sign = b.sign then (1 : Int) else -1) = -1 := by
      split
      · left; rfl
      · right; rfl
    have hsg0 : (if a.sign = b.sign then (1 : Int) else -1) ≠ 0 := by
      split <;> decide
    exact (normalize_spec
      { superlong_mul_simple a b with sign := if a.sign = b.sign then 1 else -1 }
      m1 (Or.inr hsg) (Or.inl m2) (fun h => absurd h hsg0)).1

/-! ## The scalar read from at most four digits -/

theorem lor_shift_eq_add (val d k : Nat) (hv : val < 2 ^ k) :
    val ||| (d <<< k) = val + 2 ^ k * d := by
  rw [Nat.shiftLeft_eq, Nat.lor_comm, Nat.mul_comm d, ← Nat.mul_add_lt_is_or hv]
  omega

theorem abs_compare_uint_loop_spec (ds : List Nat) (i val : Nat) (hok : digits_ok ds)
    (hlen : i + ds.length ≤ 4) (hv : val < 256 ^ i) :
    abs_compare_uint_loop ds i val = val + 256 ^ i * magnitude ds := by
  induction ds generalizing i val with
  | nil => simp [abs_compare_uint_loop, magnitude]
  | cons d ds ih =>
    have hd : d < 256 := (digits_ok_cons.mp hok).1
    simp only [List.length_cons] at hlen
    have hi : i ≤ 3 := by omega
    have hpow : (256 : Nat) ^ i = 2 ^ (i * 8) := by
      rw [Nat.mul_comm, pow_mul]; norm_num
    have hv2 : val < 2 ^ (i * 8) := by rw [← hpow]; exact hv
    have hle : (256 : Nat) ^ i ≤ 256 ^ 3 := Nat.pow_le_pow_right (by norm_num) hi
    have hdm : 256 ^ i * d ≤ 256 ^ 3 * 255 := Nat.mul_le_mul hle (by omega)
    have hmod : (d <<< (i * 8)) % 2 ^ 32 = d <<< (i * 8) := by
      apply Nat.mod_eq_of_lt
      rw [Nat.shiftLeft_eq, ← hpow, Nat.mul_comm]
      omega
    have hstep : abs_compare_uint_loop (d :: ds) i val =
        abs_compare_uint_loop ds (i + 1) (val + 256 ^ i * d) := by
      simp only [abs_compare_uint_loop, hmod]
      rw [lor_shift_eq_add val d (i * 8) hv2, hpow]
    rw [hstep, ih (i + 1) (val + 256 ^ i * d) (digits_ok_cons.mp hok).2 (by omega)
      (by rw [pow_succ]; nlinarith)]
    simp only [magnitude, pow_succ]
    ring

theorem abs_compare_uint_loop_eq (ds : List Nat) (hok : digits_ok ds) (hlen : ds.length ≤ 4) :
    abs_compare_uint_loop ds 0 0 = magnitude ds := by
  rw [abs_compare_uint_loop_spec ds 0 0 hok (by omega) (by norm_num)]
  simp

theorem digits_of_256 (ds : List Nat) (hok : digits_ok ds) (hl : no_leading_zero ds)
    (hlen : ds.length ≤ 4) (hm : magnitude ds = 256) : ds = [0, 1] := by
  match ds, hok, hl, hlen, hm with
  | [], _, _, _, hm => simp [magnitude] at hm
  | [d0], hok, _, _, hm =>
    have := hok d0 (by simp)
    simp only [magnitude] at hm
    omega
  | [d0, d1], hok, _, _, hm =>
    have := hok d0 (by simp)
    simp only [magnitude] at hm
    have h0 : d0 = 0 := by omega
    have h1 : d1 = 1 := by omega
    rw [h0, h1]
  | [d0, d1, d2], hok, hl, _, hm =>
    have := hok d0 (by simp)
    have := hok d1 (by simp)
    simp only [magnitude] at hm
    have h2 : d2 = 0 := by omega
    rcases hl with hl | hl
    · simp [h2] at hl
    · simp at hl
  | [d0, d1, d2, d3], hok, hl, _, hm =>
    have := hok d0 (by simp)
    have := hok d1 (by simp)
    have := hok d2 (by simp)
    simp only [magnitude] at hm
    have h3 : d3 = 0 := by omega
    rcases hl with hl | hl
    · simp [h3] at hl
    · simp at hl
  | _ :: _ :: _ :: _ :: _ :: _, _, _, hlen, _ =>
    simp only [List.length_cons] at hlen
    omega

/-! ## Division results that are canonical -/

/-- `superlong_div_uint` leaves a canonical number, except when a one-digit
number is divided by 256. -/
theorem div_uint_canonical (a : superlong) (b : Nat) (res : superlong) (ha : canonical a)
    (hb0 : b ≠ 0) (hb : b < 2 ^ 32) (hslip : ¬ (b = 256 ∧ a.digits.length = 1)) :
    ∃ r, superlong_div_uint a b res = Outcome.returned r ∧ canonical r := by
  unfold superlong_div_uint
  simp only [hb0, if_false]
  by_cases h0 : a.sign = 0
  · simp only [h0, if_true]
    exact ⟨_, rfl, clean_canonical⟩
  simp only [h0, if_false]
  by_cases h1 : b = 1
  · simp only [h1, if_true, copy_eq]
    exact ⟨_, rfl, ha⟩
  simp only [h1, if_false]
  have hne := canonical_ne_nil a ha h0
  have hlen : 0 < a.digits.length := List.length_pos.mpr hne
  obtain ⟨hoa, hsa, _, _⟩ := ha
  by_cases h256 : b = 256
  · have hl1 : a.digits.length > 1 := by
      have : a.digits.length ≠ 1 := fun h => hslip ⟨h256, h⟩
      omega
    simp only [h256, if_true, hl1, superlong_clean, List.nil_append]
    refine ⟨_, rfl, (normalize_spec { digits := a.digits.drop 1, sign := a.sign }
      ?_ hsa (Or.inl ?_) (fun h => absurd h h0)).1⟩
    · intro x hx
      exact hoa x (List.mem_of_mem_drop hx)
    · intro h
      have := congrArg List.length h
      simp only [List.length_drop, List.length_nil] at this
      omega
  · simp only [h256, if_false, superlong_clean, List.nil_append]
    obtain ⟨_, d2, d3⟩ := div_uint_loop_spec b (Nat.pos_of_ne_zero hb0) hb a.digits.reverse 0 []
      (digits_ok_reverse _ hoa) (by simp [digits_ok]) (Nat.pos_of_ne_zero hb0)
    refine ⟨_, rfl, (normalize_spec
      { digits := (div_uint_loop b a.digits.reverse 0 []).reverse, sign := a.sign }
      (digits_ok_reverse _ d2) hsa (Or.inl ?_) (fun h => absurd h h0)).1⟩
    intro h
    have := congrArg List.length h
    simp only [List.length_reverse, d3, List.length_nil] at this
    omega

theorem bin_find_digit_loop_lt (remainder divisor : superlong) (fuel left right best v : Nat)
    (hbest : best < 256)
    (h : bin_find_digit_loop remainder divisor fuel left right best = some v) : v < 256 := by
  induction fuel generalizing left right best with
  | zero =>
    simp only [bin_find_digit_loop] at h
    split at h
    · simp at h
    · simp only [Option.some.injEq] at h
      omega
  | succ fuel ih =>
    rw [bin_find_digit_loop] at h
    simp only at h
    split at h
    · split at h
      · exact ih _ _ _ (Nat.mod_lt _ (by norm_num)) h
      · exact ih _ _ _ hbest h
    · simp only [Option.some.injEq] at h
      omega

theorem div_loop_shape (fuel : Nat) (divis : superlong) (ds : List Nat) (remaind : superlong)
    (q_digits qs : List Nat) (hq : digits_ok q_digits)
    (h : div_loop fuel divis ds remaind q_digits = some qs) :
    digits_ok qs ∧ qs.length = q_digits.length + ds.length := by
  induction ds generalizing remaind q_digits with
  | nil =>
    simp only [div_loop, Option.some.injEq] at h
    rw [← h]
    exact ⟨hq, rfl⟩
  | cons d ds ih =>
    rw [div_loop] at h
    simp only at h
    split at h
    · cases hb : bin_find_digit fuel
          (superlong_add (superlong_mul_uint remaind 256) (superlong_from_uint d)) divis with
      | none => simp [hb] at h
      | some qd =>
        simp only [hb] at h
        have hqd : qd < 256 := bin_find_digit_loop_lt _ _ _ _ _ _ _ (by norm_num) hb
        have hq2 : digits_ok (q_digits ++ [qd]) := by
          rw [digits_ok_append]
          exact ⟨hq, by simp [digits_ok, hqd]⟩
        obtain ⟨r1, r2⟩ := ih _ _ hq2 h
        refine ⟨r1, ?_⟩
        rw [r2]
        simp only [List.length_append, List.length_cons, List.length_nil]
        omega
    · have hq2 : digits_ok (q_digits ++ [0]) := by
        rw [digits_ok_append]
        exact ⟨hq, by simp [digits_ok]⟩
      obtain ⟨r1, r2⟩ := ih _ _ hq2 h
      refine ⟨r1, ?_⟩
      rw [r2]
      simp only [List.length_append, List.length_cons, List.length_nil]
      omega

/-- Whenever `superlong_div` returns, the quotient is canonical, except when a
one-digit number is divided by 256 (digits 0, 1) on the scalar fast path. -/
theorem div_canonical (fuel : Nat) (a b res r : superlong) (ha : canonical a)
    (hb : canonical b) (hslip : ¬ (b.digits = [0, 1] ∧ a.digits.length = 1))
    (h : superlong_div fuel a b res = Outcome.returned r) : canonical r := by
  unfold superlong_div at h
  simp only at h
  by_cases h1 : b.sign = 0
  · rw [if_pos h1] at h
    simp at h
  rw [if_neg h1] at h
  by_cases h2 : a.sign = 0
  · rw [if_pos h2] at h
    simp only [Outcome.returned.injEq] at h
    rw [← h]; exact clean_canonical
  rw [if_neg h2] at h
  by_cases h3 : b.digits.length ≤ 4 ∧ abs_compare_uint_loop b.digits 0 0 ≠ 0
  · rw [if_pos h3] at h
    have hval := abs_compare_uint_loop_eq b.digits hb.1 h3.1
    have hlt : abs_compare_uint_loop b.digits 0 0 < 2 ^ 32 := by
      rw [hval]
      have h4 := magnitude_lt_pow _ hb.1
      have h5 : 256 ^ b.digits.length ≤ 256 ^ 4 := Nat.pow_le_pow_right (by norm_num) h3.1
      omega
    have hs : ¬ (abs_compare_uint_loop b.digits 0 0 = 256 ∧ a.digits.length = 1) := by
      rintro ⟨e1, e2⟩
      rw [hval] at e1
      exact hslip ⟨digits_of_256 _ hb.1 hb.2.2.2 h3.1 e1, e2⟩
    obtain ⟨q, hq, hqc⟩ := div_uint_canonical a _ res ha h3.2 hlt hs
    rw [hq] at h
    simp only [Outcome.returned.injEq] at h
    rw [← h]
    by_cases hc : (if a.sign = b.sign then (1 : Int) else -1) < 0 ∧ q.sign ≠ 0
    · rw [if_pos hc]
      obtain ⟨c1, _, c3, c4⟩ := hqc
      refine ⟨c1, Or.inr (Or.inr rfl), ?_, c4⟩
      simp only
      constructor
      · intro hh; exact absurd hh (by decide)
      · intro hh; exact absurd (c3.mpr hh) hc.2
    · rw [if_neg hc]
      exact hqc
  rw [if_neg h3] at h
  by_cases h4 : superlong_abs_compare { superlong_copy a with sign := 1 }
      { superlong_copy b with sign := 1 } < 0
  · rw [if_pos h4] at h
    simp only [Outcome.returned.injEq] at h
    rw [← h]; exact clean_canonical
  rw [if_neg h4] at h
  cases hd : div_loop fuel { superlong_copy b with sign := 1 }
      ({ superlong_copy a with sign := 1 } : superlong).digits.reverse
      (superlong_from_uint 0) [] with
  | none =>
    simp only at hd
    simp [hd] at h
  | some qs =>
    simp only at hd
    rw [hd] at h
    simp only [Outcome.returned.injEq] at h
    obtain ⟨s1, s2⟩ := div_loop_shape _ _ _ _ _ _ (by simp [digits_ok]) hd
    have hne := canonical_ne_nil a ha h2
    have hsg : (if a.sign = b.sign then (1 : Int) else -1) = 1 ∨
        (if a.sign = b.sign then (1 : Int) else -1) = -1 := by
      split
      · left; rfl
      · right; rfl
    have hsg0 : (if a.sign = b.sign then (1 : Int) else -1) ≠ 0 := by
      split <;> decide
    rw [← h]
    refine (normalize_spec _ ?_ (Or.inr hsg) (Or.inl ?_) (fun hh => absurd hh hsg0)).1
    · simp only [superlong_clean, List.nil_append]
      exact digits_ok_reverse _ s1
    · simp only [superlong_clean, List.nil_append]
      intro hh
      have := congrArg List.length hh
      simp only [List.length_reverse, s2, copy_eq, List.length_nil] at this
      have : 0 < a.digits.length := List.length_pos.mpr hne
      omega

/-! ## Zero results and additive identities -/

theorem canonical_natAbs (a : superlong) (ha : canonical a) :
    (value a).natAbs = magnitude a.digits := by
  obtain ⟨_, hs, hz, _⟩ := ha
  unfold value
  rcases hs with h | h | h
  · rw [h, hz.mp h]; simp
  · rw [h]; simp
  · rw [h]; simp

theorem no_leading_zero_zero_digits_form (r : superlong) (h : no_leading_zero r.digits) :
    zero_digits_form r :=
  fun hm => nolead_mag_zero r.digits h hm

theorem canonical_zero_form (r : superlong) (h : canonical r) : zero_form r := by
  obtain ⟨_, _, hz, hl⟩ := h
  refine ⟨fun hm => ⟨nolead_mag_zero r.digits hl hm, hz.mpr hm⟩,
    fun hs => nolead_mag_zero r.digits hl (hz.mp hs), fun hs => ?_⟩
  apply List.length_pos.mpr
  intro hnil
  apply hs
  apply hz.mpr
  rw [hnil]
  rfl

theorem init_canonical : canonical superlong_init := by
  simp [canonical, superlong_init, digits_ok, magnitude]

/-- Adding or subtracting zero leaves the sign and the magnitude of `a`, for
every entry point except `superlong_sub_uint` on `a = 0`. -/
theorem additive_identity (a z : superlong) (ha : canonical a) (hz : canonical z)
    (hz0 : z.sign = 0) :
    ((superlong_add a z).sign = a.sign ∧
        magnitude (superlong_add a z).digits = magnitude a.digits) ∧
      ((superlong_add_uint a 0).sign = a.sign ∧
        magnitude (superlong_add_uint a 0).digits = magnitude a.digits) ∧
      ((superlong_sub a z).sign = a.sign ∧
        magnitude (superlong_sub a z).digits = magnitude a.digits) ∧
      (a.sign ≠ 0 → (superlong_sub_uint a 0).sign = a.sign ∧
        magnitude (superlong_sub_uint a 0).digits = magnitude a.digits) := by
  have hzm : magnitude z.digits = 0 := hz.2.2.1.mp hz0
  have hadd : (superlong_add a z).sign = a.sign ∧
      magnitude (superlong_add a z).digits = magnitude a.digits := by
    unfold superlong_add
    by_cases h0 : a.sign = 0
    · simp only [h0, if_true, copy_eq]
      exact ⟨hz0, by rw [hzm, ha.2.2.1.mp h0]⟩
    · simp only [h0, hz0, if_true, if_false, copy_eq]
      exact ⟨trivial, trivial⟩
  refine ⟨hadd, ?_, ?_, ?_⟩
  · unfold superlong_add_uint
    by_cases h0 : a.sign = 0
    · simp only [h0, if_true]
      refine ⟨by simp [superlong_from_uint, superlong_clean], ?_⟩
      rw [(from_uint_spec 0).2.1, ha.2.2.1.mp h0]
    · simp only [h0, if_true, if_false, copy_eq]
      exact ⟨trivial, trivial⟩
  · unfold superlong_sub
    simp only [copy_eq, hz0, ne_eq, not_true_eq_false, if_false]
    exact hadd
  · intro h0
    unfold superlong_sub_uint
    simp only [h0, if_true, if_false, copy_eq]
    exact ⟨trivial, trivial⟩

/-! ## Exactness of the schoolbook product -/

/-- One partial product plus carry of `superlong_mul_simple` fits the `uint32_t`
accumulator, and the carry it leaves is again below 256. -/
theorem partial_product_fits (a_digit b_digit carry : Nat) (ha : a_digit < 256)
    (hb : b_digit < 256) (hc : carry < 256) :
    ((a_digit * b_digit) % 2 ^ 32 + carry) % 2 ^ 32 = a_digit * b_digit + carry ∧
      (a_digit * b_digit + carry) / 256 < 256 := by
  have h1 : a_digit * b_digit ≤ 255 * 255 := Nat.mul_le_mul (by omega) (by omega)
  constructor
  · rw [Nat.mod_eq_of_lt (show a_digit * b_digit < 2 ^ 32 by omega),
      Nat.mod_eq_of_lt (show a_digit * b_digit + carry < 2 ^ 32 by omega)]
  · omega

theorem mul_simple_row_spec (a_digit : Nat) (bs : List Nat) (carry : Nat)
    (ha : a_digit < 256) (hb : digits_ok bs) (hc : carry < 256) :
    magnitude (mul_simple_row a_digit bs carry) = a_digit * magnitude bs + carry := by
  induction bs generalizing carry with
  | nil =>
    simp only [mul_simple_row, magnitude]
    rw [(le_bytes_spec carry carry (le_refl _)).1]
    omega
  | cons d ds ih =>
    rw [digits_ok_cons] at hb
    obtain ⟨hf, hq⟩ := partial_product_fits a_digit d carry ha hb.1 hc
    simp only [mul_simple_row, magnitude]
    rw [hf, ih _ hb.2 hq]
    have e : a_digit * (d + 256 * magnitude ds) =
        a_digit * d + 256 * (a_digit * magnitude ds) := by ring
    rw [e]
    omega

theorem add_running_total_value (t x : superlong)
    (ht : digits_ok t.digits) (hts : t.sign = 0 ∨ t.sign = 1)
    (htz : t.sign = 0 → magnitude t.digits = 0)
    (hx : digits_ok x.digits) (hxs : x.sign = 1) :
    magnitude (superlong_add t x).digits = magnitude t.digits + magnitude x.digits ∧
      ((superlong_add t x).sign = 0 → magnitude (superlong_add t x).digits = 0) := by
  unfold superlong_add
  rcases hts with h0 | h1
  · simp only [h0, if_true, copy_eq]
    refine ⟨by rw [htz h0]; omega, fun h => ?_⟩
    rw [hxs] at h
    exact absurd h one_ne_zero
  · simp only [h1, hxs, one_ne_zero, if_false, if_true]
    have hsum := (abs_add_loop_spec
      (if t.digits.length > x.digits.length then t.digits.length else x.digits.length)
      t.digits x.digits 0 (by split <;> omega) (by split <;> omega) (by omega) ht hx).1
    have hm : magnitude (superlong_normalize { superlong_abs_add t x with sign := 1 }).digits =
        magnitude t.digits + magnitude x.digits := by
      rw [normalize_magnitude]
      show magnitude (superlong_abs_add t x).digits = _
      unfold superlong_abs_add
      rw [normalize_magnitude]
      simpa using hsum
    refine ⟨hm, fun h => ?_⟩
    rcases normalize_sign { superlong_abs_add t x with sign := 1 } with h' | ⟨_, h'⟩ | ⟨_, h'⟩
    · rw [h'] at h
      exact absurd h one_ne_zero
    · rw [normalize_magnitude]
      exact h'
    · exact absurd h' one_ne_zero

theorem mul_simple_loop_value (b : superlong) (hb : digits_ok b.digits) (hbn : b.digits ≠ [])
    (as : List Nat) (has : digits_ok as) (i : Nat) (t : superlong) (ht : digits_ok t.digits)
    (hts : t.sign = 0 ∨ t.sign = 1) (htz : t.sign = 0 → magnitude t.digits = 0) :
    magnitude (mul_simple_loop b as i t).digits =
        magnitude t.digits + 256 ^ i * (magnitude as * magnitude b.digits) ∧
      ((mul_simple_loop b as i t).sign = 0 →
        magnitude (mul_simple_loop b as i t).digits = 0) := by
  induction as generalizing i t with
  | nil =>
    simp only [mul_simple_loop, magnitude]
    exact ⟨by omega, htz⟩
  | cons d ds ih =>
    rw [digits_ok_cons] at has
    simp only [mul_simple_loop]
    have hrow := mul_simple_row_shape d b.digits 0
    have hx : digits_ok (superlong_clean.digits ++ List.replicate i 0 ++
        mul_simple_row d b.digits 0) := by
      rw [digits_ok_append, digits_ok_append]
      refine ⟨⟨by simp [superlong_clean, digits_ok], ?_⟩, hrow.1⟩
      intro x hx
      rw [List.eq_of_mem_replicate hx]
      norm_num
    have hxn : superlong_clean.digits ++ List.replicate i 0 ++ mul_simple_row d b.digits 0 ≠ [] := by
      intro h
      exact hrow.2 hbn (List.append_eq_nil.mp h).2
    have hxm : magnitude (superlong_clean.digits ++ List.replicate i 0 ++
        mul_simple_row d b.digits 0) = 256 ^ i * (d * magnitude b.digits) := by
      rw [magnitude_append, magnitude_append, magnitude_replicate_zero,
        mul_simple_row_spec d b.digits 0 has.1 hb (by omega)]
      simp [superlong_clean, magnitude]
    obtain ⟨s1, _, s3⟩ := add_running_total t
      { digits := superlong_clean.digits ++ List.replicate i 0 ++ mul_simple_row d b.digits 0,
        sign := 1 } hts hx rfl hxn
    obtain ⟨v1, v2⟩ := add_running_total_value t
      { digits := superlong_clean.digits ++ List.replicate i 0 ++ mul_simple_row d b.digits 0,
        sign := 1 } ht hts htz hx rfl
    obtain ⟨r1, r2⟩ := ih has.2 (i + 1) _ s1 s3 v2
    refine ⟨?_, r2⟩
    rw [r1, v1]
    show magnitude t.digits + magnitude (superlong_clean.digits ++ List.replicate i 0 ++
        mul_simple_row d b.digits 0) + _ = _
    rw [hxm]
    simp only [magnitude]
    ring

/-- The schoolbook product of two nonempty byte sequences is canonical, has sign
0 or +1 and its magnitude is the product of the two magnitudes. -/
theorem mul_simple_spec (a b : superlong) (ha : digits_ok a.digits) (hb : digits_ok b.digits)
    (han : a.digits ≠ []) (hbn : b.digits ≠ []) :
    canonical (superlong_mul_simple a b) ∧
      magnitude (superlong_mul_simple a b).digits = magnitude a.digits * magnitude b.digits ∧
      ((superlong_mul_simple a b).sign = 0 ∨ (superlong_mul_simple a b).sign = 1) ∧
      (superlong_mul_simple a b).digits ≠ [] := by
  have h0 : (superlong_from_uint 0).sign = 0 := by simp [superlong_from_uint, superlong_clean]
  have hm0 : magnitude (superlong_from_uint 0).digits = 0 := (from_uint_spec 0).2.1
  obtain ⟨r1, r2, r3⟩ := mul_simple_loop_shape b hbn a.digits 0 (superlong_from_uint 0)
    (from_uint_spec 0).1.1 (Or.inl h0)
  obtain ⟨v1, v2⟩ := mul_simple_loop_value b hb hbn a.digits ha 0 (superlong_from_uint 0)
    (from_uint_spec 0).1.1 (Or.inl h0) (fun _ => hm0)
  have hs : (mul_simple_loop b a.digits 0 (superlong_from_uint 0)).sign = 0 ∨
      (mul_simple_loop b a.digits 0 (superlong_from_uint 0)).sign = 1 ∨
      (mul_simple_loop b a.digits 0 (superlong_from_uint 0)).sign = -1 := by
    rcases r2 with h | h
    · exact Or.inl h
    · exact Or.inr (Or.inl h)
  obtain ⟨c1, c2, c3, _, _, c6⟩ := normalize_spec
    (mul_simple_loop b a.digits 0 (superlong_from_uint 0)) r1 hs (Or.inl (r3 (Or.inl han))) v2
  unfold superlong_mul_simple
  refine ⟨c1, ?_, ?_, c6 (r3 (Or.inl han))⟩
  · rw [c2, v1, hm0]
    simp
  · rw [c3]
    split
    · exact Or.inl rfl
    · exact r2

/-! ## Uniqueness of the canonical representation -/

theorem trimmed_mag_zero (ds : List Nat) (hl : ds.getLast? ≠ some 0)
    (hm : magnitude ds = 0) : ds = [] := by
  rcases nolead_mag_zero ds (Or.inl hl) hm with h | h
  · exact h
  · subst h
    exact absurd rfl hl

theorem trimmed_unique (xs ys : List Nat) (hx : digits_ok xs) (hy : digits_ok ys)
    (hxl : xs.getLast? ≠ some 0) (hyl : ys.getLast? ≠ some 0)
    (hm : magnitude xs = magnitude ys) : xs = ys := by
  induction xs generalizing ys with
  | nil =>
    exact (trimmed_mag_zero ys hyl (by rw [← hm]; rfl)).symm
  | cons d ds ih =>
    cases ys with
    | nil => exact trimmed_mag_zero (d :: ds) hxl (by rw [hm]; rfl)
    | cons e es =>
      rw [digits_ok_cons] at hx hy
      simp only [magnitude] at hm
      have hde : d = e := by omega
      have hme : magnitude ds = magnitude es := by omega
      have hdl : ds.getLast? ≠ some 0 := by
        cases ds with
        | nil => simp
        | cons d2 ds2 =>
          rw [List.getLast?_cons_cons] at hxl
          exact hxl
      have hel : es.getLast? ≠ some 0 := by
        cases es with
        | nil => simp
        | cons e2 es2 =>
          rw [List.getLast?_cons_cons] at hyl
          exact hyl
      rw [hde, ih es hx.2 hy.2 hdl hel hme]

/-- Two nonempty byte sequences without a most-significant zero digit (a lone
zero digit apart) that denote the same magnitude are the same sequence. -/
theorem no_leading_zero_unique (xs ys : List Nat) (hx : digits_ok xs) (hy : digits_ok ys)
    (hxl : no_leading_zero xs) (hyl : no_leading_zero ys) (hxn : xs ≠ []) (hyn : ys ≠ [])
    (hm : magnitude xs = magnitude ys) : xs = ys := by
  by_cases h0 : magnitude xs = 0
  · rcases nolead_mag_zero xs hxl h0 with h | h
    · exact absurd h hxn
    · rcases nolead_mag_zero ys hyl (by rw [← hm]; exact h0) with h2 | h2
      · exact absurd h2 hyn
      · rw [h, h2]
  · have hx1 : xs.getLast? ≠ some 0 := by
      rcases hxl with h | h
      · exact h
      · subst h
        exact absurd rfl h0
    have hy1 : ys.getLast? ≠ some 0 := by
      rcases hyl with h | h
      · exact h
      · subst h
        rw [hm] at h0
        exact absurd rfl h0
    exact trimmed_unique xs ys hx hy hx1 hy1 hm

/-- Canonical numbers with the same value have the same sign and magnitude. -/
theorem canonical_value_inj (r a : superlong) (hr : canonical r) (ha : canonical a)
    (hv : value r = value a) :
    r.sign = a.sign ∧ magnitude r.digits = magnitude a.digits := by
  have hmag : magnitude r.digits = magnitude a.digits := by
    rw [← canonical_natAbs r hr, ← canonical_natAbs a ha, hv]
  refine ⟨?_, hmag⟩
  obtain ⟨_, hrs, hrz, _⟩ := hr
  obtain ⟨_, has, haz, _⟩ := ha
  unfold value at hv
  rw [hmag] at hv hrz
  by_cases h0 : magnitude a.digits = 0
  · rw [hrz.mpr h0, haz.mpr h0]
  · have hpos : (0 : Int) < (magnitude a.digits : Int) := by omega
    have hra : r.sign ≠ 0 := fun h => h0 (hrz.mp h)
    have haa : a.sign ≠ 0 := fun h => h0 (haz.mp h)
    rcases hrs with h1 | h1 | h1 <;> rcases has with h2 | h2 | h2 <;>
      first
      | exact absurd h1 hra
      | exact absurd h2 haa
      | (rw [h1, h2] at hv; omega)

theorem mul_simple_comm (x y : superlong) (hx : digits_ok x.digits) (hy : digits_ok y.digits)
    (hxn : x.digits ≠ []) (hyn : y.digits ≠ []) :
    superlong_mul_simple x y = superlong_mul_simple y x := by
  obtain ⟨c1, m1, s1, n1⟩ := mul_simple_spec x y hx hy hxn hyn
  obtain ⟨c2, m2, s2, n2⟩ := mul_simple_spec y x hy hx hyn hxn
  have hm : magnitude (superlong_mul_simple x y).digits =
      magnitude (superlong_mul_simple y x).digits := by
    rw [m1, m2, Nat.mul_comm]
  have hd := no_leading_zero_unique _ _ c1.1 c2.1 c1.2.2.2 c2.2.2.2 n1 n2 hm
  have hs : (superlong_mul_simple x y).sign = (superlong_mul_simple y x).sign := by
    have z1 := c1.2.2.1
    have z2 := c2.2.2.1
    rw [hm] at z1
    by_cases h0 : magnitude (superlong_mul_simple y x).digits = 0
    · rw [z1.mpr h0, z2.mpr h0]
    · have a1 : (superlong_mul_simple x y).sign ≠ 0 := fun h => h0 (z1.mp h)
      have a2 : (superlong_mul_simple y x).sign ≠ 0 := fun h => h0 (z2.mp h)
      rcases s1 with h | h
      · exact absurd h a1
      · rcases s2 with h2 | h2
        · exact absurd h2 a2
        · rw [h, h2]
  cases hxy : superlong_mul_simple x y with
  | mk d1 g1 =>
    cases hyx : superlong_mul_simple y x with
    | mk d2 g2 =>
      rw [hxy, hyx] at hd hs
      simp only at hd hs
      rw [hd, hs]

/-! ## Multiplication reads only the digits, and is symmetric -/

theorem mul_simple_loop_digits (b b2 : superlong) (h : b.digits = b2.digits) (as : List Nat)
    (i : Nat) (t : superlong) : mul_simple_loop b as i t = mul_simple_loop b2 as i t := by
  induction as generalizing i t with
  | nil => rfl
  | cons d ds ih =>
    simp only [mul_simple_loop, h]
    exact ih _ _

theorem mul_simple_digits (x x2 y y2 : superlong) (hx : x.digits = x2.digits)
    (hy : y.digits = y2.digits) : superlong_mul_simple x y = superlong_mul_simple x2 y2 := by
  unfold superlong_mul_simple
  rw [hx, mul_simple_loop_digits y y2 hy]

theorem mul_karatsuba_depth_digits (d : Nat) (x x2 y y2 : superlong)
    (hx : x.digits = x2.digits) (hy : y.digits = y2.digits) :
    mul_karatsuba_depth d x y = mul_karatsuba_depth d x2 y2 := by
  cases d with
  | zero =>
    simp only [mul_karatsuba_depth]
    exact mul_simple_digits x x2 y y2 hx hy
  | succ d =>
    simp only [mul_karatsuba_depth, hx, hy, mul_simple_digits x x2 y y2 hx hy]

/-- The Karatsuba routine never reads the sign of its operands. -/
theorem mul_karatsuba_digits (x x2 y y2 : superlong)
    (hx : x.digits = x2.digits) (hy : y.digits = y2.digits) :
    superlong_mul_karatsuba x y = superlong_mul_karatsuba x2 y2 := by
  unfold superlong_mul_karatsuba
  rw [hx, hy]
  exact mul_karatsuba_depth_digits _ x x2 y y2 hx hy

theorem digits_ok_take (ds : List Nat) (k : Nat) (h : digits_ok ds) : digits_ok (ds.take k) :=
  fun x hx => h x (List.mem_of_mem_take hx)

theorem digits_ok_drop (ds : List Nat) (k : Nat) (h : digits_ok ds) : digits_ok (ds.drop k) :=
  fun x hx => h x (List.mem_of_mem_drop hx)

theorem karatsuba_half_ok (ds : List Nat) (h : digits_ok ds) :
    digits_ok (superlong_init.digits ++ ds) ∧ superlong_init.digits ++ ds ≠ [] := by
  refine ⟨?_, by simp [superlong_init]⟩
  rw [digits_ok_append]
  exact ⟨by simp [superlong_init, digits_ok], h⟩

theorem mul_karatsuba_depth_comm (d : Nat) (x y : superlong) (hx : digits_ok x.digits)
    (hy : digits_ok y.digits) (hxn : x.digits ≠ []) (hyn : y.digits ≠ []) :
    mul_karatsuba_depth d x y = mul_karatsuba_depth d y x := by
  induction d generalizing x y with
  | zero =>
    simp only [mul_karatsuba_depth]
    exact mul_simple_comm x y hx hy hxn hyn
  | succ d ih =>
    have hmin : (if x.digits.length < y.digits.length then x.digits.length
        else y.digits.length) =
        (if y.digits.length < x.digits.length then y.digits.length
          else x.digits.length) := by
      split <;> split <;> omega
    simp only [mul_karatsuba_depth]
    rw [hmin]
    generalize (if y.digits.length < x.digits.length then y.digits.length
      else x.digits.length) = m
    by_cases hm : m < 16
    · rw [if_pos hm, if_pos hm]
      exact mul_simple_comm x y hx hy hxn hyn
    · rw [if_neg hm, if_neg hm]
      obtain ⟨a1, a2⟩ := karatsuba_half_ok _ (digits_ok_drop x.digits (m / 2) hx)
      obtain ⟨b1, b2⟩ := karatsuba_half_ok _ (digits_ok_take x.digits (m / 2) hx)
      obtain ⟨c1, c2⟩ := karatsuba_half_ok _ (digits_ok_drop y.digits (m / 2) hy)
      obtain ⟨d1, d2⟩ := karatsuba_half_ok _ (digits_ok_take y.digits (m / 2) hy)
      obtain ⟨ab1, ab2, _⟩ := add_running_total
        { digits := superlong_init.digits ++ x.digits.drop (m / 2), sign := 1 }
        { digits := superlong_init.digits ++ x.digits.take (m / 2), sign := 1 }
        (Or.inr rfl) b1 rfl b2
      obtain ⟨cd1, cd2, _⟩ := add_running_total
        { digits := superlong_init.digits ++ y.digits.drop (m / 2), sign := 1 }
        { digits := superlong_init.digits ++ y.digits.take (m / 2), sign := 1 }
        (Or.inr rfl) d1 rfl d2
      rw [ih { digits := superlong_init.digits ++ x.digits.drop (m / 2), sign := 1 }
          { digits := superlong_init.digits ++ y.digits.drop (m / 2), sign := 1 } a1 c1 a2 c2,
        ih { digits := superlong_init.digits ++ x.digits.take (m / 2), sign := 1 }
          { digits := superlong_init.digits ++ y.digits.take (m / 2), sign := 1 } b1 d1 b2 d2,
        ih _ _ ab1 cd1 ab2 cd2]

/-- `superlong_mul_karatsuba` gives the same result for both operand orders. -/
theorem mul_karatsuba_comm (x y : superlong) (hx : digits_ok x.digits)
    (hy : digits_ok y.digits) (hxn : x.digits ≠ []) (hyn : y.digits ≠ []) :
    superlong_mul_karatsuba x y = superlong_mul_karatsuba y x := by
  unfold superlong_mul_karatsuba
  rw [Nat.min_comm]
  exact mul_karatsuba_depth_comm _ x y hx hy hxn hyn

/-! ## Negation, renormalization and the multiplication sign -/

theorem negate_spec (a : superlong) (ha : canonical a) :
    canonical (superlong_negate a) ∧ value (superlong_negate a) = -value a := by
  have h := negated_copy_spec a ha
  rw [copy_eq] at h
  exact h

theorem negate_digits (a : superlong) : (superlong_negate a).digits = a.digits := by
  unfold superlong_negate
  split <;> rfl

theorem negate_sign (a : superlong) : (superlong_negate a).sign = -a.sign := by
  unfold superlong_negate
  by_cases h : a.sign = 0
  · simp [h]
  · simp [h]

theorem canonical_value_zero_sign (r : superlong) (hr : canonical r) (hv : value r = 0) :
    r.sign = 0 := by
  unfold value at hv
  rcases Int.mul_eq_zero.mp hv with h | h
  · exact h
  · exact hr.2.2.1.mpr (by exact_mod_cast h)

/-- The sign left by `superlong_normalize`: 0 when the sign was 0 or a lone zero
digit remains, the sign before the call otherwise. -/
theorem normalize_sign_eq (s : superlong) :
    (superlong_normalize s).sign =
      if s.sign = 0 ∨ (superlong_normalize s).digits = [0] then 0 else s.sign := by
  rw [normalize_digits]
  unfold superlong_normalize
  simp only
  by_cases h : s.sign = 0 ∨ normalize_loop s.digits.length s.digits = [0]
  · rw [if_pos ((is_zero_iff _ _).mpr h), if_pos h]
  · have hz : ¬ superlong_is_zero ⟨normalize_loop s.digits.length s.digits, s.sign⟩ = true :=
      fun hz => h ((is_zero_iff _ _).mp hz)
    rw [if_neg hz, if_neg h]

theorem normalize_zero_sign (s : superlong) (hn : s.digits ≠ [])
    (hm : magnitude s.digits = 0) : (superlong_normalize s).sign = 0 := by
  rw [normalize_sign_eq]
  have h1 := normalize_no_leading_zero s
  have h2 := normalize_magnitude s
  rw [hm] at h2
  rcases nolead_mag_zero _ h1 h2 with h | h
  · exact absurd h (normalize_ne_nil s hn)
  · rw [if_pos (Or.inr h)]

theorem magnitude_drop_one (ds : List Nat) (h : digits_ok ds) :
    magnitude (ds.drop 1) = magnitude ds / 256 := by
  cases ds with
  | nil => rfl
  | cons d t =>
    rw [digits_ok_cons] at h
    simp only [List.drop_succ_cons, List.drop_zero, magnitude]
    omega

theorem mul_simple_row_fits_spec (a_digit : Nat) (bs : List Nat) (carry : Nat)
    (ha : a_digit < 256) (hb : digits_ok bs) (hc : carry < 256) :
    mul_simple_row_fits a_digit bs carry = true := by
  induction bs generalizing carry with
  | nil => rfl
  | cons d ds ih =>
    rw [digits_ok_cons] at hb
    obtain ⟨hf, hq⟩ := partial_product_fits a_digit d carry ha hb.1 hc
    have h1 : a_digit * d ≤ 255 * 255 := Nat.mul_le_mul (by omega) (by omega)
    simp only [mul_simple_row_fits, Bool.and_eq_true, decide_eq_true_eq]
    refine ⟨by omega, ?_⟩
    rw [hf]
    exact ih _ hb.2 hq

theorem sign_product (sa sb : Int) (ha : sa = 1 ∨ sa = -1) (hb : sb = 1 ∨ sb = -1) :
    (if sa = sb then (1 : Int) else -1) = sa * sb ∧
      (if -sa = sb then (1 : Int) else -1) = -(if sa = sb then (1 : Int) else -1) := by
  rcases ha with h | h <;> rcases hb with h2 | h2 <;> subst h <;> subst h2 <;> decide

theorem canonical_sign_cases (a : superlong) (ha : canonical a) (h0 : a.sign ≠ 0) :
    a.sign = 1 ∨ a.sign = -1 := by
  rcases ha.2.1 with h | h | h
  · exact absurd h h0
  · exact Or.inl h
  · exact Or.inr h

/-- On the schoolbook path the product is exact. -/
theorem mul_small_spec (a b : superlong) (ha : canonical a) (hb : canonical b)
    (ha0 : a.sign ≠ 0) (hb0 : b.sign ≠ 0)
    (hlen : min a.digits.length b.digits.length < 16) :
    magnitude (superlong_mul a b).digits = magnitude a.digits * magnitude b.digits ∧
      value (superlong_mul a b) = value a * value b ∧
      (superlong_mul a b).sign = (if a.sign = b.sign then 1 else -1) := by
  obtain ⟨_, m1, _, n1⟩ := mul_simple_spec a b ha.1 hb.1 (canonical_ne_nil a ha ha0)
    (canonical_ne_nil b hb hb0)
  have hsp := (sign_product a.sign b.sign (canonical_sign_cases a ha ha0)
    (canonical_sign_cases b hb hb0)).1
  have hma : magnitude a.digits ≠ 0 := fun h => ha0 (ha.2.2.1.mpr h)
  have hmb : magnitude b.digits ≠ 0 := fun h => hb0 (hb.2.2.1.mpr h)
  have hun : superlong_mul a b = superlong_normalize
      { superlong_mul_simple a b with sign := if a.sign = b.sign then 1 else -1 } := by
    unfold superlong_mul
    rw [if_neg (by simp [ha0, hb0]), mul_karatsuba_small a b hlen]
  rw [hun]
  refine ⟨?_, ?_, ?_⟩
  · rw [normalize_magnitude]
    exact m1
  · rw [normalize_value]
    unfold value
    simp only
    rw [m1, hsp]
    push_cast
    ring
  · rcases normalize_sign { superlong_mul_simple a b with
        sign := if a.sign = b.sign then 1 else -1 } with h | ⟨_, h⟩ | ⟨_, h⟩
    · exact h
    · simp only at h
      rw [m1] at h
      rcases Nat.mul_eq_zero.mp h with h | h
      · exact absurd h hma
      · exact absurd h hmb
    · simp only at h
      rw [hsp] at h
      rcases Int.mul_eq_zero.mp h with h | h
      · exact absurd h ha0
      · exact absurd h hb0

theorem normalize_negated_sign (x : superlong) (s : Int) (hs : s ≠ 0) :
    (superlong_normalize { x with sign := -s }).digits =
        (superlong_normalize { x with sign := s }).digits ∧
      (superlong_normalize { x with sign := -s }).sign =
        -(superlong_normalize { x with sign := s }).sign := by
  have hd : (superlong_normalize { x with sign := -s }).digits =
      (superlong_normalize { x with sign := s }).digits := by
    rw [normalize_digits, normalize_digits]
  refine ⟨hd, ?_⟩
  rw [normalize_sign_eq { x with sign := -s }, normalize_sign_eq { x with sign := s }, hd]
  show (if -s = 0 ∨ (superlong_normalize { x with sign := s }).digits = [0] then 0 else -s) =
    -(if s = 0 ∨ (superlong_normalize { x with sign := s }).digits = [0] then 0 else s)
  by_cases hz : (superlong_normalize { x with sign := s }).digits = [0]
  · rw [if_pos (Or.inr hz), if_pos (Or.inr hz)]
    rfl
  · rw [if_neg (not_or.mpr ⟨neg_ne_zero.mpr hs, hz⟩), if_neg (not_or.mpr ⟨hs, hz⟩)]

/-- Negating one operand leaves the digits of the product and negates its sign. -/
theorem mul_negate_left (a b : superlong) (ha : canonical a) (hb : canonical b) :
    (superlong_mul (superlong_negate a) b).digits = (superlong_mul a b).digits ∧
      (superlong_mul (superlong_negate a) b).sign = -(superlong_mul a b).sign := by
  by_cases ha0 : a.sign = 0
  · have hn : superlong_negate a = a := by
      unfold superlong_negate
      simp [ha0]
    rw [hn]
    refine ⟨rfl, ?_⟩
    unfold superlong_mul
    simp [ha0]
  · by_cases hb0 : b.sign = 0
    · unfold superlong_mul
      simp [hb0]
    · have hsp := (sign_product a.sign b.sign (canonical_sign_cases a ha ha0)
        (canonical_sign_cases b hb hb0))
      have hsn : (superlong_negate a).sign = -a.sign := negate_sign a
      have hk : superlong_mul_karatsuba (superlong_negate a) b = superlong_mul_karatsuba a b :=
        mul_karatsuba_digits _ _ _ _ (negate_digits a) rfl
      have h1 : superlong_mul (superlong_negate a) b = superlong_normalize
          { superlong_mul_karatsuba a b with sign := -(if a.sign = b.sign then 1 else -1) } := by
        unfold superlong_mul
        rw [if_neg (by rw [hsn]; simp [ha0, hb0]), hk, hsn, hsp.2]
      have h2 : superlong_mul a b = superlong_normalize
          { superlong_mul_karatsuba a b with sign := if a.sign = b.sign then 1 else -1 } := by
        unfold superlong_mul
        rw [if_neg (by simp [ha0, hb0])]
      rw [h1, h2]
      exact normalize_negated_sign _ _ (by split <;> decide)

/-! ## Division by self on the scalar path, and the shift by one digit -/

theorem is_zero_of_sign_zero (r : superlong) (h : r.sign = 0) : superlong_is_zero r = true := by
  cases r with
  | mk ds sg => exact (is_zero_iff ds sg).mpr (Or.inl h)

/-- On the scalar fast path `superlong_div(a, a)` leaves the single digit 1 with
the sign of `a`. -/
theorem div_self_fast_path (fuel : Nat) (a res : superlong) (ha : canonical a)
    (h0 : a.sign ≠ 0) (hlen : a.digits.length ≤ 4) :
    superlong_div fuel a a res = Outcome.returned ⟨[1], a.sign⟩ := by
  have hm0 : magnitude a.digits ≠ 0 := fun h => h0 (ha.2.2.1.mpr h)
  have hlt := magnitude_lt_pow a.digits ha.1
  have hpow : 256 ^ a.digits.length ≤ 256 ^ 4 := Nat.pow_le_pow_right (by norm_num) hlen
  have hm32 : magnitude a.digits < 2 ^ 32 := by
    have : (256 : Nat) ^ 4 = 2 ^ 32 := by norm_num
    omega
  have hslip : ¬ (magnitude a.digits = 256 ∧ a.digits.length = 1) := by
    rintro ⟨h1, h2⟩
    rw [h2] at hlt
    omega
  obtain ⟨r, hr, hc⟩ := div_uint_canonical a (magnitude a.digits) res ha hm0 hm32 hslip
  obtain ⟨r2, hr2, _, hv, _⟩ := div_uint_spec a (magnitude a.digits) res ha hm0 hm32
  rw [hr] at hr2
  have hrr : r = r2 := by
    injection hr2
  subst hrr
  have hva : value r = a.sign := by
    rw [hv]
    unfold value
    exact Int.mul_tdiv_cancel _ (by exact_mod_cast hm0)
  have hs := canonical_sign_cases a ha h0
  have hc1 : canonical ⟨[1], a.sign⟩ := by
    rcases hs with h | h <;> rw [h] <;> decide
  have hv1 : value r = value ⟨[1], a.sign⟩ := by
    rw [hva]
    simp [value, magnitude]
  obtain ⟨e1, e2⟩ := canonical_value_inj r ⟨[1], a.sign⟩ hc hc1 hv1
  have hrn : r.digits ≠ [] := by
    intro h
    rw [h] at e2
    simp [magnitude] at e2
  have e3 : r.digits = [1] :=
    no_leading_zero_unique r.digits [1] hc.1 (by decide) hc.2.2.2 (by decide) hrn (by simp) e2
  have hre : r = ⟨[1], a.sign⟩ := by
    cases r with
    | mk ds sg =>
      simp only at e1 e3
      rw [e1, e3]
  unfold superlong_div
  simp only [h0, if_false, if_true]
  rw [abs_compare_uint_loop_eq a.digits ha.1 hlen]
  rw [if_pos ⟨hlen, hm0⟩, hr, hre]
  simp

/-- Multiplying by 256 and then dividing by 256 gives back the sign and the
magnitude. -/
theorem div_uint_mul_uint_256 (a res : superlong) (ha : canonical a) :
    ∃ r, superlong_div_uint (superlong_mul_uint a 256) 256 res = Outcome.returned r ∧
      r.sign = a.sign ∧ magnitude r.digits = magnitude a.digits := by
  by_cases h0 : a.sign = 0
  · refine ⟨{ superlong_clean with sign := 0 }, ?_, ?_, ?_⟩
    · unfold superlong_mul_uint superlong_div_uint
      simp [h0]
    · exact h0.symm
    · rw [ha.2.2.1.mp h0]
      rfl
  · have hm0 : magnitude a.digits ≠ 0 := fun h => h0 (ha.2.2.1.mpr h)
    have hmul : superlong_mul_uint a 256 = superlong_normalize
        { digits := superlong_clean.digits ++ [0] ++ a.digits, sign := a.sign } := by
      unfold superlong_mul_uint
      simp [h0]
    have hmm : magnitude (superlong_mul_uint a 256).digits = 256 * magnitude a.digits := by
      rw [hmul, normalize_magnitude]
      simp [superlong_clean, magnitude]
    have hok : digits_ok (superlong_mul_uint a 256).digits := by
      rw [hmul]
      apply normalize_digits_ok
      simp only [superlong_clean, List.nil_append, List.singleton_append]
      rw [digits_ok_cons]
      exact ⟨by norm_num, ha.1⟩
    have hsg : (superlong_mul_uint a 256).sign = a.sign := by
      rw [hmul]
      have hns := normalize_sign
        (⟨superlong_clean.digits ++ [0] ++ a.digits, a.sign⟩ : superlong)
      rcases hns with h | ⟨_, h⟩ | ⟨_, h⟩
      · exact h
      · exfalso
        rw [hmul, normalize_magnitude] at hmm
        omega
      · exact absurd h h0
    have hl : (superlong_mul_uint a 256).digits.length > 1 := by
      have hlt := magnitude_lt_pow _ hok
      by_contra hcon
      have hle : (superlong_mul_uint a 256).digits.length ≤ 1 := by omega
      have : 256 ^ (superlong_mul_uint a 256).digits.length ≤ 256 ^ 1 :=
        Nat.pow_le_pow_right (by norm_num) hle
      omega
    have hdiv : superlong_div_uint (superlong_mul_uint a 256) 256 res = Outcome.returned
        (superlong_normalize { digits := superlong_clean.digits ++
          (superlong_mul_uint a 256).digits.drop 1, sign := a.sign }) := by
      unfold superlong_div_uint
      rw [hsg]
      simp [h0, hl]
    have hdm : magnitude (superlong_clean.digits ++ (superlong_mul_uint a 256).digits.drop 1) =
        magnitude a.digits := by
      simp only [superlong_clean, List.nil_append]
      rw [magnitude_drop_one _ hok, hmm]
      omega
    refine ⟨_, hdiv, ?_, ?_⟩
    · have hns := normalize_sign
        (⟨superlong_clean.digits ++ (superlong_mul_uint a 256).digits.drop 1, a.sign⟩ :
          superlong)
      rcases hns with h | ⟨_, h⟩ | ⟨_, h⟩
      · exact h
      · exfalso
        simp only at h
        rw [hdm] at h
        exact hm0 h
      · exact absurd h h0
    · rw [normalize_magnitude]
      exact hdm

/-! ## Size of the Karatsuba result -/

theorem pow256_pos (p : Nat) : (0 : Int) < 256 ^ p := by positivity

theorem pow256_mono (p q : Nat) (h : p ≤ q) : (256 : Int) ^ p ≤ 256 ^ q :=
  pow_le_pow_right₀ (by norm_num) h

theorem within_mono (v : Int) (p q : Nat) (h : -(256 : Int) ^ p < v ∧ v < 256 ^ p)
    (hpq : p ≤ q) : -(256 : Int) ^ q < v ∧ v < 256 ^ q := by
  have := pow256_mono p q hpq
  omega

theorem within_neg (v : Int) (p : Nat) (h : -(256 : Int) ^ p < v ∧ v < 256 ^ p) :
    -(256 : Int) ^ p < -v ∧ -v < 256 ^ p := by
  omega

theorem within_scale (v : Int) (s p : Nat) (h : -(256 : Int) ^ p < v ∧ v < 256 ^ p) :
    -(256 : Int) ^ (s + p) < 256 ^ s * v ∧ 256 ^ s * v < 256 ^ (s + p) := by
  have hs := pow256_pos s
  rw [pow_add]
  constructor
  · have h1 := mul_lt_mul_of_pos_left h.1 hs
    rw [mul_neg] at h1
    exact h1
  · exact mul_lt_mul_of_pos_left h.2 hs

theorem lower_scale (v : Int) (s p : Nat) (h : (256 : Int) ^ p ≤ v) :
    (256 : Int) ^ (s + p) ≤ 256 ^ s * v := by
  rw [pow_add]
  exact mul_le_mul_of_nonneg_left h (le_of_lt (pow256_pos s))

theorem within_add3 (a b c : Int) (p : Nat) (ha : -(256 : Int) ^ p < a ∧ a < 256 ^ p)
    (hb : -(256 : Int) ^ p < b ∧ b < 256 ^ p) (hc : -(256 : Int) ^ p < c ∧ c < 256 ^ p) :
    -(256 : Int) ^ (p + 1) < a + b + c ∧ a + b + c < 256 ^ (p + 1) := by
  have hp := pow256_pos p
  rw [pow_succ]
  omega

/-- The arithmetic of one Karatsuba step: bounds on the three recursive results
give bounds on `256^(2k+1) * AC + 256^(k+1) * (M - AC - BD) + BD`. -/
theorem karatsuba_step_bounds (k g e0 eM q : Nat) (AC M BD : Int)
    (hg : 2 * k ≤ g) (he0 : e0 + 7 ≤ k) (heM : e0 + 4 ≤ eM) (hq : q + 2 = 2 * k + g)
    (hAC : -(256 : Int) ^ (g + 2 + e0) < AC ∧ AC < 256 ^ (g + 2 + e0))
    (hM : -(256 : Int) ^ (g + 4 + e0) < M ∧ M < 256 ^ (g + 4 + e0))
    (hBD : -(256 : Int) ^ (2 * k + 2 + e0) < BD ∧ BD < 256 ^ (2 * k + 2 + e0)) :
    (-(256 : Int) ^ (2 * k + g + eM) <
          256 ^ (2 * k + 1) * AC + 256 ^ (k + 1) * (M - AC - BD) + BD ∧
        256 ^ (2 * k + 1) * AC + 256 ^ (k + 1) * (M - AC - BD) + BD <
          256 ^ (2 * k + g + eM)) ∧
      ((256 : Int) ^ g ≤ AC →
        (256 : Int) ^ q ≤ 256 ^ (2 * k + 1) * AC + 256 ^ (k + 1) * (M - AC - BD) + BD) := by
  have t1 := within_scale AC (2 * k + 1) _ hAC
  have hAC2 := within_neg _ _ (within_mono AC _ (g + 4 + e0) hAC (by omega))
  have hBD2 := within_neg _ _ (within_mono BD _ (g + 4 + e0) hBD (by omega))
  have hmid := within_add3 M (-AC) (-BD) _ hM hAC2 hBD2
  have hsub : M + -AC + -BD = M - AC - BD := by ring
  rw [hsub] at hmid
  have t2 := within_scale (M - AC - BD) (k + 1) _ hmid
  constructor
  · have u1 := within_mono _ _ (2 * k + g + 3 + e0) t1 (by omega)
    have u2 := within_mono _ _ (2 * k + g + 3 + e0) t2 (by omega)
    have u3 := within_mono _ _ (2 * k + g + 3 + e0) hBD (by omega)
    exact within_mono _ _ _ (within_add3 _ _ _ _ u1 u2 u3) (by omega)
  · intro hlow
    have l1 := lower_scale AC (2 * k + 1) g hlow
    have u2 := within_mono _ _ (q + 1) t2 (by omega)
    have u3 := within_mono _ _ (q + 1) hBD (by omega)
    have e1 : (256 : Int) ^ (2 * k + 1 + g) = 256 ^ 3 * 256 ^ q := by
      rw [← pow_add]
      congr 1
      omega
    have e2 : (256 : Int) ^ (q + 1) = 256 * 256 ^ q := by
      rw [pow_succ]
      ring
    have hqpos := pow256_pos q
    rw [e1] at l1
    rw [e2] at u2 u3
    norm_num at l1
    omega

theorem karatsuba_excess_mono (m n : Nat) (h : m ≤ n) :
    karatsuba_excess m ≤ karatsuba_excess n := by
  unfold karatsuba_excess
  split <;> split <;> omega

theorem karatsuba_excess_step (m : Nat) (h : 16 ≤ m) :
    karatsuba_excess (m - m / 2 + 2) + 7 ≤ m / 2 ∧
      karatsuba_excess (m - m / 2 + 2) + 4 ≤ karatsuba_excess m := by
  unfold karatsuba_excess
  split <;> split <;> omega

theorem value_within (r : superlong) (p : Nat) (hs : r.sign = 0 ∨ r.sign = 1 ∨ r.sign = -1)
    (hm : magnitude r.digits < 256 ^ p) : -(256 : Int) ^ p < value r ∧ value r < 256 ^ p := by
  have h : ((magnitude r.digits : Nat) : Int) < 256 ^ p := by exact_mod_cast hm
  unfold value
  rcases hs with h1 | h1 | h1 <;> rw [h1] <;> omega

theorem last_append (l1 l2 : List Nat) (t : Nat) (h : l2.getLast? = some t) :
    (l1 ++ l2).getLast? = some t := by
  rw [List.getLast?_append, h]
  rfl

/-- `superlong_shift_left_bytes` by `n ≠ 0` digits multiplies a canonical number
by `256 ^ (n + 1)`: one digit more than asked for. -/
theorem shift_spec (r : superlong) (n : Nat) (hr : canonical r) (hn : n ≠ 0) :
    canonical (superlong_shift_left_bytes r n) ∧
      value (superlong_shift_left_bytes r n) = 256 ^ (n + 1) * value r := by
  unfold superlong_shift_left_bytes
  by_cases hz : superlong_is_zero r = true
  · rw [if_pos (Or.inr hz)]
    refine ⟨hr, ?_⟩
    have hm := (is_zero_canonical r hr).mp hz
    unfold value
    rw [hm]
    simp
  · rw [if_neg (not_or.mpr ⟨hn, hz⟩)]
    have hm0 : magnitude r.digits ≠ 0 := fun h => hz ((is_zero_canonical r hr).mpr h)
    have hs0 : r.sign ≠ 0 := fun h => hm0 (hr.2.2.1.mp h)
    obtain ⟨t, ht, ht0⟩ := canonical_nonzero_last r hr hs0
    have hmag : magnitude (superlong_init.digits ++ List.replicate n 0 ++ r.digits) =
        256 ^ (n + 1) * magnitude r.digits := by
      rw [magnitude_append, magnitude_append, magnitude_replicate_zero]
      simp only [superlong_init, magnitude, List.length_append, List.length_singleton,
        List.length_replicate]
      rw [Nat.add_comm 1 n]
      omega
    refine ⟨⟨?_, hr.2.1, ⟨fun h => absurd h hs0, fun h => ?_⟩, Or.inl ?_⟩, ?_⟩
    · rw [digits_ok_append, digits_ok_append]
      refine ⟨⟨by simp [superlong_init, digits_ok], ?_⟩, hr.1⟩
      intro x hx
      rw [List.eq_of_mem_replicate hx]
      norm_num
    · exfalso
      simp only at h
      rw [hmag] at h
      rcases Nat.mul_eq_zero.mp h with h | h
      · exact absurd h (by positivity)
      · exact hm0 h
    · show (superlong_init.digits ++ List.replicate n 0 ++ r.digits).getLast? ≠ some 0
      rw [last_append _ _ t ht]
      intro h
      injection h with h
      exact ht0 h
    · unfold value
      simp only
      rw [hmag]
      push_cast
      ring

/-- The sum of two numbers of sign +1 stored as byte sequences (canonical or
not) is canonical. -/
theorem add_positive_spec (t x : superlong) (ht : digits_ok t.digits)
    (hx : digits_ok x.digits) (hts : t.sign = 1) (hxs : x.sign = 1) (hxn : x.digits ≠ []) :
    canonical (superlong_add t x) ∧ (superlong_add t x).digits ≠ [] := by
  obtain ⟨s1, s2, s3⟩ := add_running_total t x (Or.inr hts) hx hxs hxn
  obtain ⟨_, v2⟩ := add_running_total_value t x ht (Or.inr hts)
    (fun h => by rw [hts] at h; exact absurd h one_ne_zero) hx hxs
  have hform : superlong_add t x =
      superlong_normalize { superlong_abs_add t x with sign := 1 } := by
    unfold superlong_add
    simp only [hts, hxs, one_ne_zero, if_false, if_true]
  have hnl : no_leading_zero (superlong_add t x).digits := by
    rw [hform]
    exact normalize_no_leading_zero _
  refine ⟨⟨s1, ?_, ⟨v2, fun hm => ?_⟩, hnl⟩, s2⟩
  · rcases s3 with h | h
    · exact Or.inl h
    · exact Or.inr (Or.inl h)
  · rcases nolead_mag_zero _ hnl hm with h | h
    · exact absurd h s2
    · rw [hform] at h ⊢
      rw [normalize_sign_eq, if_pos (Or.inr h)]

/-- Size of the schoolbook product. -/
theorem mul_simple_bounds (x y : superlong) (hx : digits_ok x.digits) (hy : digits_ok y.digits)
    (hxn : x.digits ≠ []) (hyn : y.digits ≠ []) :
    canonical (superlong_mul_simple x y) ∧
      (-(256 : Int) ^ (x.digits.length + y.digits.length) < value (superlong_mul_simple x y) ∧
        value (superlong_mul_simple x y) < 256 ^ (x.digits.length + y.digits.length)) ∧
      ((∃ t, x.digits.getLast? = some t ∧ t ≠ 0) → (∃ t, y.digits.getLast? = some t ∧ t ≠ 0) →
        ∀ q, q + 2 = x.digits.length + y.digits.length →
          (256 : Int) ^ q ≤ value (superlong_mul_simple x y)) := by
  obtain ⟨c, m, s, _⟩ := mul_simple_spec x y hx hy hxn hyn
  have hX := magnitude_lt_pow x.digits hx
  have hY := magnitude_lt_pow y.digits hy
  have hprod : magnitude x.digits * magnitude y.digits <
      256 ^ (x.digits.length + y.digits.length) := by
    rw [pow_add]
    exact Nat.mul_lt_mul'' hX hY
  refine ⟨c, value_within _ _ c.2.1 (by rw [m]; exact hprod), ?_⟩
  rintro ⟨t, ht, ht0⟩ ⟨u, hu, hu0⟩ q hq
  have lX := magnitude_ge_pow x.digits t ht ht0
  have lY := magnitude_ge_pow y.digits u hu hu0
  have hlx : 0 < x.digits.length := List.length_pos.mpr hxn
  have hly : 0 < y.digits.length := List.length_pos.mpr hyn
  have hlow : 256 ^ q ≤ magnitude x.digits * magnitude y.digits := by
    have e : q = (x.digits.length - 1) + (y.digits.length - 1) := by omega
    rw [e, pow_add]
    exact Nat.mul_le_mul lX lY
  have hpos : 0 < magnitude x.digits * magnitude y.digits :=
    lt_of_lt_of_le (by positivity) hlow
  have hs1 : (superlong_mul_simple x y).sign = 1 := by
    rcases s with h | h
    · have := c.2.2.1.mp h
      omega
    · exact h
  unfold value
  rw [hs1, m, one_mul]
  exact_mod_cast hlow

theorem karatsuba_half_last (ds : List Nat) (k t : Nat) (hk : k < ds.length)
    (h : ds.getLast? = some t) : (superlong_init.digits ++ ds.drop k).getLast? = some t := by
  apply last_append
  rw [List.getLast?_drop, if_neg (by omega)]
  exact h

/-- For byte sequences of at least one digit, every depth of the Karatsuba
recursion leaves a canonical number whose value is below
`256 ^ (lx + ly + karatsuba_excess (min lx ly))` in absolute value, and at least
`256 ^ (lx + ly - 2)` when both operands end in a nonzero digit. -/
theorem mul_karatsuba_depth_bounds (d : Nat) (x y : superlong) (hx : digits_ok x.digits)
    (hy : digits_ok y.digits) (hxn : x.digits ≠ []) (hyn : y.digits ≠ []) :
    canonical (mul_karatsuba_depth d x y) ∧
      (-(256 : Int) ^ (x.digits.length + y.digits.length +
            karatsuba_excess (min x.digits.length y.digits.length)) <
          value (mul_karatsuba_depth d x y) ∧
        value (mul_karatsuba_depth d x y) <
          256 ^ (x.digits.length + y.digits.length +
            karatsuba_excess (min x.digits.length y.digits.length))) ∧
      ((∃ t, x.digits.getLast? = some t ∧ t ≠ 0) → (∃ t, y.digits.getLast? = some t ∧ t ≠ 0) →
        ∀ q, q + 2 = x.digits.length + y.digits.length →
          (256 : Int) ^ q ≤ value (mul_karatsuba_depth d x y)) := by
  induction d generalizing x y with
  | zero =>
    simp only [mul_karatsuba_depth]
    obtain ⟨c, w, l⟩ := mul_simple_bounds x y hx hy hxn hyn
    exact ⟨c, within_mono _ _ _ w (by omega), l⟩
  | succ d ih =>
    have hmin : (if x.digits.length < y.digits.length then x.digits.length
        else y.digits.length) = min x.digits.length y.digits.length := by
      split <;> omega
    simp only [mul_karatsuba_depth]
    rw [hmin]
    generalize hm : min x.digits.length y.digits.length = m
    by_cases h16 : m < 16
    · rw [if_pos h16]
      obtain ⟨c, w, l⟩ := mul_simple_bounds x y hx hy hxn hyn
      exact ⟨c, within_mono _ _ _ w (by omega), l⟩
    · rw [if_neg h16]
      have hmx : m ≤ x.digits.length := by omega
      have hmy : m ≤ y.digits.length := by omega
      obtain ⟨a1, a2⟩ := karatsuba_half_ok _ (digits_ok_drop x.digits (m / 2) hx)
      obtain ⟨b1, b2⟩ := karatsuba_half_ok _ (digits_ok_take x.digits (m / 2) hx)
      obtain ⟨c1, c2⟩ := karatsuba_half_ok _ (digits_ok_drop y.digits (m / 2) hy)
      obtain ⟨d1, d2⟩ := karatsuba_half_ok _ (digits_ok_take y.digits (m / 2) hy)
      have la : (superlong_init.digits ++ x.digits.drop (m / 2)).length =
          1 + (x.digits.length - m / 2) := by
        simp [superlong_init]
        omega
      have lb : (superlong_init.digits ++ x.digits.take (m / 2)).length = 1 + m / 2 := by
        simp [superlong_init]
        omega
      have lc : (superlong_init.digits ++ y.digits.drop (m / 2)).length =
          1 + (y.digits.length - m / 2) := by
        simp [superlong_init]
        omega
      have ld : (superlong_init.digits ++ y.digits.take (m / 2)).length = 1 + m / 2 := by
        simp [superlong_init]
        omega
      obtain ⟨he7, he4⟩ := karatsuba_excess_step m (by omega)
      -- the three recursive results
      obtain ⟨cAC, wAC, lAC⟩ := ih
        { digits := superlong_init.digits ++ x.digits.drop (m / 2), sign := 1 }
        { digits := superlong_init.digits ++ y.digits.drop (m / 2), sign := 1 } a1 c1 a2 c2
      obtain ⟨cBD, wBD, _⟩ := ih
        { digits := superlong_init.digits ++ x.digits.take (m / 2), sign := 1 }
        { digits := superlong_init.digits ++ y.digits.take (m / 2), sign := 1 } b1 d1 b2 d2
      obtain ⟨cab, nab⟩ := add_positive_spec
        { digits := superlong_init.digits ++ x.digits.drop (m / 2), sign := 1 }
        { digits := superlong_init.digits ++ x.digits.take (m / 2), sign := 1 } a1 b1 rfl rfl b2
      obtain ⟨ccd, ncd⟩ := add_positive_spec
        { digits := superlong_init.digits ++ y.digits.drop (m / 2), sign := 1 }
        { digits := superlong_init.digits ++ y.digits.take (m / 2), sign := 1 } c1 d1 rfl rfl d2
      have lab := add_length_le
        { digits := superlong_init.digits ++ x.digits.drop (m / 2), sign := 1 }
        { digits := superlong_init.digits ++ x.digits.take (m / 2), sign := 1 } rfl rfl
      have lcd := add_length_le
        { digits := superlong_init.digits ++ y.digits.drop (m / 2), sign := 1 }
        { digits := superlong_init.digits ++ y.digits.take (m / 2), sign := 1 } rfl rfl
      simp only [la, lb, lc, ld] at wAC lAC wBD lab lcd
      obtain ⟨cM, wM, _⟩ := ih _ _ cab.1 ccd.1 nab ncd
      -- abstract the recursive results and the two sums
      generalize mul_karatsuba_depth d
        { digits := superlong_init.digits ++ x.digits.drop (m / 2), sign := 1 }
        { digits := superlong_init.digits ++ y.digits.drop (m / 2), sign := 1 } = AC
        at cAC wAC lAC ⊢
      generalize mul_karatsuba_depth d
        { digits := superlong_init.digits ++ x.digits.take (m / 2), sign := 1 }
        { digits := superlong_init.digits ++ y.digits.take (m / 2), sign := 1 } = BD
        at cBD wBD ⊢
      generalize superlong_add
        { digits := superlong_init.digits ++ x.digits.drop (m / 2), sign := 1 }
        { digits := superlong_init.digits ++ x.digits.take (m / 2), sign := 1 } = a_b
        at cab nab lab cM wM ⊢
      generalize superlong_add
        { digits := superlong_init.digits ++ y.digits.drop (m / 2), sign := 1 }
        { digits := superlong_init.digits ++ y.digits.take (m / 2), sign := 1 } = c_d
        at ccd ncd lcd cM wM ⊢
      generalize mul_karatsuba_depth d a_b c_d = M at cM wM ⊢
      -- the combination
      obtain ⟨ct1, vt1⟩ := sub_spec M AC cM cAC
      obtain ⟨cmid, vmid⟩ := sub_spec (superlong_sub M AC) BD ct1 cBD
      obtain ⟨cs1, vs1⟩ := shift_spec AC (2 * (m / 2)) cAC (by omega)
      obtain ⟨cs2, vs2⟩ := shift_spec (superlong_sub (superlong_sub M AC) BD) (m / 2) cmid
        (by omega)
      obtain ⟨ct2, vt2⟩ := add_spec _ _ cs1 cs2
      obtain ⟨cf, vf⟩ := add_spec _ _ ct2 cBD
      have hval : value (superlong_add (superlong_add (superlong_shift_left_bytes AC (2 * (m / 2)))
          (superlong_shift_left_bytes (superlong_sub (superlong_sub M AC) BD) (m / 2))) BD) =
          256 ^ (2 * (m / 2) + 1) * value AC +
            256 ^ (m / 2 + 1) * (value M - value AC - value BD) + value BD := by
        rw [vf, vt2, vs1, vs2, vmid, vt1]
      rw [hval]
      have hAC2 := within_mono (value AC) _
        ((x.digits.length - m / 2) + (y.digits.length - m / 2) + 2 +
          karatsuba_excess (m - m / 2 + 2)) wAC
        (by
          have := karatsuba_excess_mono
            (min (1 + (x.digits.length - m / 2)) (1 + (y.digits.length - m / 2)))
            (m - m / 2 + 2) (by omega)
          omega)
      have hM2 := within_mono (value M) _
        ((x.digits.length - m / 2) + (y.digits.length - m / 2) + 4 +
          karatsuba_excess (m - m / 2 + 2)) wM
        (by
          have := karatsuba_excess_mono (min a_b.digits.length c_d.digits.length)
            (m - m / 2 + 2) (by omega)
          omega)
      have hBD2 := within_mono (value BD) _
        (2 * (m / 2) + 2 + karatsuba_excess (m - m / 2 + 2)) wBD
        (by
          have := karatsuba_excess_mono (min (1 + m / 2) (1 + m / 2)) (m - m / 2 + 2)
            (by omega)
          omega)
      refine ⟨cf, ?_, ?_⟩
      · have hq : (x.digits.length + y.digits.length - 2) + 2 =
            2 * (m / 2) + ((x.digits.length - m / 2) + (y.digits.length - m / 2)) := by omega
        have hb := (karatsuba_step_bounds (m / 2)
          ((x.digits.length - m / 2) + (y.digits.length - m / 2))
          (karatsuba_excess (m - m / 2 + 2)) (karatsuba_excess m)
          (x.digits.length + y.digits.length - 2) (value AC) (value M) (value BD)
          (by omega) he7 he4 hq hAC2 hM2 hBD2).1
        exact within_mono _ _ _ hb (by omega)
      · rintro ⟨t, ht, ht0⟩ ⟨u, hu, hu0⟩ q hq
        have hlow := lAC ⟨t, karatsuba_half_last x.digits (m / 2) t (by omega) ht, ht0⟩
          ⟨u, karatsuba_half_last y.digits (m / 2) u (by omega) hu, hu0⟩
          ((x.digits.length - m / 2) + (y.digits.length - m / 2)) (by omega)
        exact (karatsuba_step_bounds (m / 2)
          ((x.digits.length - m / 2) + (y.digits.length - m / 2))
          (karatsuba_excess (m - m / 2 + 2)) (karatsuba_excess m) q
          (value AC) (value M) (value BD)
          (by omega) he7 he4 (by omega) hAC2 hM2 hBD2).2 hlow

/-- For nonzero canonical operands of any length the Karatsuba routine leaves a
canonical number of positive value. -/
theorem mul_karatsuba_positive (a b : superlong) (ha : canonical a) (hb : canonical b)
    (ha0 : a.sign ≠ 0) (hb0 : b.sign ≠ 0) :
    canonical (superlong_mul_karatsuba a b) ∧ 0 < value (superlong_mul_karatsuba a b) ∧
      magnitude (superlong_mul_karatsuba a b).digits ≠ 0 := by
  have han := canonical_ne_nil a ha ha0
  have hbn := canonical_ne_nil b hb hb0
  obtain ⟨c, _, l⟩ := mul_karatsuba_depth_bounds
    (min a.digits.length b.digits.length) a b ha.1 hb.1 han hbn
  have hla : 0 < a.digits.length := List.length_pos.mpr han
  have hlb : 0 < b.digits.length := List.length_pos.mpr hbn
  have hlow := l (canonical_nonzero_last a ha ha0) (canonical_nonzero_last b hb hb0)
    (a.digits.length + b.digits.length - 2) (by omega)
  have hpos : 0 < value (superlong_mul_karatsuba a b) :=
    lt_of_lt_of_le (pow256_pos _) hlow
  refine ⟨c, hpos, fun h => ?_⟩
  unfold value at hpos
  rw [h] at hpos
  simp at hpos

/-- The sign of a product of nonzero canonical operands, for every length. -/
theorem mul_sign (a b : superlong) (ha : canonical a) (hb : canonical b)
    (ha0 : a.sign ≠ 0) (hb0 : b.sign ≠ 0) :
    (superlong_mul a b).sign = (if a.sign = b.sign then 1 else -1) ∧
      magnitude (superlong_mul a b).digits ≠ 0 ∧ canonical (superlong_mul a b) := by
  obtain ⟨c, _, hm⟩ := mul_karatsuba_positive a b ha hb ha0 hb0
  have hne : (if a.sign = b.sign then (1 : Int) else -1) ≠ 0 := by
    split <;> decide
  have hun : superlong_mul a b = superlong_normalize
      { superlong_mul_karatsuba a b with sign := if a.sign = b.sign then 1 else -1 } := by
    unfold superlong_mul
    rw [if_neg (by simp [ha0, hb0])]
  have hsg : (superlong_mul a b).sign = (if a.sign = b.sign then 1 else -1) := by
    rw [hun]
    have hns := normalize_sign
      (⟨(superlong_mul_karatsuba a b).digits, if a.sign = b.sign then 1 else -1⟩ : superlong)
    rcases hns with h | ⟨_, h⟩ | ⟨_, h⟩
    · exact h
    · exact absurd h hm
    · exact absurd h hne
  have hmg : magnitude (superlong_mul a b).digits ≠ 0 := by
    rw [hun, normalize_magnitude]
    exact hm
  refine ⟨hsg, hmg, ?_⟩
  rw [hun]
  refine (normalize_spec
    (⟨(superlong_mul_karatsuba a b).digits, if a.sign = b.sign then 1 else -1⟩ : superlong)
    c.1 ?_ (Or.inl ?_) (fun h => absurd h hne)).1
  · right
    show (if a.sign = b.sign then (1 : Int) else -1) = 1 ∨
      (if a.sign = b.sign then (1 : Int) else -1) = -1
    split
    · exact Or.inl rfl
    · exact Or.inr rfl
  · intro h
    apply hm
    show magnitude (superlong_mul_karatsuba a b).digits = 0
    rw [h]
    rfl

theorem mul_digits_sign_free (a b a2 b2 : superlong) (ha : a2.digits = a.digits)
    (hb : b2.digits = b.digits) (h1 : a.sign ≠ 0) (h2 : b.sign ≠ 0) (h3 : a2.sign ≠ 0)
    (h4 : b2.sign ≠ 0) : (superlong_mul a2 b2).digits = (superlong_mul a b).digits := by
  have e1 : superlong_mul a2 b2 = superlong_normalize
      { superlong_mul_karatsuba a2 b2 with sign := if a2.sign = b2.sign then 1 else -1 } := by
    unfold superlong_mul
    rw [if_neg (not_or.mpr ⟨h3, h4⟩)]
  have e2 : superlong_mul a b = superlong_normalize
      { superlong_mul_karatsuba a b with sign := if a.sign = b.sign then 1 else -1 } := by
    unfold superlong_mul
    rw [if_neg (not_or.mpr ⟨h1, h2⟩)]
  rw [e1, e2, normalize_digits, normalize_digits]
  show normalize_loop (superlong_mul_karatsuba a2 b2).digits.length
      (superlong_mul_karatsuba a2 b2).digits =
    normalize_loop (superlong_mul_karatsuba a b).digits.length
      (superlong_mul_karatsuba a b).digits
  rw [mul_karatsuba_digits a2 a b2 b ha hb]

/-- Inside the range of its `int16_t` parameter `superlong_from_int` leaves the
value of its argument. -/
theorem from_int_value (n : Int) (hlo : -32768 ≤ n) (hhi : n ≤ 32767) :
    value (superlong_from_int n) = n := by
  obtain ⟨_, c2, c3⟩ := from_int_spec n hlo hhi
  unfold value
  rw [c2, c3]
  by_cases h0 : n = 0
  · subst h0
    rfl
  · by_cases hneg : n < 0
    · rw [if_neg h0, if_pos hneg]
      omega
    · rw [if_neg h0, if_neg hneg]
      omega

theorem int16_arg_range (m : Int) :
    -32768 ≤ int16_arg m ∧ int16_arg m ≤ 32767 ∧
      (int16_arg m = m ↔ -32768 ≤ m ∧ m ≤ 32767) := by
  unfold int16_arg
  omega

/-- Apart from a one-digit dividend with the divisor 256, a dividend of smaller
magnitude than the divisor gives a quotient that is zero in every sense. -/
theorem div_small_dividend (fuel : Nat) (a b res : superlong) (ha : canonical a)
    (hb : canonical b) (hb0 : b.sign ≠ 0) (hlt : magnitude a.digits < magnitude b.digits)
    (hslip : ¬ (b.digits = [0, 1] ∧ a.digits.length = 1)) :
    ∃ r, superlong_div fuel a b res = Outcome.returned r ∧ r.sign = 0 ∧
      superlong_is_zero r = true ∧ superlong_to_decimal_str r = some "0" := by
  unfold superlong_div
  rw [if_neg hb0]
  by_cases ha0 : a.sign = 0
  · rw [if_pos ha0]
    exact ⟨_, rfl, rfl, by decide, by decide⟩
  · rw [if_neg ha0]
    simp only
    by_cases hfast : b.digits.length ≤ 4 ∧ abs_compare_uint_loop b.digits 0 0 ≠ 0
    · rw [if_pos hfast]
      have hbv := abs_compare_uint_loop_eq b.digits hb.1 hfast.1
      rw [hbv]
      have hm0 : magnitude b.digits ≠ 0 := by omega
      have hm32 : magnitude b.digits < 2 ^ 32 := by
        have h1 := magnitude_lt_pow b.digits hb.1
        have h2 : 256 ^ b.digits.length ≤ 256 ^ 4 := Nat.pow_le_pow_right (by norm_num) hfast.1
        have : (256 : Nat) ^ 4 = 2 ^ 32 := by norm_num
        omega
      have hs2 : ¬ (magnitude b.digits = 256 ∧ a.digits.length = 1) := by
        rintro ⟨h1, h2⟩
        exact hslip ⟨digits_of_256 b.digits hb.1 hb.2.2.2 hfast.1 h1, h2⟩
      obtain ⟨r, hr, hc⟩ := div_uint_canonical a (magnitude b.digits) res ha hm0 hm32 hs2
      obtain ⟨r2, hr2, hmag, _, _⟩ := div_uint_spec a (magnitude b.digits) res ha hm0 hm32
      rw [hr] at hr2
      have hrr : r = r2 := by
        injection hr2
      subst hrr
      rw [Nat.div_eq_of_lt hlt] at hmag
      have hs : r.sign = 0 := hc.2.2.1.mpr hmag
      rw [hr]
      simp only
      rw [if_neg (fun h => h.2 hs)]
      refine ⟨r, rfl, hs, is_zero_of_sign_zero r hs, ?_⟩
      rw [to_decimal_str_spec r hc, if_pos hs]
    · rw [if_neg hfast]
      have hcmp : superlong_abs_compare { superlong_copy a with sign := 1 }
          { superlong_copy b with sign := 1 } < 0 := by
        rcases abs_compare_spec { superlong_copy a with sign := 1 }
            { superlong_copy b with sign := 1 }
            (by simp only [copy_eq]; exact ha.1) (by simp only [copy_eq]; exact hb.1)
            (by simp only [copy_eq]; exact canonical_nonzero_last a ha ha0)
            (by simp only [copy_eq]; exact canonical_nonzero_last b hb hb0) with
          ⟨_, h⟩ | ⟨_, h⟩ | ⟨h, _⟩
        · simp only [copy_eq] at h
          omega
        · simp only [copy_eq] at h
          rw [h] at hlt
          omega
        · rw [h]
          decide
      rw [if_pos hcmp]
      exact ⟨_, rfl, rfl, by decide, by decide⟩

/-! ## Comparison of magnitudes on sequences without a most-significant zero -/

theorem trimmed_last (ds : List Nat) (h : ds.getLast? ≠ some 0) (hn : ds ≠ []) :
    ∃ x, ds.getLast? = some x ∧ x ≠ 0 := by
  cases hg : ds.getLast? with
  | none => exact absurd (List.getLast?_eq_none_iff.mp hg) hn
  | some x =>
    refine ⟨x, rfl, fun hx => ?_⟩
    rw [hg, hx] at h
    exact h rfl

theorem trimmed_magnitude_pos (ds : List Nat) (h : ds.getLast? ≠ some 0) (hn : ds ≠ []) :
    0 < magnitude ds := by
  obtain ⟨x, hx, hx0⟩ := trimmed_last ds h hn
  exact lt_of_lt_of_le (by positivity) (magnitude_ge_pow ds x hx hx0)

/-- `superlong_abs_compare` orders byte sequences without a most-significant
zero digit, the empty one included, by their magnitude. -/
theorem abs_compare_trimmed (a b : superlong) (ha : digits_ok a.digits)
    (hb : digits_ok b.digits) (hla : a.digits.getLast? ≠ some 0)
    (hlb : b.digits.getLast? ≠ some 0) :
    (superlong_abs_compare a b = 1 ∧ magnitude b.digits < magnitude a.digits) ∨
      (superlong_abs_compare a b = 0 ∧ magnitude a.digits = magnitude b.digits) ∨
      (superlong_abs_compare a b = -1 ∧ magnitude a.digits < magnitude b.digits) := by
  by_cases han : a.digits = []
  · by_cases hbn : b.digits = []
    · right; left
      unfold superlong_abs_compare
      rw [han, hbn]
      exact ⟨rfl, rfl⟩
    · right; right
      have hpos := trimmed_magnitude_pos b.digits hlb hbn
      have hlen : 0 < b.digits.length := List.length_pos.mpr hbn
      unfold superlong_abs_compare
      rw [han]
      refine ⟨?_, hpos⟩
      simp only [List.length_nil]
      rw [if_pos (by omega), if_neg (by omega)]
  · by_cases hbn : b.digits = []
    · left
      have hpos := trimmed_magnitude_pos a.digits hla han
      have hlen : 0 < a.digits.length := List.length_pos.mpr han
      unfold superlong_abs_compare
      rw [hbn]
      refine ⟨?_, hpos⟩
      simp only [List.length_nil]
      rw [if_pos (by omega), if_pos (by omega)]
    · rcases abs_compare_spec a b ha hb (trimmed_last _ hla han) (trimmed_last _ hlb hbn) with
        h | ⟨h1, h2⟩ | h
      · exact Or.inl h
      · exact Or.inr (Or.inl ⟨h1, by rw [h2]⟩)
      · exact Or.inr (Or.inr h)

theorem abs_compare_digits (a b a2 b2 : superlong) (ha : a2.digits = a.digits)
    (hb : b2.digits = b.digits) : superlong_abs_compare a2 b2 = superlong_abs_compare a b := by
  unfold superlong_abs_compare
  rw [ha, hb]

/-! ## The binary search for a quotient digit -/

theorem bin_find_digit_loop_exit (remainder divisor : superlong) (fuel left right best : Nat)
    (h : ¬ left ≤ right) :
    bin_find_digit_loop remainder divisor fuel left right best = some best := by
  cases fuel with
  | zero => simp [bin_find_digit_loop, h]
  | succ fuel =>
    rw [bin_find_digit_loop]
    simp only [h, if_false]

theorem bin_find_digit_loop_accept (remainder divisor : superlong) (fuel left right best : Nat)
    (h : left ≤ right)
    (hc : superlong_abs_compare
      (superlong_mul_uint divisor ((left + (right - left) / 2) % 256)) remainder ≤ 0) :
    bin_find_digit_loop remainder divisor (fuel + 1) left right best =
      bin_find_digit_loop remainder divisor fuel
        (((left + (right - left) / 2) % 256 + 1) % 256) right
        ((left + (right - left) / 2) % 256) := by
  rw [bin_find_digit_loop]
  simp only [h, if_true, hc]

theorem bin_find_digit_loop_reject (remainder divisor : superlong) (fuel left right best : Nat)
    (h : left ≤ right)
    (hc : ¬ superlong_abs_compare
      (superlong_mul_uint divisor ((left + (right - left) / 2) % 256)) remainder ≤ 0) :
    bin_find_digit_loop remainder divisor (fuel + 1) left right best =
      bin_find_digit_loop remainder divisor fuel left
        (((left + (right - left) / 2) % 256 + 255) % 256) best := by
  rw [bin_find_digit_loop]
  simp only [h, if_true, hc, if_false]

/-- When the trial product `divisor * 255` exceeds the remainder, the search
ends within as many iterations as the width of the interval requires. -/
theorem bin_find_digit_loop_terminates (remainder divisor : superlong)
    (h255 : ¬ superlong_abs_compare (superlong_mul_uint divisor 255) remainder ≤ 0)
    (fuel left right best : Nat) (hl : 1 ≤ left) (hr : right ≤ 255)
    (hsize : right + 1 < left + 2 ^ fuel) :
    ∃ v, bin_find_digit_loop remainder divisor fuel left right best = some v := by
  induction fuel generalizing left right best with
  | zero =>
    exact ⟨best, bin_find_digit_loop_exit _ _ _ _ _ _ (by simp at hsize; omega)⟩
  | succ fuel ih =>
    by_cases hlr : left ≤ right
    · have hmid : (left + (right - left) / 2) % 256 = left + (right - left) / 2 :=
        Nat.mod_eq_of_lt (by omega)
      have hp : 2 ^ (fuel + 1) = 2 * 2 ^ fuel := by rw [pow_succ]; ring
      rw [hp] at hsize
      by_cases hc : superlong_abs_compare
          (superlong_mul_uint divisor ((left + (right - left) / 2) % 256)) remainder ≤ 0
      · rw [bin_find_digit_loop_accept _ _ _ _ _ _ hlr hc]
        have hne : left + (right - left) / 2 ≠ 255 := by
          intro h
          rw [hmid, h] at hc
          exact h255 hc
        rw [hmid, Nat.mod_eq_of_lt (by omega)]
        exact ih _ _ _ (by omega) hr (by omega)
      · rw [bin_find_digit_loop_reject _ _ _ _ _ _ hlr hc]
        have e : (left + (right - left) / 2 + 255) % 256 = left + (right - left) / 2 - 1 := by
          omega
        rw [hmid, e]
        exact ih _ _ _ hl (by omega) (by omega)
    · exact ⟨best, bin_find_digit_loop_exit _ _ _ _ _ _ hlr⟩

/-- When the trial products up to `divisor * Q` are accepted and the later ones
rejected, with `Q` at most 254, the search returns `Q`. -/
theorem bin_find_digit_loop_correct (remainder divisor : superlong) (Q : Nat) (hQ : Q ≤ 254)
    (hP : ∀ mid, 1 ≤ mid → mid ≤ 255 →
      (superlong_abs_compare (superlong_mul_uint divisor mid) remainder ≤ 0 ↔ mid ≤ Q))
    (fuel left right best : Nat) (hl : 1 ≤ left) (hr : right ≤ 255) (hb : best + 1 = left)
    (hlo : left ≤ Q + 1) (hhi : Q ≤ right) (hsize : right + 1 < left + 2 ^ fuel) :
    bin_find_digit_loop remainder divisor fuel left right best = some Q := by
  induction fuel generalizing left right best with
  | zero =>
    rw [bin_find_digit_loop_exit _ _ _ _ _ _ (by simp at hsize; omega)]
    simp at hsize
    congr 1
    omega
  | succ fuel ih =>
    by_cases hlr : left ≤ right
    · have hmid : (left + (right - left) / 2) % 256 = left + (right - left) / 2 :=
        Nat.mod_eq_of_lt (by omega)
      have hp : 2 ^ (fuel + 1) = 2 * 2 ^ fuel := by rw [pow_succ]; ring
      rw [hp] at hsize
      have hiff := hP (left + (right - left) / 2) (by omega) (by omega)
      by_cases hc : superlong_abs_compare
          (superlong_mul_uint divisor ((left + (right - left) / 2) % 256)) remainder ≤ 0
      · rw [bin_find_digit_loop_accept _ _ _ _ _ _ hlr hc]
        rw [hmid] at hc
        have hle := hiff.mp hc
        rw [hmid, Nat.mod_eq_of_lt (by omega)]
        exact ih _ _ _ (by omega) hr rfl (by omega) hhi (by omega)
      · rw [bin_find_digit_loop_reject _ _ _ _ _ _ hlr hc]
        rw [hmid] at hc
        have hgt : ¬ left + (right - left) / 2 ≤ Q := fun h => hc (hiff.mpr h)
        have e : (left + (right - left) / 2 + 255) % 256 = left + (right - left) / 2 - 1 := by
          omega
        rw [hmid, e]
        exact ih _ _ _ hl (by omega) hb hlo (by omega) (by omega)
    · rw [bin_find_digit_loop_exit _ _ _ _ _ _ hlr]
      congr 1
      omega

/-- For a nonzero canonical divisor and a remainder whose bytes end in a nonzero
digit, a trial product is accepted exactly when `|divisor| * mid` is at most
`|remainder|`; the sign of the remainder plays no part. -/
theorem trial_product_compare (divisor remainder : superlong) (hd : canonical divisor)
    (hd0 : divisor.sign ≠ 0) (hr : digits_ok remainder.digits)
    (hr0 : ∃ x, remainder.digits.getLast? = some x ∧ x ≠ 0)
    (mid : Nat) (h1 : 1 ≤ mid) (h2 : mid ≤ 255) :
    superlong_abs_compare (superlong_mul_uint divisor mid) remainder ≤ 0 ↔
      magnitude divisor.digits * mid ≤ magnitude remainder.digits := by
  obtain ⟨cp, vp⟩ := mul_uint_spec divisor mid hd (by omega)
  have hmag : magnitude (superlong_mul_uint divisor mid).digits =
      magnitude divisor.digits * mid := by
    rw [← canonical_natAbs _ cp, vp, Int.natAbs_mul, canonical_natAbs divisor hd]
    simp
  have hm0 : magnitude divisor.digits ≠ 0 := fun h => hd0 (hd.2.2.1.mpr h)
  have hp0 : magnitude (superlong_mul_uint divisor mid).digits ≠ 0 := by
    rw [hmag]
    exact Nat.mul_ne_zero hm0 (by omega)
  have hps : (superlong_mul_uint divisor mid).sign ≠ 0 := fun h => hp0 (cp.2.2.1.mp h)
  rcases abs_compare_spec (superlong_mul_uint divisor mid) remainder cp.1 hr
      (canonical_nonzero_last _ cp hps) hr0 with
    ⟨h, hlt⟩ | ⟨h, heq⟩ | ⟨h, hlt⟩
  · rw [h, ← hmag]
    constructor
    · intro hc
      exact absurd hc (by decide)
    · intro hc
      omega
  · rw [h, ← hmag, heq]
    exact ⟨fun _ => le_refl _, fun _ => le_refl _⟩
  · rw [h, ← hmag]
    exact ⟨fun _ => le_of_lt hlt, fun _ => by decide⟩

/-- The binary search returns the quotient digit when it is at most 254 and
never returns when it is 255. -/
theorem bin_find_digit_spec (fuel : Nat) (remainder divisor : superlong)
    (hd : canonical divisor) (hd0 : divisor.sign ≠ 0) (hr : digits_ok remainder.digits)
    (hrl : remainder.digits.getLast? ≠ some 0)
    (hlo : magnitude divisor.digits ≤ magnitude remainder.digits) :
    (magnitude remainder.digits / magnitude divisor.digits ≤ 254 → 8 ≤ fuel →
        bin_find_digit fuel remainder divisor =
          some (magnitude remainder.digits / magnitude divisor.digits)) ∧
      (255 ≤ magnitude remainder.digits / magnitude divisor.digits →
        bin_find_digit fuel remainder divisor = none) := by
  have hm0 : magnitude divisor.digits ≠ 0 := fun h => hd0 (hd.2.2.1.mpr h)
  have hpos : 0 < magnitude divisor.digits := Nat.pos_of_ne_zero hm0
  have hrn : remainder.digits ≠ [] := by
    intro h
    rw [h] at hlo
    simp only [magnitude] at hlo
    omega
  have hr0 := trimmed_last remainder.digits hrl hrn
  constructor
  · intro hQ hfuel
    apply bin_find_digit_mono remainder divisor 8 fuel _ hfuel
    unfold bin_find_digit
    apply bin_find_digit_loop_correct remainder divisor _ hQ _ 8 1 255 0 (le_refl _) (le_refl _)
      rfl (Nat.le_add_left 1 _) (le_trans hQ (by norm_num)) (by norm_num)
    intro mid h1 h2
    rw [trial_product_compare divisor remainder hd hd0 hr hr0 mid h1 h2,
      Nat.le_div_iff_mul_le hpos, Nat.mul_comm]
  · intro hQ
    have h255 : magnitude divisor.digits * 255 ≤ magnitude remainder.digits := by
      rw [Nat.mul_comm]
      exact (Nat.le_div_iff_mul_le hpos).mp hQ
    unfold bin_find_digit
    apply bin_find_digit_loop_never_ends remainder divisor _ fuel 1 0 (by norm_num)
    intro mid hmid
    by_cases h0 : mid = 0
    · subst h0
      have hrn : 0 < remainder.digits.length := List.length_pos.mpr hrn
      unfold superlong_mul_uint superlong_abs_compare
      simp only [or_true, if_true, superlong_clean, List.length_nil]
      rw [if_pos (by omega), if_neg (by omega)]
      decide
    · rw [trial_product_compare divisor remainder hd hd0 hr hr0 mid (by omega) (by omega)]
      have : magnitude divisor.digits * mid ≤ magnitude divisor.digits * 255 :=
        Nat.mul_le_mul_left _ (by omega)
      omega

/-! ## The Karatsuba recursion stays within its budget -/

/-- One unfolding of `superlong_mul_karatsuba` above the threshold. -/
theorem mul_karatsuba_unfold (x y : superlong)
    (h : 16 ≤ min x.digits.length y.digits.length) :
    superlong_mul_karatsuba x y =
      superlong_add
        (superlong_add
          (superlong_shift_left_bytes
            (superlong_mul_karatsuba
              { digits := superlong_init.digits ++
                  x.digits.drop (min x.digits.length y.digits.length / 2), sign := 1 }
              { digits := superlong_init.digits ++
                  y.digits.drop (min x.digits.length y.digits.length / 2), sign := 1 })
            (2 * (min x.digits.length y.digits.length / 2)))
          (superlong_shift_left_bytes
            (superlong_sub
              (superlong_sub
                (superlong_mul_karatsuba
                  (superlong_add
                    { digits := superlong_init.digits ++
                        x.digits.drop (min x.digits.length y.digits.length / 2), sign := 1 }
                    { digits := superlong_init.digits ++
                        x.digits.take (min x.digits.length y.digits.length / 2), sign := 1 })
                  (superlong_add
                    { digits := superlong_init.digits ++
                        y.digits.drop (min x.digits.length y.digits.length / 2), sign := 1 }
                    { digits := superlong_init.digits ++
                        y.digits.take (min x.digits.length y.digits.length / 2), sign := 1 }))
                (superlong_mul_karatsuba
                  { digits := superlong_init.digits ++
                      x.digits.drop (min x.digits.length y.digits.length / 2), sign := 1 }
                  { digits := superlong_init.digits ++
                      y.digits.drop (min x.digits.length y.digits.length / 2), sign := 1 }))
              (superlong_mul_karatsuba
                { digits := superlong_init.digits ++
                    x.digits.take (min x.digits.length y.digits.length / 2), sign := 1 }
                { digits := superlong_init.digits ++
                    y.digits.take (min x.digits.length y.digits.length / 2), sign := 1 }))
            (min x.digits.length y.digits.length / 2)))
        (superlong_mul_karatsuba
          { digits := superlong_init.digits ++
              x.digits.take (min x.digits.length y.digits.length / 2), sign := 1 }
          { digits := superlong_init.digits ++
              y.digits.take (min x.digits.length y.digits.length / 2), sign := 1 }) := by
  have hmin : (if x.digits.length < y.digits.length then x.digits.length
      else y.digits.length) = min x.digits.length y.digits.length := by
    split <;> omega
  have la := add_length_le
    { digits := superlong_init.digits ++
        x.digits.drop (min x.digits.length y.digits.length / 2), sign := 1 }
    { digits := superlong_init.digits ++
        x.digits.take (min x.digits.length y.digits.length / 2), sign := 1 } rfl rfl
  have lc := add_length_le
    { digits := superlong_init.digits ++
        y.digits.drop (min x.digits.length y.digits.length / 2), sign := 1 }
    { digits := superlong_init.digits ++
        y.digits.take (min x.digits.length y.digits.length / 2), sign := 1 } rfl rfl
  simp only [superlong_init, List.length_append, List.length_drop, List.length_take,
    List.length_singleton] at la lc
  obtain ⟨n, hn⟩ : ∃ n, min x.digits.length y.digits.length = n + 1 :=
    ⟨min x.digits.length y.digits.length - 1, by omega⟩
  have e1 := mul_karatsuba_depth_eq n
    { digits := superlong_init.digits ++
        x.digits.drop (min x.digits.length y.digits.length / 2), sign := 1 }
    { digits := superlong_init.digits ++
        y.digits.drop (min x.digits.length y.digits.length / 2), sign := 1 }
    (by simp only [superlong_init, List.length_append, List.length_drop,
          List.length_singleton]; omega)
  have e2 := mul_karatsuba_depth_eq n
    { digits := superlong_init.digits ++
        x.digits.take (min x.digits.length y.digits.length / 2), sign := 1 }
    { digits := superlong_init.digits ++
        y.digits.take (min x.digits.length y.digits.length / 2), sign := 1 }
    (by simp only [superlong_init, List.length_append, List.length_take,
          List.length_singleton]; omega)
  have e3 := mul_karatsuba_depth_eq n
    (superlong_add
      { digits := superlong_init.digits ++
          x.digits.drop (min x.digits.length y.digits.length / 2), sign := 1 }
      { digits := superlong_init.digits ++
          x.digits.take (min x.digits.length y.digits.length / 2), sign := 1 })
    (superlong_add
      { digits := superlong_init.digits ++
          y.digits.drop (min x.digits.length y.digits.length / 2), sign := 1 }
      { digits := superlong_init.digits ++
          y.digits.take (min x.digits.length y.digits.length / 2), sign := 1 })
    (by simp only [superlong_init]; omega)
  rw [← e1, ← e2, ← e3]
  conv => lhs; unfold superlong_mul_karatsuba
  rw [hn, mul_karatsuba_depth]
  simp only [hmin, hn, if_neg (show ¬ n + 1 < 16 by omega)]

/-- Above the threshold each of the three recursive calls of
`superlong_mul_karatsuba` gets a pair whose shorter operand is strictly shorter
than the shorter operand of the caller. -/
theorem karatsuba_calls_decrease (x y : superlong)
    (h : 16 ≤ min x.digits.length y.digits.length) :
    min (superlong_init.digits ++ x.digits.drop (min x.digits.length y.digits.length / 2)).length
        (superlong_init.digits ++ y.digits.drop (min x.digits.length y.digits.length / 2)).length <
        min x.digits.length y.digits.length ∧
      min (superlong_init.digits ++ x.digits.take (min x.digits.length y.digits.length / 2)).length
        (superlong_init.digits ++ y.digits.take (min x.digits.length y.digits.length / 2)).length <
        min x.digits.length y.digits.length ∧
      min
        (superlong_add
          { digits := superlong_init.digits ++
              x.digits.drop (min x.digits.length y.digits.length / 2), sign := 1 }
          { digits := superlong_init.digits ++
              x.digits.take (min x.digits.length y.digits.length / 2), sign := 1 }).digits.length
        (superlong_add
          { digits := superlong_init.digits ++
              y.digits.drop (min x.digits.length y.digits.length / 2), sign := 1 }
          { digits := superlong_init.digits ++
              y.digits.take (min x.digits.length y.digits.length / 2), sign := 1 }).digits.length <
        min x.digits.length y.digits.length := by
  have la := add_length_le
    { digits := superlong_init.digits ++
        x.digits.drop (min x.digits.length y.digits.length / 2), sign := 1 }
    { digits := superlong_init.digits ++
        x.digits.take (min x.digits.length y.digits.length / 2), sign := 1 } rfl rfl
  have lc := add_length_le
    { digits := superlong_init.digits ++
        y.digits.drop (min x.digits.length y.digits.length / 2), sign := 1 }
    { digits := superlong_init.digits ++
        y.digits.take (min x.digits.length y.digits.length / 2), sign := 1 } rfl rfl
  simp only [superlong_init, List.length_append, List.length_drop, List.length_take,
    List.length_singleton] at la lc ⊢
  refine ⟨by omega, by omega, by omega⟩

/-- A budget of `d` nested calls is enough when the shorter operand has fewer
than `11 * 2 ^ d + 5` digits, and the result is that of
`superlong_mul_karatsuba`. -/
theorem mul_karatsuba_fuel_enough (d : Nat) (x y : superlong)
    (h : min x.digits.length y.digits.length < 11 * 2 ^ d + 5) :
    mul_karatsuba_fuel d x y = some (superlong_mul_karatsuba x y) := by
  have hmin : (if x.digits.length < y.digits.length then x.digits.length
      else y.digits.length) = min x.digits.length y.digits.length := by
    split <;> omega
  induction d generalizing x y with
  | zero =>
    have hm : min x.digits.length y.digits.length < 16 := by
      simp only [pow_zero] at h
      omega
    rw [mul_karatsuba_small x y hm]
    simp only [mul_karatsuba_fuel, hmin, hm, if_true]
  | succ d ih =>
    by_cases hm : min x.digits.length y.digits.length < 16
    · rw [mul_karatsuba_small x y hm]
      simp only [mul_karatsuba_fuel, hmin, hm, if_true]
    · have hp : 2 ^ (d + 1) = 2 * 2 ^ d := by rw [pow_succ]; ring
      rw [hp] at h
      have hs : ∀ p q : superlong,
          (if p.digits.length < q.digits.length then p.digits.length else q.digits.length) =
            min p.digits.length q.digits.length := by
        intro p q
        split <;> omega
      have e1 := ih
        { digits := superlong_init.digits ++
            x.digits.drop (min x.digits.length y.digits.length / 2), sign := 1 }
        { digits := superlong_init.digits ++
            y.digits.drop (min x.digits.length y.digits.length / 2), sign := 1 }
        (by
          simp only [superlong_init, List.length_append, List.length_drop,
            List.length_singleton]
          omega) (hs _ _)
      have e2 := ih
        { digits := superlong_init.digits ++
            x.digits.take (min x.digits.length y.digits.length / 2), sign := 1 }
        { digits := superlong_init.digits ++
            y.digits.take (min x.digits.length y.digits.length / 2), sign := 1 }
        (by
          simp only [superlong_init, List.length_append, List.length_take,
            List.length_singleton]
          omega) (hs _ _)
      have la := add_length_le
        { digits := superlong_init.digits ++
            x.digits.drop (min x.digits.length y.digits.length / 2), sign := 1 }
        { digits := superlong_init.digits ++
            x.digits.take (min x.digits.length y.digits.length / 2), sign := 1 } rfl rfl
      have lc := add_length_le
        { digits := superlong_init.digits ++
            y.digits.drop (min x.digits.length y.digits.length / 2), sign := 1 }
        { digits := superlong_init.digits ++
            y.digits.take (min x.digits.length y.digits.length / 2), sign := 1 } rfl rfl
      simp only [superlong_init, List.length_append, List.length_drop, List.length_take,
        List.length_singleton] at la lc
      have e3 := ih
        (superlong_add
          { digits := superlong_init.digits ++
              x.digits.drop (min x.digits.length y.digits.length / 2), sign := 1 }
          { digits := superlong_init.digits ++
              x.digits.take (min x.digits.length y.digits.length / 2), sign := 1 })
        (superlong_add
          { digits := superlong_init.digits ++
              y.digits.drop (min x.digits.length y.digits.length / 2), sign := 1 }
          { digits := superlong_init.digits ++
              y.digits.take (min x.digits.length y.digits.length / 2), sign := 1 })
        (by simp only [superlong_init]; omega) (hs _ _)
      rw [mul_karatsuba_unfold x y (by omega), mul_karatsuba_fuel]
      simp only [hmin, hm, if_false, e1, e2, e3]

/-! ## The decimal loop stays in its buffer -/

theorem to_decimal_loop_length (room : Nat) (temp : superlong) (acc l : List Char)
    (h : to_decimal_loop room temp acc = some l) : l.length ≤ acc.length + room := by
  induction room generalizing temp acc with
  | zero =>
    simp only [to_decimal_loop] at h
    split at h
    · injection h with h
      rw [← h]
      omega
    · exact absurd h (by simp)
  | succ room ih =>
    rw [to_decimal_loop] at h
    split at h
    · injection h with h
      rw [← h]
      omega
    · have := ih _ _ h
      simp only [List.length_append, List.length_singleton] at this
      omega

theorem div_uint10_loop_fits_spec (ds : List Nat) (hok : digits_ok ds) :
    div_uint10_loop_fits ds = true := by
  induction ds with
  | nil => rfl
  | cons d ds ih =>
    rw [digits_ok_cons] at hok
    obtain ⟨_, h2, _, _⟩ := div_uint10_loop_spec ds hok.2
    have hr : (div_uint10_loop ds).2 < 10 := by
      rw [h2]
      exact Nat.mod_lt _ (by norm_num)
    simp only [div_uint10_loop_fits, Bool.and_eq_true, decide_eq_true_eq]
    exact ⟨⟨ih hok.2, by omega⟩, by omega⟩

/-! ## The digit shift -/

/-- For a nonzero digit count and a number that `superlong_is_zero` does not
recognise as zero, `superlong_shift_left_bytes` puts `n + 1` zero digits below
the digits of the number. -/
theorem shift_left_bytes_digits (num : superlong) (n : Nat) (hn : n ≠ 0)
    (hz : superlong_is_zero num = false) :
    (superlong_shift_left_bytes num n).digits = List.replicate (n + 1) 0 ++ num.digits ∧
      (superlong_shift_left_bytes num n).sign = num.sign ∧
      magnitude (superlong_shift_left_bytes num n).digits =
        256 ^ (n + 1) * magnitude num.digits := by
  have hd : (superlong_shift_left_bytes num n).digits =
      List.replicate (n + 1) 0 ++ num.digits := by
    unfold superlong_shift_left_bytes
    rw [if_neg (by simp [hn, hz])]
    simp only [superlong_init, List.singleton_append, List.replicate_succ, List.cons_append,
      List.nil_append]
  refine ⟨hd, ?_, ?_⟩
  · unfold superlong_shift_left_bytes
    rw [if_neg (by simp [hn, hz])]
  · rw [hd, magnitude_append, magnitude_replicate_zero, List.length_replicate]
    omega

/-! ## Long division returns, or never does -/

theorem abs_sub_sign (a b : superlong) : (superlong_abs_sub a b).sign = 0 := by
  unfold superlong_abs_sub
  have h := normalize_sign
    (⟨abs_sub_loop a.digits b.digits 0, (0 : Int)⟩ : superlong)
  rcases h with h | ⟨h, _⟩ | ⟨h, _⟩
  · exact h
  · exact h
  · exact h

/-- The remainder formed at the start of one step of the long division is
canonical, whether the previous remainder is canonical or carries the sign 0
left by `superlong_abs_sub`. -/
theorem div_step_remainder (remaind : superlong) (d : Nat)
    (hr : remaind.sign = 0 ∨ canonical remaind) :
    canonical (superlong_add (superlong_mul_uint remaind 256) (superlong_from_uint d)) := by
  by_cases h0 : remaind.sign = 0
  · have e : superlong_mul_uint remaind 256 = { superlong_clean with sign := 0 } := by
      unfold superlong_mul_uint
      simp [h0]
    rw [e]
    unfold superlong_add
    simp only [if_true, copy_eq]
    exact (from_uint_spec d).1
  · rcases hr with h | h
    · exact absurd h h0
    · exact (add_spec _ _ (mul_uint_spec remaind 256 h (by norm_num)).1 (from_uint_spec d).1).1

theorem compare_nonneg_magnitude (r divis : superlong) (hr : canonical r)
    (hd : canonical divis) (hd0 : divis.sign ≠ 0) (h : superlong_abs_compare r divis ≥ 0) :
    magnitude divis.digits ≤ magnitude r.digits ∧ r.digits.getLast? ≠ some 0 := by
  obtain ⟨x, hx, hx0⟩ := canonical_nonzero_last divis hd hd0
  have hdl : divis.digits.getLast? ≠ some 0 := by
    rw [hx]
    intro e
    injection e with e
    exact hx0 e
  have hrl : r.digits.getLast? ≠ some 0 := by
    rcases hr.2.2.2 with hl | hl
    · exact hl
    · exfalso
      have hdn := canonical_ne_nil divis hd hd0
      unfold superlong_abs_compare at h
      rw [hl] at h
      by_cases hlen : divis.digits.length = 1
      · obtain ⟨y, hy⟩ := List.length_eq_one.mp hlen
        rw [hy] at hx h
        simp only [List.getLast?_singleton, Option.some.injEq] at hx
        subst hx
        simp [abs_compare_loop, hx0] at h
        omega
      · have hpos : 0 < divis.digits.length := List.length_pos.mpr hdn
        simp only [List.length_singleton] at h
        rw [if_pos (by omega), if_neg (by omega)] at h
        exact absurd h (by decide)
  refine ⟨?_, hrl⟩
  rcases abs_compare_trimmed r divis hr.1 hd.1 hrl hdl with ⟨_, hm⟩ | ⟨_, hm⟩ | ⟨hc, _⟩
  · omega
  · omega
  · rw [hc] at h
    exact absurd h (by decide)

theorem div_loop_search_some (fuel : Nat) (divis : superlong) (d : Nat) (ds : List Nat)
    (remaind : superlong) (q_digits : List Nat) (qd : Nat)
    (h : superlong_abs_compare
      (superlong_add (superlong_mul_uint remaind 256) (superlong_from_uint d)) divis ≥ 0)
    (hb : bin_find_digit fuel
      (superlong_add (superlong_mul_uint remaind 256) (superlong_from_uint d)) divis = some qd) :
    div_loop fuel divis (d :: ds) remaind q_digits =
      div_loop fuel divis ds
        (superlong_abs_sub
          (superlong_add (superlong_mul_uint remaind 256) (superlong_from_uint d))
          (superlong_mul_uint divis qd))
        (q_digits ++ [qd]) := by
  rw [div_loop]
  simp only [h, if_true, hb]

/-- With a nonzero canonical divisor, the long-division loop either returns when
every binary search is given 8 iterations, or returns for no iteration bound. -/
theorem div_loop_returns_or_hangs (divis : superlong) (hd : canonical divis)
    (hd0 : divis.sign ≠ 0) (ds : List Nat) (remaind : superlong)
    (hr : remaind.sign = 0 ∨ canonical remaind) (q_digits : List Nat) :
    (∃ q, div_loop 8 divis ds remaind q_digits = some q) ∨
      (∀ fuel, div_loop fuel divis ds remaind q_digits = none) := by
  induction ds generalizing remaind q_digits with
  | nil => exact Or.inl ⟨q_digits, by simp [div_loop]⟩
  | cons d ds ih =>
    have hR := div_step_remainder remaind d hr
    by_cases hc : superlong_abs_compare
        (superlong_add (superlong_mul_uint remaind 256) (superlong_from_uint d)) divis ≥ 0
    · obtain ⟨hlo, hl⟩ := compare_nonneg_magnitude _ divis hR hd hd0 hc
      by_cases hQ : magnitude
          (superlong_add (superlong_mul_uint remaind 256) (superlong_from_uint d)).digits /
            magnitude divis.digits ≤ 254
      · have h8 := (bin_find_digit_spec 8 _ divis hd hd0 hR.1 hl hlo).1 hQ (le_refl 8)
        rcases ih _ (Or.inl (abs_sub_sign
            (superlong_add (superlong_mul_uint remaind 256) (superlong_from_uint d))
            (superlong_mul_uint divis (magnitude
              (superlong_add (superlong_mul_uint remaind 256) (superlong_from_uint d)).digits /
                magnitude divis.digits))))
            (q_digits ++ [magnitude
              (superlong_add (superlong_mul_uint remaind 256) (superlong_from_uint d)).digits /
                magnitude divis.digits]) with ⟨q, hq⟩ | hnone
        · left
          exact ⟨q, by rw [div_loop_search_some 8 divis d ds remaind q_digits _ hc h8]; exact hq⟩
        · right
          intro fuel
          cases hb : bin_find_digit fuel
              (superlong_add (superlong_mul_uint remaind 256) (superlong_from_uint d)) divis with
          | none => exact div_loop_search_never_ends fuel divis d ds remaind q_digits hc hb
          | some v =>
            have hv : v = magnitude
                (superlong_add (superlong_mul_uint remaind 256) (superlong_from_uint d)).digits /
                  magnitude divis.digits := by
              by_cases hf : fuel ≤ 8
              · have := bin_find_digit_mono _ _ fuel 8 v hf hb
                rw [h8] at this
                injection this with this
                exact this.symm
              · have := (bin_find_digit_spec fuel _ divis hd hd0 hR.1 hl hlo).1 hQ (by omega)
                rw [hb] at this
                injection this
            rw [div_loop_search_some fuel divis d ds remaind q_digits v hc hb, hv]
            exact hnone fuel
      · right
        intro fuel
        exact div_loop_search_never_ends fuel divis d ds remaind q_digits hc
          ((bin_find_digit_spec fuel _ divis hd hd0 hR.1 hl hlo).2 (by omega))
    · rcases ih _ (Or.inr hR) (q_digits ++ [0]) with ⟨q, hq⟩ | hnone
      · left
        exact ⟨q, by rw [div_loop_zero_digit 8 divis d ds remaind q_digits hc]; exact hq⟩
      · right
        intro fuel
        rw [div_loop_zero_digit fuel divis d ds remaind q_digits hc]
        exact hnone fuel

theorem positive_copy_canonical (b : superlong) (hb : canonical b) (hb0 : b.sign ≠ 0) :
    canonical ({ superlong_copy b with sign := 1 } : superlong) := by
  rw [copy_eq]
  obtain ⟨h1, _, h3, h4⟩ := hb
  have hm : magnitude b.digits ≠ 0 := fun h => hb0 (h3.mpr h)
  exact ⟨h1, Or.inr (Or.inl rfl), by simp [hm], h4⟩

/-- With canonical operands and a nonzero divisor, `superlong_div` either
returns when every binary search is given 8 iterations, or returns for no
iteration bound. -/
theorem div_returns_or_hangs (a b res : superlong) (hb : canonical b) (hb0 : b.sign ≠ 0) :
    (∃ r, superlong_div 8 a b res = Outcome.returned r) ∨
      (∀ fuel, superlong_div fuel a b res = Outcome.hang) := by
  by_cases ha0 : a.sign = 0
  · left
    unfold superlong_div
    rw [if_neg hb0, if_pos ha0]
    exact ⟨_, rfl⟩
  by_cases hfast : b.digits.length ≤ 4 ∧ abs_compare_uint_loop b.digits 0 0 ≠ 0
  · left
    obtain ⟨q, hq⟩ := div_uint_returned a (abs_compare_uint_loop b.digits 0 0) res hfast.2
    unfold superlong_div
    rw [if_neg hb0, if_neg ha0]
    simp only
    rw [if_pos hfast, hq]
    exact ⟨_, rfl⟩
  by_cases hcmp : superlong_abs_compare { superlong_copy a with sign := 1 }
      { superlong_copy b with sign := 1 } < 0
  · left
    unfold superlong_div
    rw [if_neg hb0, if_neg ha0]
    simp only
    rw [if_neg hfast, if_pos hcmp]
    exact ⟨_, rfl⟩
  have hlong : ∀ fuel, superlong_div fuel a b res =
      (match div_loop fuel { superlong_copy b with sign := 1 }
          ({ superlong_copy a with sign := 1 } : superlong).digits.reverse
          (superlong_from_uint 0) [] with
        | none => Outcome.hang
        | some q_digits =>
          Outcome.returned (superlong_normalize
            { digits := superlong_clean.digits ++ q_digits.reverse,
              sign := if a.sign = b.sign then 1 else -1 })) := by
    intro fuel
    unfold superlong_div
    rw [if_neg hb0, if_neg ha0]
    simp only
    rw [if_neg hfast, if_neg hcmp]
  rcases div_loop_returns_or_hangs { superlong_copy b with sign := 1 }
      (positive_copy_canonical b hb hb0) (by simp)
      ({ superlong_copy a with sign := 1 } : superlong).digits.reverse
      (superlong_from_uint 0) (Or.inl (by simp [superlong_from_uint, superlong_clean])) [] with
    ⟨q, hq⟩ | hnone
  · left
    rw [hlong 8, hq]
    exact ⟨_, rfl⟩
  · right
    intro fuel
    rw [hlong fuel, hnone fuel]

/-- The same, with what is known of every result attached to the one returned. -/
theorem div_result_or_hangs (P : superlong → Prop) (a b res : superlong)
    (hb : canonical b) (hb0 : b.sign ≠ 0)
    (hP : ∀ r, superlong_div 8 a b res = Outcome.returned r → P r) :
    (∃ r, (∀ fuel, 8 ≤ fuel → superlong_div fuel a b res = Outcome.returned r) ∧ P r) ∨
      (∀ fuel, superlong_div fuel a b res = Outcome.hang) := by
  rcases div_returns_or_hangs a b res hb hb0 with ⟨r, hr⟩ | h
  · exact Or.inl ⟨r, fun fuel hf => superlong_div_mono 8 fuel hf a b res r hr, hP r hr⟩
  · exact Or.inr h

/-- Calls of `superlong_div` that run no binary search always return: a zero
dividend, a divisor of at most 4 digits, or a dividend smaller in magnitude
than the divisor. -/
theorem div_returns_without_search (a b res : superlong) (ha : canonical a)
    (hb : canonical b) (hb0 : b.sign ≠ 0)
    (h : a.sign = 0 ∨ b.digits.length ≤ 4 ∨ magnitude a.digits < magnitude b.digits) :
    ∃ r, ∀ fuel, superlong_div fuel a b res = Outcome.returned r := by
  by_cases ha0 : a.sign = 0
  · refine ⟨{ superlong_clean with sign := 0 }, fun fuel => ?_⟩
    unfold superlong_div
    rw [if_neg hb0, if_pos ha0]
  by_cases hfast : b.digits.length ≤ 4 ∧ abs_compare_uint_loop b.digits 0 0 ≠ 0
  · obtain ⟨q, hq⟩ := div_uint_returned a (abs_compare_uint_loop b.digits 0 0) res hfast.2
    refine ⟨if (if a.sign = b.sign then (1 : Int) else -1) < 0 ∧ q.sign ≠ 0
      then { q with sign := -1 } else q, fun fuel => ?_⟩
    unfold superlong_div
    rw [if_neg hb0, if_neg ha0]
    simp only
    rw [if_pos hfast, hq]
  have hmb : magnitude b.digits ≠ 0 := fun hm => hb0 (hb.2.2.1.mpr hm)
  have hlt : magnitude a.digits < magnitude b.digits := by
    rcases h with h | h | h
    · exact absurd h ha0
    · exfalso
      apply hfast
      refine ⟨h, ?_⟩
      rw [abs_compare_uint_loop_eq b.digits hb.1 h]
      exact hmb
    · exact h
  have hcmp : superlong_abs_compare { superlong_copy a with sign := 1 }
      { superlong_copy b with sign := 1 } < 0 := by
    rcases abs_compare_spec { superlong_copy a with sign := 1 }
        { superlong_copy b with sign := 1 }
        (by simp only [copy_eq]; exact ha.1) (by simp only [copy_eq]; exact hb.1)
        (by simp only [copy_eq]; exact canonical_nonzero_last a ha ha0)
        (by simp only [copy_eq]; exact canonical_nonzero_last b hb hb0) with
      ⟨_, h1⟩ | ⟨_, h1⟩ | ⟨h1, _⟩
    · simp only [copy_eq] at h1
      omega
    · simp only [copy_eq] at h1
      rw [h1] at hlt
      omega
    · rw [h1]
      decide
  refine ⟨{ superlong_clean with sign := 0 }, fun fuel => ?_⟩
  unfold superlong_div
  rw [if_neg hb0, if_neg ha0]
  simp only
  rw [if_neg hfast, if_pos hcmp]

/-- The product of canonical operands of any length is canonical. -/
theorem mul_canonical (a b : superlong) (ha : canonical a) (hb : canonical b) :
    canonical (superlong_mul a b) := by
  by_cases h0 : a.sign = 0 ∨ b.sign = 0
  · unfold superlong_mul
    rw [if_pos h0]
    exact clean_canonical
  · exact (mul_sign a b ha hb (fun h => h0 (Or.inl h)) (fun h => h0 (Or.inr h))).2.2

/-! ## The claims -/

/-- C1: for canonical `a` and `b` and a destination distinct from both,
`superlong_add` leaves a number whose integer value is `value a + value b`. -/
theorem superlong_add_value (a b : superlong) (ha : canonical a) (hb : canonical b) :
    value (superlong_add a b) = value a + value b :=
  (add_spec a b ha hb).2

theorem superlong_add_value_witness :
    canonical ⟨[123], 1⟩ ∧ canonical ⟨[200, 1], 1⟩ ∧
      value (superlong_add ⟨[123], 1⟩ ⟨[200, 1], 1⟩) = value ⟨[123], 1⟩ + value ⟨[200, 1], 1⟩ :=
  ⟨by decide, by decide, superlong_add_value ⟨[123], 1⟩ ⟨[200, 1], 1⟩ (by decide) (by decide)⟩

/-- C2: for canonical `a` and `b` and a destination distinct from both,
`superlong_sub` leaves a number whose integer value is `value a - value b`; in
particular `a - a` has value 0. -/
theorem superlong_sub_value (a b : superlong) (ha : canonical a) (hb : canonical b) :
    value (superlong_sub a b) = value a - value b ∧ value (superlong_sub a a) = 0 :=
  ⟨(sub_spec a b ha hb).2, by rw [(sub_spec a a ha ha).2]; ring⟩

theorem superlong_sub_value_witness :
    canonical ⟨[100], 1⟩ ∧ canonical ⟨[150], 1⟩ ∧
      (value (superlong_sub ⟨[100], 1⟩ ⟨[150], 1⟩) = value ⟨[100], 1⟩ - value ⟨[150], 1⟩ ∧
        value (superlong_sub ⟨[100], 1⟩ ⟨[100], 1⟩) = 0) :=
  ⟨by decide, by decide, superlong_sub_value ⟨[100], 1⟩ ⟨[150], 1⟩ (by decide) (by decide)⟩

/-- C3 (defect in the code): for the canonical operand `x = 256 ^ 15` (sixteen
digits), `superlong_mul x x` takes the Karatsuba path and leaves `256 ^ 33`,
which is not the product `256 ^ 30`; the schoolbook routine
`superlong_mul_simple` gives the exact product on the same operands. -/
theorem superlong_mul_sixteen_digits_wrong :
    canonical ⟨[0, 0, 0, 0, 0, 0, 0, 0, 0, 0, 0, 0, 0, 0, 0, 1], 1⟩ ∧
      superlong_mul ⟨[0, 0, 0, 0, 0, 0, 0, 0, 0, 0, 0, 0, 0, 0, 0, 1], 1⟩
          ⟨[0, 0, 0, 0, 0, 0, 0, 0, 0, 0, 0, 0, 0, 0, 0, 1], 1⟩ =
        ⟨List.replicate 33 0 ++ [1], 1⟩ ∧
      value (superlong_mul ⟨[0, 0, 0, 0, 0, 0, 0, 0, 0, 0, 0, 0, 0, 0, 0, 1], 1⟩
          ⟨[0, 0, 0, 0, 0, 0, 0, 0, 0, 0, 0, 0, 0, 0, 0, 1], 1⟩) ≠
        value ⟨[0, 0, 0, 0, 0, 0, 0, 0, 0, 0, 0, 0, 0, 0, 0, 1], 1⟩ *
          value ⟨[0, 0, 0, 0, 0, 0, 0, 0, 0, 0, 0, 0, 0, 0, 0, 1], 1⟩ ∧
      value (superlong_mul_simple ⟨[0, 0, 0, 0, 0, 0, 0, 0, 0, 0, 0, 0, 0, 0, 0, 1], 1⟩
          ⟨[0, 0, 0, 0, 0, 0, 0, 0, 0, 0, 0, 0, 0, 0, 0, 1], 1⟩) =
        value ⟨[0, 0, 0, 0, 0, 0, 0, 0, 0, 0, 0, 0, 0, 0, 0, 1], 1⟩ *
          value ⟨[0, 0, 0, 0, 0, 0, 0, 0, 0, 0, 0, 0, 0, 0, 0, 1], 1⟩ := by
  decide

/-- C4 (defect in the code): dividing `256 ^ 5 + 256 ^ 4` by the five-digit
divisor `256 ^ 4` takes the long-division path and, whenever each binary search
is given at least 8 iterations, returns the quotient 256 instead of 257, so
that `|a| - |q * b|` equals `|b|` instead of being smaller. -/
theorem superlong_div_long_path_wrong (fuel : Nat) (hf : 8 ≤ fuel) (res : superlong) :
    canonical ⟨[0, 0, 0, 0, 1, 1], 1⟩ ∧ canonical ⟨[0, 0, 0, 0, 1], 1⟩ ∧
      superlong_div fuel ⟨[0, 0, 0, 0, 1, 1], 1⟩ ⟨[0, 0, 0, 0, 1], 1⟩ res =
        Outcome.returned ⟨[0, 1], 1⟩ ∧
      (value ⟨[0, 0, 0, 0, 1, 1], 1⟩).natAbs -
          (value ⟨[0, 1], 1⟩ * value ⟨[0, 0, 0, 0, 1], 1⟩).natAbs =
        (value ⟨[0, 0, 0, 0, 1], 1⟩).natAbs ∧
      ¬ ((value ⟨[0, 0, 0, 0, 1, 1], 1⟩).natAbs -
          (value ⟨[0, 1], 1⟩ * value ⟨[0, 0, 0, 0, 1], 1⟩).natAbs <
        (value ⟨[0, 0, 0, 0, 1], 1⟩).natAbs) := by
  refine ⟨by decide, by decide, ?_, by decide, by decide⟩
  apply superlong_div_mono 8 fuel hf
  rfl

theorem superlong_div_long_path_wrong_witness :
    8 ≤ 8 ∧ superlong_div 8 ⟨[0, 0, 0, 0, 1, 1], 1⟩ ⟨[0, 0, 0, 0, 1], 1⟩ superlong_init =
        Outcome.returned ⟨[0, 1], 1⟩ :=
  ⟨le_refl 8, (superlong_div_long_path_wrong 8 (le_refl 8) superlong_init).2.2.1⟩

/-- C5 (defect in the code): on the scalar fast path `(-100) / (-10)` leaves
`-10`, a quotient of sign -1 although both operands have the same sign; and
`5 / 256` leaves an empty digit buffer with sign +1, a nonzero sign on a
quotient of magnitude zero. -/
theorem superlong_div_fast_path_sign_wrong (fuel : Nat) (res : superlong) :
    canonical ⟨[100], -1⟩ ∧ canonical ⟨[10], -1⟩ ∧
      superlong_div fuel ⟨[100], -1⟩ ⟨[10], -1⟩ res = Outcome.returned ⟨[10], -1⟩ ∧
      canonical ⟨[5], 1⟩ ∧ canonical ⟨[0, 1], 1⟩ ∧
      superlong_div fuel ⟨[5], 1⟩ ⟨[0, 1], 1⟩ res = Outcome.returned ⟨[], 1⟩ :=
  ⟨by decide, by decide, rfl, by decide, by decide, rfl⟩

/-- C6: with process termination modelled as the outcome `exited`, a call of a
public arithmetic entry point exits if and only if it is `superlong_div` with a
divisor of sign 0 or `superlong_div_uint` with the scalar divisor 0, and then
the destination still holds what it held before the call; so `add`, `sub` and
`mul` in vector and scalar form never exit. -/
theorem exit_iff_division_by_zero (fuel : Nat) (c : Call) (res r : superlong) :
    run fuel c res = Outcome.exited r ↔ (divides_by_zero c ∧ r = res) := by
  cases c with
  | div a b =>
    simp only [run, divides_by_zero]
    unfold superlong_div
    by_cases h1 : b.sign = 0
    · simp only [h1, if_true, Outcome.exited.injEq, true_and]
      exact eq_comm
    · simp only [h1, if_false, false_and, iff_false]
      by_cases h2 : a.sign = 0
      · simp [h2]
      · simp only [h2, if_false]
        split
        · rename_i h3
          obtain ⟨q, hq⟩ := div_uint_returned a _ res h3.2
          rw [hq]
          simp
        · split
          · simp
          · split <;> simp
  | div_uint a b =>
    simp only [run, divides_by_zero]
    unfold superlong_div_uint
    by_cases h1 : b = 0
    · simp only [h1, if_true, Outcome.exited.injEq, true_and]
      exact eq_comm
    · simp only [h1, if_false, false_and, iff_false]
      obtain ⟨q, hq⟩ := div_uint_returned a b res h1
      unfold superlong_div_uint at hq
      simp only [h1, if_false] at hq
      rw [hq]
      simp
  | add a b => simp [run, divides_by_zero]
  | add_uint a b => simp [run, divides_by_zero]
  | sub a b => simp [run, divides_by_zero]
  | sub_uint a b => simp [run, divides_by_zero]
  | mul a b => simp [run, divides_by_zero]
  | mul_uint a b => simp [run, divides_by_zero]

/-- C7: for every canonical `a`, `superlong_to_decimal_str a` returns the string
"0" when `a` is zero, and otherwise the decimal numeral of `|value a|`, preceded
by one '-' exactly when the sign is negative; this is the standard rendering of
the integer `value a`, and the numeral of a nonzero number does not start with
the character 0. -/
theorem superlong_to_decimal_str_numeral (a : superlong) (h : canonical a) :
    superlong_to_decimal_str a =
        some (if a.sign = 0 then "0"
          else if a.sign < 0 then "-" ++ Nat.repr (value a).natAbs
          else Nat.repr (value a).natAbs) ∧
      superlong_to_decimal_str a = some (toString (value a)) ∧
      (a.sign ≠ 0 → (Nat.toDigits 10 (value a).natAbs).head? ≠ some '0') := by
  have hspec := to_decimal_str_spec a h
  obtain ⟨_, hs, hz, _⟩ := h
  rcases hs with hs | hs | hs
  · have hm := hz.mp hs
    have hv : value a = 0 := by simp [value, hs]
    rw [hspec, hv]
    simp only [hs, if_true]
    exact ⟨trivial, rfl, fun hne => absurd rfl hne⟩
  · have hv : value a = (magnitude a.digits : Int) := by simp [value, hs]
    have hm : magnitude a.digits ≠ 0 := fun hm => by
      have := hz.mpr hm
      rw [hs] at this
      exact absurd this one_ne_zero
    rw [hspec, hv]
    simp only [hs, one_ne_zero, if_false, Int.natAbs_ofNat]
    refine ⟨by norm_num, ?_, fun _ => ?_⟩
    · have : ¬ ((1 : Int) < 0) := by norm_num
      simp only [this, if_false]
      rfl
    · exact toDigitsCore_head _ _ _ (Nat.pos_of_ne_zero hm) (Nat.lt_succ_self _)
  · have hm : magnitude a.digits ≠ 0 := fun hm => by
      have := hz.mpr hm
      rw [hs] at this
      exact absurd this (by decide)
    obtain ⟨k, hk⟩ : ∃ k, magnitude a.digits = k + 1 := ⟨magnitude a.digits - 1, by omega⟩
    have hv : value a = Int.negSucc k := by
      simp only [value, hs, hk]
      rw [Int.negSucc_eq]
      push_cast
      ring
    rw [hspec, hv]
    have e1 : ¬ ((-1 : Int) = 0) := by decide
    have e2 : (-1 : Int) < 0 := by decide
    simp only [hs, e1, e2, if_false, if_true, Int.natAbs_negSucc, hk]
    refine ⟨trivial, rfl, fun _ => ?_⟩
    exact toDigitsCore_head _ _ _ (Nat.succ_pos k) (Nat.lt_succ_self _)

theorem superlong_to_decimal_str_numeral_witness :
    canonical ⟨[208, 138], -1⟩ ∧
      superlong_to_decimal_str ⟨[208, 138], -1⟩ = some (toString (value ⟨[208, 138], -1⟩)) :=
  ⟨by decide, (superlong_to_decimal_str_numeral ⟨[208, 138], -1⟩ (by decide)).2.1⟩

/-- C8: for every unsigned 32-bit `n`, rendering `superlong_from_uint n` gives the
decimal numeral of `n` ("0" for `n = 0`, and no leading character 0 otherwise),
and for every 16-bit signed `m`, rendering `superlong_from_int m` gives the
decimal numeral of `|m|` preceded by one '-' exactly when `m < 0`. -/
theorem decimal_round_trip (n : Nat) (hn : n < 2 ^ 32) (m : Int) (hlo : -32768 ≤ m)
    (hhi : m ≤ 32767) :
    superlong_to_decimal_str (superlong_from_uint n) = some (Nat.repr n) ∧
      superlong_to_decimal_str (superlong_from_int m) =
        some (if m < 0 then "-" ++ Nat.repr m.natAbs else Nat.repr m.natAbs) ∧
      superlong_to_decimal_str (superlong_from_uint 0) = some "0" ∧
      (n ≠ 0 → (Nat.toDigits 10 n).head? ≠ some '0') := by
  refine ⟨?_, ?_, by decide, fun h0 =>
    toDigitsCore_head _ _ _ (Nat.pos_of_ne_zero h0) (Nat.lt_succ_self _)⟩
  · obtain ⟨c1, c2, c3⟩ := from_uint_spec n
    rw [to_decimal_str_spec _ c1, c2, c3]
    by_cases h0 : n = 0
    · subst h0
      rfl
    · simp only [h0, if_false, one_ne_zero]
      have : ¬ ((1 : Int) < 0) := by norm_num
      simp only [this, if_false]
  · obtain ⟨c1, c2, c3⟩ := from_int_spec m hlo hhi
    rw [to_decimal_str_spec _ c1, c2, c3]
    by_cases h0 : m = 0
    · subst h0
      rfl
    · by_cases hneg : m < 0
      · have e1 : ¬ ((-1 : Int) = 0) := by decide
        have e2 : (-1 : Int) < 0 := by decide
        simp only [h0, hneg, e1, e2, if_false, if_true]
      · have e2 : ¬ ((1 : Int) < 0) := by norm_num
        simp only [h0, hneg, e2, if_false, one_ne_zero]

theorem decimal_round_trip_witness :
    4294967295 < 2 ^ 32 ∧ (-32768 : Int) ≤ -30000 ∧ (-30000 : Int) ≤ 32767 ∧
      superlong_to_decimal_str (superlong_from_uint 4294967295) = some (Nat.repr 4294967295) ∧
      superlong_to_decimal_str (superlong_from_int (-30000)) =
        some (if (-30000 : Int) < 0 then "-" ++ Nat.repr (-30000 : Int).natAbs
          else Nat.repr (-30000 : Int).natAbs) :=
  ⟨by decide, by decide, by decide,
    (decimal_round_trip 4294967295 (by decide) (-30000) (by decide) (by decide)).1,
    (decimal_round_trip 4294967295 (by decide) (-30000) (by decide) (by decide)).2.1⟩

/-- C9: for every `n` below `2 ^ 32 - 1`, `superlong_factorial n` returns (within
`n` iterations of its loop) a canonical number of sign +1 whose value is `n!`;
this covers every run in which the multiplier passes through 256. -/
theorem superlong_factorial_value (fuel n : Nat) (hn : n < 2 ^ 32 - 1) (hfuel : n ≤ fuel) :
    ∃ r, superlong_factorial fuel n = some r ∧ canonical r ∧ r.sign = 1 ∧
      value r = (n.factorial : Int) :=
  factorial_spec fuel n hn hfuel

theorem superlong_factorial_value_witness :
    300 < 2 ^ 32 - 1 ∧ 300 ≤ 300 ∧
      ∃ r, superlong_factorial 300 300 = some r ∧ canonical r ∧ r.sign = 1 ∧
        value r = (Nat.factorial 300 : Int) :=
  ⟨by decide, le_refl 300, superlong_factorial_value 300 300 (by decide) (le_refl 300)⟩

/-- C10 (defect in the code): for `a = -1` and `b = 512` the scalar-minus-number
loop of `superlong_abs_uint_sub` runs over the single digit of `a` only, and
`superlong_add_uint` leaves 255 instead of `b - |a| = 511`. -/
theorem superlong_add_uint_negative_wrong :
    canonical ⟨[1], -1⟩ ∧ superlong_add_uint ⟨[1], -1⟩ 512 = ⟨[255], 1⟩ ∧
      value (superlong_add_uint ⟨[1], -1⟩ 512) ≠ value ⟨[1], -1⟩ + 512 := by
  decide

/-- C11 (defect in the code): for `a = 1` and `b = 512`, `superlong_sub_uint`
calls `superlong_abs_uint_sub`, whose loop runs over the single digit of `a`
only, and leaves -255 instead of `a - b = -511`. -/
theorem superlong_sub_uint_small_minuend_wrong :
    canonical ⟨[1], 1⟩ ∧ superlong_sub_uint ⟨[1], 1⟩ 512 = ⟨[255], -1⟩ ∧
      value (superlong_sub_uint ⟨[1], 1⟩ 512) ≠ value ⟨[1], 1⟩ - 512 := by
  decide

/-- C12: for every canonical `a` and every 32-bit scalar `b`, `superlong_mul_uint`
leaves a number of value `value a * b`; the carry loop with its 64-bit
accumulator produces exactly the digits of `|a| * b`; and for `b = 1` and
`b = 256` the shortcut gives the same value as the general carry loop. -/
theorem superlong_mul_uint_value (a : superlong) (b : Nat) (ha : canonical a)
    (hb : b < 2 ^ 32) :
    value (superlong_mul_uint a b) = value a * b ∧
      magnitude (mul_uint_loop b a.digits 0) = magnitude a.digits * b ∧
      value (superlong_mul_uint a 1) = value (superlong_mul_uint_general a 1) ∧
      value (superlong_mul_uint a 256) = value (superlong_mul_uint_general a 256) := by
  refine ⟨(mul_uint_spec a b ha hb).2, ?_, ?_, ?_⟩
  · have := (mul_uint_loop_spec b a.digits 0 hb (by norm_num) ha.1).1
    rw [this]; rfl
  · rw [(mul_uint_spec a 1 ha (by norm_num)).2, mul_uint_general_value a 1 ha.1 (by norm_num)]
  · rw [(mul_uint_spec a 256 ha (by norm_num)).2,
      mul_uint_general_value a 256 ha.1 (by norm_num)]

theorem superlong_mul_uint_value_witness :
    canonical ⟨[100], 1⟩ ∧ 256 < 2 ^ 32 ∧
      value (superlong_mul_uint ⟨[100], 1⟩ 256) = value ⟨[100], 1⟩ * 256 :=
  ⟨by decide, by decide, (superlong_mul_uint_value ⟨[100], 1⟩ 256 (by decide) (by decide)).1⟩

/-- C13: for every canonical `a` and every nonzero 32-bit scalar `b`,
`superlong_div_uint` returns a number whose magnitude is `|value a| / b` rounded
down and whose value is `value a / b` truncated toward zero; every quotient
digit computed in the loop is below 256. -/
theorem superlong_div_uint_floor (a : superlong) (b : Nat) (res : superlong)
    (ha : canonical a) (hb0 : b ≠ 0) (hb : b < 2 ^ 32) :
    ∃ r, superlong_div_uint a b res = Outcome.returned r ∧
      magnitude r.digits = (value a).natAbs / b ∧
      value r = (value a).tdiv (b : Int) ∧
      ∀ d remaind, d < 256 → remaind < b → (d + remaind * 256) % 2 ^ 64 / b < 256 := by
  obtain ⟨r, h1, h2, h3, _⟩ := div_uint_spec a b res ha hb0 hb
  refine ⟨r, h1, by rw [canonical_natAbs a ha]; exact h2, h3, ?_⟩
  intro d remaind hd hr
  obtain ⟨e1, e2⟩ := div_uint_step_lt b d remaind hb hd hr
  rw [e1]
  exact e2

theorem superlong_div_uint_floor_witness :
    canonical ⟨[57, 48], -1⟩ ∧ 5 ≠ 0 ∧ 5 < 2 ^ 32 ∧
      ∃ r, superlong_div_uint ⟨[57, 48], -1⟩ 5 superlong_init = Outcome.returned r ∧
        magnitude r.digits = (value ⟨[57, 48], -1⟩).natAbs / 5 ∧
        value r = (value ⟨[57, 48], -1⟩).tdiv ((5 : Nat) : Int) ∧
        ∀ d remaind, d < 256 → remaind < 5 → (d + remaind * 256) % 2 ^ 64 / 5 < 256 :=
  ⟨by decide, by decide, by decide,
    superlong_div_uint_floor ⟨[57, 48], -1⟩ 5 superlong_init (by decide) (by decide) (by decide)⟩

/-- C14 (defect in the code): for the positive canonical sixteen-digit operand
with digits 1, 2, ..., 16, `superlong_mul_karatsuba` and `superlong_mul_simple`
leave different digit sequences, and only the second has the value of the
product. -/
theorem superlong_mul_karatsuba_differs :
    canonical ⟨[1, 2, 3, 4, 5, 6, 7, 8, 9, 10, 11, 12, 13, 14, 15, 16], 1⟩ ∧
      (superlong_mul_karatsuba ⟨[1, 2, 3, 4, 5, 6, 7, 8, 9, 10, 11, 12, 13, 14, 15, 16], 1⟩
          ⟨[1, 2, 3, 4, 5, 6, 7, 8, 9, 10, 11, 12, 13, 14, 15, 16], 1⟩).digits ≠
        (superlong_mul_simple ⟨[1, 2, 3, 4, 5, 6, 7, 8, 9, 10, 11, 12, 13, 14, 15, 16], 1⟩
          ⟨[1, 2, 3, 4, 5, 6, 7, 8, 9, 10, 11, 12, 13, 14, 15, 16], 1⟩).digits ∧
      value (superlong_mul_simple ⟨[1, 2, 3, 4, 5, 6, 7, 8, 9, 10, 11, 12, 13, 14, 15, 16], 1⟩
          ⟨[1, 2, 3, 4, 5, 6, 7, 8, 9, 10, 11, 12, 13, 14, 15, 16], 1⟩) =
        value ⟨[1, 2, 3, 4, 5, 6, 7, 8, 9, 10, 11, 12, 13, 14, 15, 16], 1⟩ *
          value ⟨[1, 2, 3, 4, 5, 6, 7, 8, 9, 10, 11, 12, 13, 14, 15, 16], 1⟩ ∧
      value (superlong_mul_karatsuba ⟨[1, 2, 3, 4, 5, 6, 7, 8, 9, 10, 11, 12, 13, 14, 15, 16], 1⟩
          ⟨[1, 2, 3, 4, 5, 6, 7, 8, 9, 10, 11, 12, 13, 14, 15, 16], 1⟩) ≠
        value ⟨[1, 2, 3, 4, 5, 6, 7, 8, 9, 10, 11, 12, 13, 14, 15, 16], 1⟩ *
          value ⟨[1, 2, 3, 4, 5, 6, 7, 8, 9, 10, 11, 12, 13, 14, 15, 16], 1⟩ := by
  decide

/-- C15: calling `superlong_mul_uint`, `superlong_sub_uint` or (with a nonzero
scalar) `superlong_div_uint` with the destination being the operand `a` itself
leaves in it the same sign and digits as the call with a distinct destination,
whatever that destination held. -/
theorem aliased_scalar_calls (a : superlong) (b c : Nat) (res : superlong) (hc : c ≠ 0) :
    superlong_mul_uint_aliased a b = superlong_mul_uint a b ∧
      superlong_sub_uint_aliased a b = superlong_sub_uint a b ∧
      superlong_div_uint_aliased a c = superlong_div_uint a c res := by
  refine ⟨?_, ?_, ?_⟩
  · unfold superlong_mul_uint_aliased superlong_mul_uint
    simp only [copy_eq]
    split
    · rfl
    · split
      · rfl
      · rfl
  · unfold superlong_sub_uint_aliased
    simp only [copy_eq]
  · unfold superlong_div_uint_aliased superlong_div_uint
    simp only [hc, if_false, copy_eq]

theorem aliased_scalar_calls_witness :
    5 ≠ 0 ∧ superlong_mul_uint_aliased ⟨[30], 1⟩ 2 = superlong_mul_uint ⟨[30], 1⟩ 2 ∧
      superlong_sub_uint_aliased ⟨[30], 1⟩ 2 = superlong_sub_uint ⟨[30], 1⟩ 2 ∧
      superlong_div_uint_aliased ⟨[30], 1⟩ 5 =
        superlong_div_uint ⟨[30], 1⟩ 5 superlong_init :=
  ⟨by decide, aliased_scalar_calls ⟨[30], 1⟩ 2 5 superlong_init (by decide)⟩

/-- C16 (defect in the code): with the destination being the first operand,
`superlong_add(a, 0, a)` turns `a = 5` into zero, `superlong_add(123, 456, a)`
leaves the digits of 579 with sign 0, `superlong_add_uint(1000, 234, a)` leaves
234, and `superlong_mul(12, 13, a)` leaves an empty buffer of sign -1; the calls
with a distinct destination leave 5, 579, 1234 and 156. -/
theorem aliased_add_and_mul_wrong :
    superlong_add_aliased ⟨[5], 1⟩ ⟨[], 0⟩ = ⟨[], 0⟩ ∧
      superlong_add ⟨[5], 1⟩ ⟨[], 0⟩ = ⟨[5], 1⟩ ∧
      superlong_add_aliased ⟨[123], 1⟩ ⟨[200, 1], 1⟩ = ⟨[67, 2], 0⟩ ∧
      superlong_add ⟨[123], 1⟩ ⟨[200, 1], 1⟩ = ⟨[67, 2], 1⟩ ∧
      superlong_add_uint_aliased ⟨[232, 3], 1⟩ 234 = ⟨[234], 1⟩ ∧
      superlong_add_uint ⟨[232, 3], 1⟩ 234 = ⟨[210, 4], 1⟩ ∧
      superlong_mul_aliased ⟨[12], 1⟩ ⟨[13], 1⟩ = ⟨[], -1⟩ ∧
      superlong_mul ⟨[12], 1⟩ ⟨[13], 1⟩ = ⟨[156], 1⟩ := by
  decide

/-- C17 (the claim as stated fails): `superlong_from_uint(0)` leaves an empty
digit sequence, not the single digit 0, and so does `5 + (-5)`. -/
theorem zero_result_is_empty :
    (superlong_from_uint 0).digits.length = 0 ∧ (superlong_from_uint 0).digits ≠ [0] ∧
      canonical ⟨[5], 1⟩ ∧ canonical ⟨[5], -1⟩ ∧
      superlong_add ⟨[5], 1⟩ ⟨[5], -1⟩ = ⟨[], 0⟩ := by
  decide

/-- C17 (amended): applied to canonical operands with a distinct destination,
every constructor and operation leaves a result that has at least one digit
unless its sign is 0, and a zero result, by magnitude or by sign, is the empty
sequence or the single digit 0, with sign 0.  This holds for `superlong_init`,
`superlong_from_uint`, `superlong_from_int`, `superlong_copy`, `add`, `sub`,
`add_uint`, `mul_uint`, `mul` at every length, `sub_uint` unless both operands
are zero, `div_uint` with a nonzero scalar, which returns, unless a one-digit
number is divided by 256, and `div` with a nonzero divisor unless a one-digit
number is divided by 256: it returns such a result whenever each binary search
is given 8 iterations, or it returns for no iteration bound; it always returns
when it runs no search.  In the cases left out, a result of magnitude zero is
still the empty sequence or the single digit 0. -/
theorem results_zero_form (a b : superlong) (n : Nat) (m : Int) (res : superlong)
    (ha : canonical a) (hb : canonical b) (hn : n < 2 ^ 32) (hlo : -32768 ≤ m)
    (hhi : m ≤ 32767) :
    zero_form superlong_init ∧ zero_form (superlong_from_uint n) ∧
      zero_form (superlong_from_int m) ∧ zero_form (superlong_copy a) ∧
      zero_form (superlong_add a b) ∧ zero_form (superlong_sub a b) ∧
      zero_form (superlong_add_uint a n) ∧ zero_form (superlong_mul_uint a n) ∧
      zero_form (superlong_mul a b) ∧
      (a.sign ≠ 0 ∨ n ≠ 0 → zero_form (superlong_sub_uint a n)) ∧
      (n ≠ 0 → ¬ (n = 256 ∧ a.digits.length = 1) →
        ∃ r, superlong_div_uint a n res = Outcome.returned r ∧ zero_form r) ∧
      (b.sign ≠ 0 → ¬ (b.digits = [0, 1] ∧ a.digits.length = 1) →
        (∃ r, (∀ fuel, 8 ≤ fuel → superlong_div fuel a b res = Outcome.returned r) ∧
            zero_form r) ∨
          (∀ fuel, superlong_div fuel a b res = Outcome.hang)) ∧
      (b.sign ≠ 0 →
        a.sign = 0 ∨ b.digits.length ≤ 4 ∨ magnitude a.digits < magnitude b.digits →
        ∃ r, ∀ fuel, superlong_div fuel a b res = Outcome.returned r) ∧
      zero_digits_form (superlong_sub_uint a n) ∧
      (n ≠ 0 → ∃ r, superlong_div_uint a n res = Outcome.returned r ∧ zero_digits_form r) ∧
      (b.sign ≠ 0 →
        (∃ r, (∀ fuel, 8 ≤ fuel → superlong_div fuel a b res = Outcome.returned r) ∧
            zero_digits_form r) ∨
          (∀ fuel, superlong_div fuel a b res = Outcome.hang)) := by
  have hla := canonical_no_leading_zero a ha
  refine ⟨canonical_zero_form _ init_canonical, canonical_zero_form _ (from_uint_spec n).1,
    canonical_zero_form _ (from_int_spec m hlo hhi).1, by rw [copy_eq]; exact canonical_zero_form _ ha,
    canonical_zero_form _ (add_spec a b ha hb).1, canonical_zero_form _ (sub_spec a b ha hb).1,
    canonical_zero_form _ (add_uint_canonical a n ha),
    canonical_zero_form _ (mul_uint_spec a n ha hn).1,
    canonical_zero_form _ (mul_canonical a b ha hb),
    fun h => canonical_zero_form _ (sub_uint_canonical a n ha h), ?_, ?_,
    fun hb0 h => div_returns_without_search a b res ha hb hb0 h,
    no_leading_zero_zero_digits_form _ (sub_uint_no_leading_zero a n hla), ?_, ?_⟩
  · intro hn0 hslip
    obtain ⟨r, h1, h2⟩ := div_uint_canonical a n res ha hn0 hn hslip
    exact ⟨r, h1, canonical_zero_form _ h2⟩
  · intro hb0 hslip
    exact div_result_or_hangs zero_form a b res hb hb0
      (fun r h => canonical_zero_form _ (div_canonical 8 a b res r ha hb hslip h))
  · intro hn0
    obtain ⟨r, hr⟩ := div_uint_returned a n res hn0
    exact ⟨r, hr, no_leading_zero_zero_digits_form _ (div_uint_no_leading_zero a n res r hla hr)⟩
  · intro hb0
    exact div_result_or_hangs zero_digits_form a b res hb hb0
      (fun r h => no_leading_zero_zero_digits_form _ (div_no_leading_zero 8 a b res r hla h))

theorem results_zero_form_witness :
    canonical ⟨[100], 1⟩ ∧ canonical ⟨[100], -1⟩ ∧ zero_form (superlong_add ⟨[100], 1⟩ ⟨[100], -1⟩) ∧
      zero_form (superlong_from_uint 0) :=
  ⟨by decide, by decide,
    (results_zero_form ⟨[100], 1⟩ ⟨[100], -1⟩ 0 0 superlong_init (by decide) (by decide)
      (by decide) (by decide) (by decide)).2.2.2.2.1,
    (results_zero_form ⟨[100], 1⟩ ⟨[100], -1⟩ 0 0 superlong_init (by decide) (by decide)
      (by decide) (by decide) (by decide)).2.1⟩

/-- C18 (defect in the code): `superlong_div_uint(5, 256)` leaves an empty digit
buffer, of magnitude zero, with sign +1, and `superlong_sub_uint(0, 0)` leaves
an empty digit buffer with sign -1: a nonzero sign on a result of magnitude
zero. -/
theorem zero_magnitude_nonzero_sign (res : superlong) :
    canonical ⟨[5], 1⟩ ∧
      superlong_div_uint ⟨[5], 1⟩ 256 res = Outcome.returned ⟨[], 1⟩ ∧
      magnitude ([] : List Nat) = 0 ∧
      canonical ⟨[0], 0⟩ ∧ superlong_sub_uint ⟨[0], 0⟩ 0 = ⟨[], -1⟩ :=
  ⟨by decide, rfl, rfl, by decide, by decide⟩

/-- C19 (defect in the code): applied to canonical operands with a distinct
destination, `add`, `sub`, `mul`, `add_uint`, `sub_uint`, `mul_uint`, `div_uint`
with a nonzero scalar and `superlong_factorial` return a digit sequence with no
most-significant zero digit, other than a lone zero digit.  `superlong_div` with
a nonzero divisor returns such a result whenever each binary search is given 8
iterations, or it returns for no iteration bound; it always returns when it
runs no search.  Dividing `255 * 256 ^ 4` by `256 ^ 4` is a call that never
returns, so that no result is left at all. -/
theorem results_no_leading_zero (a b : superlong) (n k fuel : Nat) (res : superlong)
    (ha : canonical a) (hb : canonical b) (hn : n ≠ 0) (hk : k < 2 ^ 32 - 1)
    (hfuel : k ≤ fuel) :
    no_leading_zero (superlong_add a b).digits ∧ no_leading_zero (superlong_sub a b).digits ∧
      no_leading_zero (superlong_mul a b).digits ∧
      no_leading_zero (superlong_add_uint a n).digits ∧
      no_leading_zero (superlong_sub_uint a n).digits ∧
      no_leading_zero (superlong_mul_uint a n).digits ∧
      no_leading_zero (superlong_add_uint a 0).digits ∧
      no_leading_zero (superlong_sub_uint a 0).digits ∧
      no_leading_zero (superlong_mul_uint a 0).digits ∧
      (∃ r, superlong_div_uint a n res = Outcome.returned r ∧ no_leading_zero r.digits) ∧
      (b.sign ≠ 0 →
        (∃ r, (∀ f, 8 ≤ f → superlong_div f a b res = Outcome.returned r) ∧
            no_leading_zero r.digits) ∨
          (∀ f, superlong_div f a b res = Outcome.hang)) ∧
      (b.sign ≠ 0 →
        a.sign = 0 ∨ b.digits.length ≤ 4 ∨ magnitude a.digits < magnitude b.digits →
        ∃ r, (∀ f, superlong_div f a b res = Outcome.returned r) ∧
          no_leading_zero r.digits) ∧
      (∃ r, superlong_factorial fuel k = some r ∧ no_leading_zero r.digits) ∧
      canonical ⟨[0, 0, 0, 0, 255], 1⟩ ∧ canonical ⟨[0, 0, 0, 0, 1], 1⟩ ∧
      (∀ f res2, superlong_div f ⟨[0, 0, 0, 0, 255], 1⟩ ⟨[0, 0, 0, 0, 1], 1⟩ res2 =
        Outcome.hang) := by
  have hla := canonical_no_leading_zero a ha
  refine ⟨add_no_leading_zero a b ha hb, sub_no_leading_zero a b ha hb, mul_no_leading_zero a b,
    add_uint_no_leading_zero a n hla, sub_uint_no_leading_zero a n hla,
    mul_uint_no_leading_zero a n hla, add_uint_no_leading_zero a 0 hla,
    sub_uint_no_leading_zero a 0 hla, mul_uint_no_leading_zero a 0 hla, ?_, ?_, ?_, ?_,
    by decide, by decide, fun f res2 => superlong_div_255_never_returns f res2⟩
  · obtain ⟨r, hr⟩ := div_uint_returned a n res hn
    exact ⟨r, hr, div_uint_no_leading_zero a n res r hla hr⟩
  · intro hb0
    exact div_result_or_hangs (fun r => no_leading_zero r.digits) a b res hb hb0
      (fun r h => div_no_leading_zero 8 a b res r hla h)
  · intro hb0 h
    obtain ⟨r, hr⟩ := div_returns_without_search a b res ha hb hb0 h
    exact ⟨r, hr, div_no_leading_zero 8 a b res r hla (hr 8)⟩
  · obtain ⟨r, hr, _⟩ := factorial_spec fuel k hk hfuel
    exact ⟨r, hr, factorial_no_leading_zero fuel k r hr⟩

theorem results_no_leading_zero_witness :
    canonical ⟨[0, 0, 0, 0, 1, 1], 1⟩ ∧ canonical ⟨[0, 0, 0, 0, 1], 1⟩ ∧
      no_leading_zero
        (superlong_mul ⟨[0, 0, 0, 0, 1, 1], 1⟩ ⟨[0, 0, 0, 0, 1], 1⟩).digits ∧
      ∀ f res2, superlong_div f ⟨[0, 0, 0, 0, 255], 1⟩ ⟨[0, 0, 0, 0, 1], 1⟩ res2 =
        Outcome.hang :=
  ⟨by decide, by decide,
    (results_no_leading_zero ⟨[0, 0, 0, 0, 1, 1], 1⟩ ⟨[0, 0, 0, 0, 1], 1⟩ 7 20 20 superlong_init
      (by decide) (by decide) (by decide) (by decide) (by decide)).2.2.1,
    (results_no_leading_zero ⟨[0, 0, 0, 0, 1, 1], 1⟩ ⟨[0, 0, 0, 0, 1], 1⟩ 7 20 20 superlong_init
      (by decide) (by decide) (by decide) (by decide)
      (by decide)).2.2.2.2.2.2.2.2.2.2.2.2.2.2.2⟩

/-- C20 (defect in the code): for a zero `a` (the single digit 0 left by
`superlong_init`, or the empty buffer, with sign 0) `superlong_sub_uint(a, 0)`
leaves sign -1, not the sign 0 of `a`, and `superlong_is_zero` does not
recognise the result; the branch `a->sign == 0` assigns `res->sign = -1` without
looking at `b`. -/
theorem superlong_sub_uint_zero_zero_wrong :
    canonical superlong_init ∧ superlong_sub_uint superlong_init 0 = ⟨[], -1⟩ ∧
      (superlong_sub_uint superlong_init 0).sign ≠ superlong_init.sign ∧
      superlong_is_zero (superlong_sub_uint superlong_init 0) = false ∧
      canonical ⟨[], 0⟩ ∧ superlong_sub_uint ⟨[], 0⟩ 0 = ⟨[], -1⟩ := by
  decide

/-- C21: for canonical `a`, adding `a` to the negation of a copy of `a` (in
either operand order) leaves a number of sign 0 and value 0 on which
`superlong_is_zero` returns 1; `superlong_negate` flips the sign of a nonzero
number, never changes the digits, and leaves zero as it is. -/
theorem add_negation_is_zero (a : superlong) (ha : canonical a) :
    (superlong_add (superlong_negate (superlong_copy a)) a).sign = 0 ∧
      superlong_is_zero (superlong_add (superlong_negate (superlong_copy a)) a) = true ∧
      value (superlong_add (superlong_negate (superlong_copy a)) a) = 0 ∧
      (superlong_add a (superlong_negate (superlong_copy a))).sign = 0 ∧
      superlong_is_zero (superlong_add a (superlong_negate (superlong_copy a))) = true ∧
      (a.sign ≠ 0 → (superlong_negate a).sign = -a.sign ∧ (superlong_negate a).sign ≠ a.sign) ∧
      (superlong_negate a).digits = a.digits ∧
      (a.sign = 0 → superlong_negate a = a) := by
  rw [copy_eq]
  obtain ⟨hn, hv⟩ := negate_spec a ha
  obtain ⟨c1, v1⟩ := add_spec (superlong_negate a) a hn ha
  obtain ⟨c2, v2⟩ := add_spec a (superlong_negate a) ha hn
  rw [hv] at v1 v2
  have z1 : value (superlong_add (superlong_negate a) a) = 0 := by rw [v1]; omega
  have z2 : value (superlong_add a (superlong_negate a)) = 0 := by rw [v2]; omega
  have s1 := canonical_value_zero_sign _ c1 z1
  have s2 := canonical_value_zero_sign _ c2 z2
  refine ⟨s1, is_zero_of_sign_zero _ s1, z1, s2, is_zero_of_sign_zero _ s2, ?_,
    negate_digits a, ?_⟩
  · intro h0
    refine ⟨negate_sign a, ?_⟩
    rw [negate_sign a]
    omega
  · intro h0
    unfold superlong_negate
    simp [h0]

theorem add_negation_is_zero_witness :
    canonical ⟨[44, 1], -1⟩ ∧
      (superlong_add (superlong_negate (superlong_copy ⟨[44, 1], -1⟩)) ⟨[44, 1], -1⟩).sign = 0 ∧
      superlong_is_zero
        (superlong_add (superlong_negate (superlong_copy ⟨[44, 1], -1⟩)) ⟨[44, 1], -1⟩) = true :=
  ⟨by decide, (add_negation_is_zero ⟨[44, 1], -1⟩ (by decide)).1,
    (add_negation_is_zero ⟨[44, 1], -1⟩ (by decide)).2.1⟩

/-- C22: for canonical `a` and `b` of any digit length, `superlong_mul(negate(a), b)`
leaves the digits of `superlong_mul(a, b)` and the opposite sign; both results
are the empty buffer with sign 0 when an operand is zero; for nonzero operands
the digits of the product are the same for every choice of operand signs, the
product is nonzero, and its sign is +1 when the operand signs agree and -1 when
they differ. -/
theorem superlong_mul_negate (a b : superlong) (ha : canonical a) (hb : canonical b) :
    (superlong_mul (superlong_negate a) b).digits = (superlong_mul a b).digits ∧
      (superlong_mul (superlong_negate a) b).sign = -(superlong_mul a b).sign ∧
      (a.sign = 0 ∨ b.sign = 0 →
        superlong_mul a b = ⟨[], 0⟩ ∧ superlong_mul (superlong_negate a) b = ⟨[], 0⟩) ∧
      (a.sign ≠ 0 → b.sign ≠ 0 →
        (superlong_mul a b).sign = (if a.sign = b.sign then 1 else -1) ∧
          magnitude (superlong_mul a b).digits ≠ 0 ∧
          ∀ a2 b2 : superlong, a2.digits = a.digits → b2.digits = b.digits →
            a2.sign ≠ 0 → b2.sign ≠ 0 →
            (superlong_mul a2 b2).digits = (superlong_mul a b).digits) := by
  obtain ⟨h1, h2⟩ := mul_negate_left a b ha hb
  refine ⟨h1, h2, fun h0 => ?_, fun ha0 hb0 => ?_⟩
  · have hn : (superlong_negate a).sign = 0 ∨ b.sign = 0 := by
      rcases h0 with h | h
      · left
        rw [negate_sign, h]
        rfl
      · exact Or.inr h
    unfold superlong_mul
    rw [if_pos h0, if_pos hn]
    exact ⟨rfl, rfl⟩
  · obtain ⟨s1, s2, _⟩ := mul_sign a b ha hb ha0 hb0
    exact ⟨s1, s2, fun a2 b2 e1 e2 n1 n2 => mul_digits_sign_free a b a2 b2 e1 e2 ha0 hb0 n1 n2⟩

theorem superlong_mul_negate_witness :
    canonical ⟨[1, 2, 3, 4, 5, 6, 7, 8, 9, 10, 11, 12, 13, 14, 15, 16, 17], 1⟩ ∧
      canonical ⟨[9, 0, 0, 0, 0, 0, 0, 0, 0, 0, 0, 0, 0, 0, 0, 200], 1⟩ ∧
      (superlong_mul
          (superlong_negate ⟨[1, 2, 3, 4, 5, 6, 7, 8, 9, 10, 11, 12, 13, 14, 15, 16, 17], 1⟩)
          ⟨[9, 0, 0, 0, 0, 0, 0, 0, 0, 0, 0, 0, 0, 0, 0, 200], 1⟩).sign =
        -(superlong_mul ⟨[1, 2, 3, 4, 5, 6, 7, 8, 9, 10, 11, 12, 13, 14, 15, 16, 17], 1⟩
          ⟨[9, 0, 0, 0, 0, 0, 0, 0, 0, 0, 0, 0, 0, 0, 0, 200], 1⟩).sign :=
  ⟨by decide, by decide,
    (superlong_mul_negate ⟨[1, 2, 3, 4, 5, 6, 7, 8, 9, 10, 11, 12, 13, 14, 15, 16, 17], 1⟩
      ⟨[9, 0, 0, 0, 0, 0, 0, 0, 0, 0, 0, 0, 0, 0, 0, 200], 1⟩ (by decide) (by decide)).2.1⟩

/-- C23: for canonical `a` and `b`, `superlong_sub(superlong_add(a, b), b)` with
distinct destinations leaves a canonical number with the sign of `a` and the
magnitude of `a`. -/
theorem add_then_sub_inverse (a b : superlong) (ha : canonical a) (hb : canonical b) :
    (superlong_sub (superlong_add a b) b).sign = a.sign ∧
      magnitude (superlong_sub (superlong_add a b) b).digits = magnitude a.digits ∧
      canonical (superlong_sub (superlong_add a b) b) := by
  obtain ⟨c1, v1⟩ := add_spec a b ha hb
  obtain ⟨c2, v2⟩ := sub_spec (superlong_add a b) b c1 hb
  have hv : value (superlong_sub (superlong_add a b) b) = value a := by
    rw [v2, v1]
    omega
  obtain ⟨e1, e2⟩ := canonical_value_inj _ a c2 ha hv
  exact ⟨e1, e2, c2⟩

theorem add_then_sub_inverse_witness :
    canonical ⟨[50], -1⟩ ∧ canonical ⟨[30, 2], 1⟩ ∧
      (superlong_sub (superlong_add ⟨[50], -1⟩ ⟨[30, 2], 1⟩) ⟨[30, 2], 1⟩).sign = -1 ∧
      magnitude (superlong_sub (superlong_add ⟨[50], -1⟩ ⟨[30, 2], 1⟩) ⟨[30, 2], 1⟩).digits =
        magnitude [50] :=
  ⟨by decide, by decide,
    (add_then_sub_inverse ⟨[50], -1⟩ ⟨[30, 2], 1⟩ (by decide) (by decide)).1,
    (add_then_sub_inverse ⟨[50], -1⟩ ⟨[30, 2], 1⟩ (by decide) (by decide)).2.1⟩

/-- C24: for canonical `a` and `b` of any digit lengths, on the schoolbook and on
the Karatsuba path, `superlong_mul(a, b)` and `superlong_mul(b, a)` leave the
same sign and the same digits. -/
theorem superlong_mul_commutes (a b : superlong) (ha : canonical a) (hb : canonical b) :
    (superlong_mul a b).sign = (superlong_mul b a).sign ∧
      (superlong_mul a b).digits = (superlong_mul b a).digits := by
  have h : superlong_mul a b = superlong_mul b a := by
    unfold superlong_mul
    by_cases h0 : a.sign = 0 ∨ b.sign = 0
    · rw [if_pos h0, if_pos (Or.symm h0)]
    · rw [if_neg h0, if_neg (fun h => h0 (Or.symm h))]
      rw [mul_karatsuba_comm a b ha.1 hb.1
        (canonical_ne_nil a ha (fun h => h0 (Or.inl h)))
        (canonical_ne_nil b hb (fun h => h0 (Or.inr h)))]
      have hs : (if a.sign = b.sign then (1 : Int) else -1) =
          (if b.sign = a.sign then 1 else -1) := by
        by_cases h : a.sign = b.sign
        · rw [if_pos h, if_pos h.symm]
        · rw [if_neg h, if_neg (fun h2 => h h2.symm)]
      rw [hs]
  rw [h]
  exact ⟨rfl, rfl⟩

theorem superlong_mul_commutes_witness :
    canonical ⟨[1, 2, 3, 4, 5, 6, 7, 8, 9, 10, 11, 12, 13, 14, 15, 16, 17], 1⟩ ∧
      canonical ⟨[9, 0, 0, 0, 0, 0, 0, 0, 0, 0, 0, 0, 0, 0, 0, 200], -1⟩ ∧
      (superlong_mul ⟨[1, 2, 3, 4, 5, 6, 7, 8, 9, 10, 11, 12, 13, 14, 15, 16, 17], 1⟩
          ⟨[9, 0, 0, 0, 0, 0, 0, 0, 0, 0, 0, 0, 0, 0, 0, 200], -1⟩).digits =
        (superlong_mul ⟨[9, 0, 0, 0, 0, 0, 0, 0, 0, 0, 0, 0, 0, 0, 0, 200], -1⟩
          ⟨[1, 2, 3, 4, 5, 6, 7, 8, 9, 10, 11, 12, 13, 14, 15, 16, 17], 1⟩).digits :=
  ⟨by decide, by decide,
    (superlong_mul_commutes ⟨[1, 2, 3, 4, 5, 6, 7, 8, 9, 10, 11, 12, 13, 14, 15, 16, 17], 1⟩
      ⟨[9, 0, 0, 0, 0, 0, 0, 0, 0, 0, 0, 0, 0, 0, 0, 200], -1⟩ (by decide) (by decide)).2⟩

/-- C25 (defect in the code): for canonical nonzero `a` of at most 4 digits,
`superlong_div(a, a)` takes the scalar fast path and leaves the single digit 1
with the sign of `a`; so for negative `a` the quotient is -1, not +1.  On the
long-division path, taken by the five-digit negative number shown, the
quotient of `a` by itself is +1. -/
theorem superlong_div_self_fast_path (fuel : Nat) (a res : superlong) (ha : canonical a)
    (h0 : a.sign ≠ 0) (hlen : a.digits.length ≤ 4) :
    superlong_div fuel a a res = Outcome.returned ⟨[1], a.sign⟩ ∧
      superlong_div (fuel + 8) ⟨[1, 2, 3, 4, 5], -1⟩ ⟨[1, 2, 3, 4, 5], -1⟩ res =
        Outcome.returned ⟨[1], 1⟩ :=
  ⟨div_self_fast_path fuel a res ha h0 hlen,
    superlong_div_mono 8 (fuel + 8) (by omega) _ _ res _ rfl⟩

theorem superlong_div_self_fast_path_witness :
    canonical ⟨[5], -1⟩ ∧ (⟨[5], -1⟩ : superlong).sign ≠ 0 ∧
      (⟨[5], -1⟩ : superlong).digits.length ≤ 4 ∧
      superlong_div 0 ⟨[5], -1⟩ ⟨[5], -1⟩ superlong_init = Outcome.returned ⟨[1], -1⟩ ∧
      value ⟨[1], -1⟩ = -1 :=
  ⟨by decide, by decide, by decide,
    (superlong_div_self_fast_path 0 ⟨[5], -1⟩ superlong_init (by decide) (by decide)
      (by decide)).1,
    by decide⟩

/-- C26 (defect in the code): for `a = -7` and for `a = 7` with `b = 256`,
where `|a| < |b|`, `superlong_div` leaves an empty digit buffer with the sign of
the quotient still nonzero; `superlong_is_zero` returns 0 on it and
`superlong_to_decimal_str` fills its whole scratch buffer without reaching the
end of its loop, so it renders nothing. -/
theorem superlong_div_small_by_256_not_zero (fuel : Nat) (res : superlong) :
    canonical ⟨[7], -1⟩ ∧ canonical ⟨[7], 1⟩ ∧ canonical ⟨[0, 1], 1⟩ ∧
      (value ⟨[7], -1⟩).natAbs < (value ⟨[0, 1], 1⟩).natAbs ∧
      superlong_div fuel ⟨[7], -1⟩ ⟨[0, 1], 1⟩ res = Outcome.returned ⟨[], -1⟩ ∧
      superlong_div fuel ⟨[7], 1⟩ ⟨[0, 1], 1⟩ res = Outcome.returned ⟨[], 1⟩ ∧
      superlong_is_zero ⟨[], -1⟩ = false ∧ superlong_is_zero ⟨[], 1⟩ = false ∧
      superlong_to_decimal_str ⟨[], -1⟩ = none ∧ superlong_to_decimal_str ⟨[], 1⟩ = none :=
  ⟨by decide, by decide, by decide, by decide, rfl, rfl, by decide, by decide, by decide,
    by decide⟩

/-- C27 (counterexample): the parameter of `superlong_from_int` is an `int16_t`,
so the argument 100000, inside the signed 32-bit range, arrives as -31072 and
the number left has value -31072, not 100000. -/
theorem superlong_from_int_out_of_int16 :
    (-2147483648 : Int) ≤ 100000 ∧ (100000 : Int) ≤ 2147483647 ∧
      int16_arg 100000 = -31072 ∧
      superlong_from_int_call 100000 = ⟨[96, 121], -1⟩ ∧
      value (superlong_from_int_call 100000) = -31072 ∧
      value (superlong_from_int_call 100000) ≠ 100000 := by
  decide

/-- C27 (amended): for every `n` in the range of the `int16_t` parameter,
`-32768 ≤ n ≤ 32767`, the argument conversion keeps `n` and
`superlong_from_int(n)` leaves a canonical number whose value is `n`; and for
every unsigned 32-bit `u`, `superlong_from_uint(u)` leaves a canonical number
of value `u` whose digits are the little-endian base-256 digits of `u`, each a
byte, with no most-significant zero digit.  For an argument `m` of any size the
value left is the converted argument, which is `m` exactly in that range. -/
theorem superlong_from_int16_value (n : Int) (hlo : -32768 ≤ n) (hhi : n ≤ 32767) :
    int16_arg n = n ∧ superlong_from_int_call n = superlong_from_int n ∧
      canonical (superlong_from_int n) ∧ value (superlong_from_int n) = n ∧
      (∀ u : Nat, u < 2 ^ 32 →
        canonical (superlong_from_uint u) ∧ value (superlong_from_uint u) = u ∧
          magnitude (superlong_from_uint u).digits = u ∧
          digits_ok (superlong_from_uint u).digits ∧
          no_leading_zero (superlong_from_uint u).digits) ∧
      (∀ m : Int, value (superlong_from_int_call m) = int16_arg m ∧
        (value (superlong_from_int_call m) = m ↔ -32768 ≤ m ∧ m ≤ 32767)) := by
  have hconv : int16_arg n = n := (int16_arg_range n).2.2.mpr ⟨hlo, hhi⟩
  refine ⟨hconv, by unfold superlong_from_int_call; rw [hconv],
    (from_int_spec n hlo hhi).1, from_int_value n hlo hhi, ?_, ?_⟩
  · intro u _
    obtain ⟨d1, d2, _⟩ := from_uint_spec u
    exact ⟨d1, from_uint_value u, d2, d1.1, d1.2.2.2⟩
  · intro m
    obtain ⟨r1, r2, r3⟩ := int16_arg_range m
    have hv : value (superlong_from_int_call m) = int16_arg m := by
      unfold superlong_from_int_call
      exact from_int_value _ r1 r2
    exact ⟨hv, by rw [hv]; exact r3⟩

theorem superlong_from_int16_value_witness :
    (-32768 : Int) ≤ -30000 ∧ (-30000 : Int) ≤ 32767 ∧
      canonical (superlong_from_int (-30000)) ∧ value (superlong_from_int (-30000)) = -30000 :=
  ⟨by decide, by decide,
    (superlong_from_int16_value (-30000) (by decide) (by decide)).2.2.1,
    (superlong_from_int16_value (-30000) (by decide) (by decide)).2.2.2.1⟩

/-- C28: for canonical `a`, `superlong_div_uint(superlong_mul_uint(a, 256), 256)`
returns and leaves a number with the sign of `a` and the magnitude of `a`. -/
theorem superlong_div_uint_256_inverts_mul_uint_256 (a res : superlong) (ha : canonical a) :
    ∃ r, superlong_div_uint (superlong_mul_uint a 256) 256 res = Outcome.returned r ∧
      r.sign = a.sign ∧ magnitude r.digits = magnitude a.digits :=
  div_uint_mul_uint_256 a res ha

theorem superlong_div_uint_256_inverts_mul_uint_256_witness :
    canonical ⟨[7, 3], -1⟩ ∧
      ∃ r, superlong_div_uint (superlong_mul_uint ⟨[7, 3], -1⟩ 256) 256 superlong_init =
          Outcome.returned r ∧
        r.sign = -1 ∧ magnitude r.digits = magnitude [7, 3] :=
  ⟨by decide, superlong_div_uint_256_inverts_mul_uint_256 ⟨[7, 3], -1⟩ superlong_init (by decide)⟩

/-- C29: for nonzero canonical `a` and `b` whose shorter operand has fewer than
16 digits, `superlong_mul` runs `superlong_mul_simple`, the magnitude of its
result is the product of the magnitudes (and its value the product of the
values), and in every row of the schoolbook loop each partial product plus
carry stays below 2^32. -/
theorem superlong_mul_schoolbook_exact (a b : superlong) (ha : canonical a) (hb : canonical b)
    (ha0 : a.sign ≠ 0) (hb0 : b.sign ≠ 0)
    (hlen : min a.digits.length b.digits.length < 16) :
    superlong_mul_karatsuba a b = superlong_mul_simple a b ∧
      magnitude (superlong_mul a b).digits = magnitude a.digits * magnitude b.digits ∧
      magnitude (superlong_mul a b).digits = (value a).natAbs * (value b).natAbs ∧
      value (superlong_mul a b) = value a * value b ∧
      (∀ a_digit ∈ a.digits, mul_simple_row_fits a_digit b.digits 0 = true) := by
  obtain ⟨m1, v1, _⟩ := mul_small_spec a b ha hb ha0 hb0 hlen
  refine ⟨mul_karatsuba_small a b hlen, m1, ?_, v1, ?_⟩
  · rw [canonical_natAbs a ha, canonical_natAbs b hb]
    exact m1
  · intro d hd
    exact mul_simple_row_fits_spec d b.digits 0 (ha.1 d hd) hb.1 (by omega)

theorem superlong_mul_schoolbook_exact_witness :
    canonical ⟨[255, 255, 255], -1⟩ ∧
      canonical ⟨[255, 255, 255, 255, 255, 255, 255, 255, 255, 255, 255, 255, 255, 255, 255,
        255, 255, 255], 1⟩ ∧
      magnitude (superlong_mul ⟨[255, 255, 255], -1⟩
        ⟨[255, 255, 255, 255, 255, 255, 255, 255, 255, 255, 255, 255, 255, 255, 255,
          255, 255, 255], 1⟩).digits =
        magnitude [255, 255, 255] *
          magnitude [255, 255, 255, 255, 255, 255, 255, 255, 255, 255, 255, 255, 255, 255, 255,
            255, 255, 255] :=
  ⟨by decide, by decide,
    (superlong_mul_schoolbook_exact ⟨[255, 255, 255], -1⟩
      ⟨[255, 255, 255, 255, 255, 255, 255, 255, 255, 255, 255, 255, 255, 255, 255,
        255, 255, 255], 1⟩ (by decide) (by decide) (by decide) (by decide) (by decide)).2.1⟩

/-- C30 (defect in the code): on the empty digit buffer with sign +1 or -1
`superlong_normalize` changes nothing, so the magnitude left is zero and the
sign is not 0.  For every state the magnitude is unchanged and no
most-significant zero digit is left other than a lone zero digit, and when at
least one digit is stored a zero magnitude does force the sign to 0. -/
theorem superlong_normalize_empty_keeps_sign :
    superlong_normalize ⟨[], 1⟩ = ⟨[], 1⟩ ∧ superlong_normalize ⟨[], -1⟩ = ⟨[], -1⟩ ∧
      magnitude (superlong_normalize ⟨[], 1⟩).digits = 0 ∧
      (superlong_normalize ⟨[], 1⟩).sign ≠ 0 ∧
      (∀ s : superlong,
        magnitude (superlong_normalize s).digits = magnitude s.digits ∧
          no_leading_zero (superlong_normalize s).digits ∧
          (s.digits ≠ [] → magnitude (superlong_normalize s).digits = 0 →
            (superlong_normalize s).sign = 0)) := by
  refine ⟨by decide, by decide, by decide, by decide, fun s => ?_⟩
  refine ⟨normalize_magnitude s, normalize_no_leading_zero s, fun hn hm => ?_⟩
  rw [normalize_magnitude] at hm
  exact normalize_zero_sign s hn hm

/-- C31: for byte sequences `a` and `b` with no most-significant zero digit (the
empty sequence included), `superlong_abs_compare(a, b)` is 1, 0 or -1 exactly
when the magnitude of `a` is greater than, equal to or less than that of `b`,
and the result does not depend on the two signs.  The lone zero digit, which
has a most-significant zero, is outside this: it compares greater than the
empty sequence. -/
theorem superlong_abs_compare_orders_magnitudes (a b : superlong) (ha : digits_ok a.digits)
    (hb : digits_ok b.digits) (hla : a.digits.getLast? ≠ some 0)
    (hlb : b.digits.getLast? ≠ some 0) :
    (superlong_abs_compare a b = 1 ↔ magnitude b.digits < magnitude a.digits) ∧
      (superlong_abs_compare a b = 0 ↔ magnitude a.digits = magnitude b.digits) ∧
      (superlong_abs_compare a b = -1 ↔ magnitude a.digits < magnitude b.digits) ∧
      (∀ sa sb : Int,
        superlong_abs_compare ⟨a.digits, sa⟩ ⟨b.digits, sb⟩ = superlong_abs_compare a b) ∧
      superlong_abs_compare ⟨[0], 0⟩ ⟨[], 0⟩ = 1 := by
  refine ⟨?_, ?_, ?_, fun sa sb => abs_compare_digits a b ⟨a.digits, sa⟩ ⟨b.digits, sb⟩ rfl rfl,
    by decide⟩
  · rcases abs_compare_trimmed a b ha hb hla hlb with ⟨h, hm⟩ | ⟨h, hm⟩ | ⟨h, hm⟩ <;> rw [h]
    · exact ⟨fun _ => hm, fun _ => rfl⟩
    · exact ⟨fun h1 => absurd h1 (by decide), fun h1 => by omega⟩
    · exact ⟨fun h1 => absurd h1 (by decide), fun h1 => by omega⟩
  · rcases abs_compare_trimmed a b ha hb hla hlb with ⟨h, hm⟩ | ⟨h, hm⟩ | ⟨h, hm⟩ <;> rw [h]
    · exact ⟨fun h1 => absurd h1 (by decide), fun h1 => by omega⟩
    · exact ⟨fun _ => hm, fun _ => rfl⟩
    · exact ⟨fun h1 => absurd h1 (by decide), fun h1 => by omega⟩
  · rcases abs_compare_trimmed a b ha hb hla hlb with ⟨h, hm⟩ | ⟨h, hm⟩ | ⟨h, hm⟩ <;> rw [h]
    · exact ⟨fun h1 => absurd h1 (by decide), fun h1 => by omega⟩
    · exact ⟨fun h1 => absurd h1 (by decide), fun h1 => by omega⟩
    · exact ⟨fun _ => hm, fun _ => rfl⟩

theorem superlong_abs_compare_orders_magnitudes_witness :
    digits_ok [1, 2] ∧ digits_ok [255] ∧ ([1, 2] : List Nat).getLast? ≠ some 0 ∧
      ([255] : List Nat).getLast? ≠ some 0 ∧
      (superlong_abs_compare ⟨[1, 2], 1⟩ ⟨[255], -1⟩ = 1 ↔
        magnitude [255] < magnitude [1, 2]) :=
  ⟨by decide, by decide, by decide, by decide,
    (superlong_abs_compare_orders_magnitudes ⟨[1, 2], 1⟩ ⟨[255], -1⟩ (by decide) (by decide)
      (by decide) (by decide)).1⟩

/-- C32 (defect in the code): for a nonzero canonical divisor and a remainder of
any sign whose bytes have no most-significant zero digit, with
`|divisor| ≤ |remainder| < 256 * |divisor|`, the largest `q` in
0..255 with `|divisor| * q ≤ |remainder|` is `|remainder| / |divisor|`; the
binary search returns it, within 8 iterations, when it is at most 254, and
never returns, whatever the iteration bound, when it is 255. -/
theorem bin_find_digit_largest_below_255 (fuel : Nat) (remainder divisor : superlong)
    (hd : canonical divisor) (hd0 : divisor.sign ≠ 0) (hr : digits_ok remainder.digits)
    (hrl : remainder.digits.getLast? ≠ some 0)
    (hlo : magnitude divisor.digits ≤ magnitude remainder.digits)
    (hhi : magnitude remainder.digits < 256 * magnitude divisor.digits) :
    (∀ q, q ≤ 255 → (magnitude divisor.digits * q ≤ magnitude remainder.digits ↔
        q ≤ magnitude remainder.digits / magnitude divisor.digits)) ∧
      magnitude remainder.digits / magnitude divisor.digits ≤ 255 ∧
      (magnitude remainder.digits / magnitude divisor.digits ≤ 254 → 8 ≤ fuel →
        bin_find_digit fuel remainder divisor =
          some (magnitude remainder.digits / magnitude divisor.digits)) ∧
      (magnitude remainder.digits / magnitude divisor.digits = 255 →
        bin_find_digit fuel remainder divisor = none) := by
  have hpos : 0 < magnitude divisor.digits :=
    Nat.pos_of_ne_zero (fun h => hd0 (hd.2.2.1.mpr h))
  obtain ⟨s1, s2⟩ := bin_find_digit_spec fuel remainder divisor hd hd0 hr hrl hlo
  refine ⟨fun q _ => ?_, ?_, s1, fun h => s2 (by omega)⟩
  · rw [Nat.le_div_iff_mul_le hpos, Nat.mul_comm]
  · have : magnitude remainder.digits / magnitude divisor.digits < 256 :=
      (Nat.div_lt_iff_lt_mul hpos).mpr hhi
    omega

theorem bin_find_digit_largest_below_255_witness :
    canonical ⟨[0, 0, 0, 0, 1], 1⟩ ∧ (⟨[0, 0, 0, 0, 1], 1⟩ : superlong).sign ≠ 0 ∧
      digits_ok [0, 0, 0, 0, 255] ∧ ([0, 0, 0, 0, 255] : List Nat).getLast? ≠ some 0 ∧
      magnitude [0, 0, 0, 0, 1] ≤ magnitude [0, 0, 0, 0, 255] ∧
      magnitude [0, 0, 0, 0, 255] < 256 * magnitude [0, 0, 0, 0, 1] ∧
      magnitude [0, 0, 0, 0, 255] / magnitude [0, 0, 0, 0, 1] = 255 ∧
      bin_find_digit 1000 ⟨[0, 0, 0, 0, 255], 1⟩ ⟨[0, 0, 0, 0, 1], 1⟩ = none :=
  ⟨by decide, by decide, by decide, by decide, by decide, by decide, by decide,
    (bin_find_digit_largest_below_255 1000 ⟨[0, 0, 0, 0, 255], 1⟩ ⟨[0, 0, 0, 0, 1], 1⟩
      (by decide) (by decide) (by decide) (by decide) (by decide) (by decide)).2.2.2
      (by decide)⟩

/-- C33 (defect in the code): whenever the trial product `divisor * 255` exceeds
the remainder, the binary search ends after at most 8 trial multiplications.
But dividing `255 * 256 ^ 4` by `256 ^ 4`, `superlong_div` calls the search with
the remainder `255 * 256 ^ 4` and the divisor `256 ^ 4`, where `divisor * 255`
does not exceed the remainder: the search never ends, whatever the iteration
bound, and `superlong_div` never returns. -/
theorem bin_find_digit_eight_trials_unless_255 (remainder divisor : superlong)
    (h255 : ¬ superlong_abs_compare (superlong_mul_uint divisor 255) remainder ≤ 0) :
    (∃ q, bin_find_digit 8 remainder divisor = some q) ∧
      superlong_add (superlong_mul_uint (superlong_add (superlong_mul_uint
        (superlong_add (superlong_mul_uint (superlong_add (superlong_mul_uint
        (superlong_add (superlong_mul_uint (superlong_from_uint 0) 256)
          (superlong_from_uint 255)) 256)
        (superlong_from_uint 0)) 256) (superlong_from_uint 0)) 256) (superlong_from_uint 0)) 256)
        (superlong_from_uint 0) = ⟨[0, 0, 0, 0, 255], 1⟩ ∧
      superlong_abs_compare ⟨[0, 0, 0, 0, 255], 1⟩ ⟨[0, 0, 0, 0, 1], 1⟩ ≥ 0 ∧
      superlong_abs_compare (superlong_mul_uint ⟨[0, 0, 0, 0, 1], 1⟩ 255)
        ⟨[0, 0, 0, 0, 255], 1⟩ ≤ 0 ∧
      (∀ fuel, bin_find_digit fuel ⟨[0, 0, 0, 0, 255], 1⟩ ⟨[0, 0, 0, 0, 1], 1⟩ = none) ∧
      (∀ fuel res, superlong_div fuel ⟨[0, 0, 0, 0, 255], 1⟩ ⟨[0, 0, 0, 0, 1], 1⟩ res =
        Outcome.hang) := by
  refine ⟨?_, by decide, by decide, by decide, fun fuel => ?_,
    fun fuel res => superlong_div_255_never_returns fuel res⟩
  · unfold bin_find_digit
    exact bin_find_digit_loop_terminates remainder divisor h255 8 1 255 0 (le_refl _)
      (le_refl _) (by norm_num)
  · exact (bin_find_digit_spec fuel ⟨[0, 0, 0, 0, 255], 1⟩ ⟨[0, 0, 0, 0, 1], 1⟩ (by decide)
      (by decide) (by decide) (by decide) (by decide)).2 (by decide)

theorem bin_find_digit_eight_trials_unless_255_witness :
    ¬ superlong_abs_compare (superlong_mul_uint ⟨[0, 0, 0, 0, 7], 1⟩ 255)
        ⟨[0, 0, 0, 0, 100], 1⟩ ≤ 0 ∧
      (∃ q, bin_find_digit 8 ⟨[0, 0, 0, 0, 100], 1⟩ ⟨[0, 0, 0, 0, 7], 1⟩ = some q) ∧
      ∀ fuel, bin_find_digit fuel ⟨[0, 0, 0, 0, 255], 1⟩ ⟨[0, 0, 0, 0, 1], 1⟩ = none :=
  ⟨by decide,
    (bin_find_digit_eight_trials_unless_255 ⟨[0, 0, 0, 0, 100], 1⟩ ⟨[0, 0, 0, 0, 7], 1⟩
      (by decide)).1,
    (bin_find_digit_eight_trials_unless_255 ⟨[0, 0, 0, 0, 100], 1⟩ ⟨[0, 0, 0, 0, 7], 1⟩
      (by decide)).2.2.2.2.1⟩

/-- C34: for every pair of operands, when the shorter one has 16 or more digits
each of the three recursive calls of `superlong_mul_karatsuba` is made on a pair
whose shorter operand is strictly shorter than the caller's; hence the
recursion with a budget of `d` nested calls returns, with the result of
`superlong_mul_karatsuba`, as soon as the shorter operand has fewer than
`11 * 2 ^ d + 5` digits, in particular for `d` the length of the shorter
operand, and every depth bound of at least that length gives the same result. -/
theorem superlong_mul_karatsuba_terminates (x y : superlong) :
    (16 ≤ min x.digits.length y.digits.length →
      min (superlong_init.digits ++ x.digits.drop (min x.digits.length y.digits.length / 2)).length
          (superlong_init.digits ++
            y.digits.drop (min x.digits.length y.digits.length / 2)).length <
          min x.digits.length y.digits.length ∧
        min (superlong_init.digits ++
            x.digits.take (min x.digits.length y.digits.length / 2)).length
          (superlong_init.digits ++
            y.digits.take (min x.digits.length y.digits.length / 2)).length <
          min x.digits.length y.digits.length ∧
        min
          (superlong_add
            { digits := superlong_init.digits ++
                x.digits.drop (min x.digits.length y.digits.length / 2), sign := 1 }
            { digits := superlong_init.digits ++
                x.digits.take (min x.digits.length y.digits.length / 2),
              sign := 1 }).digits.length
          (superlong_add
            { digits := superlong_init.digits ++
                y.digits.drop (min x.digits.length y.digits.length / 2), sign := 1 }
            { digits := superlong_init.digits ++
                y.digits.take (min x.digits.length y.digits.length / 2),
              sign := 1 }).digits.length <
          min x.digits.length y.digits.length) ∧
      (∀ d, min x.digits.length y.digits.length < 11 * 2 ^ d + 5 →
        mul_karatsuba_fuel d x y = some (superlong_mul_karatsuba x y)) ∧
      mul_karatsuba_fuel (min x.digits.length y.digits.length) x y =
        some (superlong_mul_karatsuba x y) ∧
      (∀ d, min x.digits.length y.digits.length ≤ d →
        mul_karatsuba_depth d x y = superlong_mul_karatsuba x y) := by
  refine ⟨karatsuba_calls_decrease x y, fun d hd => mul_karatsuba_fuel_enough d x y hd, ?_,
    fun d hd => mul_karatsuba_depth_eq d x y hd⟩
  apply mul_karatsuba_fuel_enough
  have := Nat.lt_two_pow (min x.digits.length y.digits.length)
  omega

/-- C35: for canonical nonzero `a` with `L` digits, the divide-by-ten loop of
`superlong_to_decimal_str` ends with every write inside the scratch buffer of
`3 * L + 10` bytes, having produced at most that many decimal digits, and the
function returns a string; in `superlong_div_uint10`, on any sequence of
bytes, every `digit + remainder * 256` is at most 2559 and every new digit at
most 255. -/
theorem superlong_to_decimal_str_in_bounds (a : superlong) (ha : canonical a)
    (h0 : a.sign ≠ 0) :
    (∃ l, to_decimal_loop (a.digits.length * 3 + 10) { superlong_copy a with sign := 1 } [] =
        some l ∧ l.length ≤ a.digits.length * 3 + 10) ∧
      (∃ s, superlong_to_decimal_str a = some s) ∧
      (∀ ds, digits_ok ds → div_uint10_loop_fits ds = true) := by
  have hm : magnitude a.digits ≠ 0 := fun hm => h0 (ha.2.2.1.mpr hm)
  have hne : a.digits ≠ [] := canonical_ne_nil a ha h0
  have hct : canonical ({ superlong_copy a with sign := 1 } : superlong) := by
    rw [copy_eq]
    obtain ⟨h1, _, _, h4⟩ := ha
    exact ⟨h1, Or.inr (Or.inl rfl), by simp [hm], h4⟩
  have hroom : magnitude a.digits < 10 ^ (a.digits.length * 3 + 10) :=
    lt_of_lt_of_le (magnitude_lt_pow _ ha.1) (pow256_le_pow10 _)
  obtain ⟨l, hl1, _⟩ := to_decimal_loop_spec (a.digits.length * 3 + 10)
    { superlong_copy a with sign := 1 } []
    hct (by rw [copy_eq]; exact hne) (Or.inl rfl) (by rw [copy_eq]; exact hm)
    (by rw [copy_eq]; exact hroom)
  refine ⟨⟨l, hl1, ?_⟩, ⟨_, to_decimal_str_spec a ha⟩, div_uint10_loop_fits_spec⟩
  have := to_decimal_loop_length _ _ _ _ hl1
  simpa using this

theorem superlong_to_decimal_str_in_bounds_witness :
    canonical ⟨[255, 255], -1⟩ ∧ (⟨[255, 255], -1⟩ : superlong).sign ≠ 0 ∧
      ∃ s, superlong_to_decimal_str ⟨[255, 255], -1⟩ = some s :=
  ⟨by decide, by decide,
    (superlong_to_decimal_str_in_bounds ⟨[255, 255], -1⟩ (by decide) (by decide)).2.1⟩

/-- C36 (defect in the code): for a digit count `n ≠ 0` and a number that
`superlong_is_zero` does not take for zero, `superlong_shift_left_bytes(num, n)`
puts `n + 1` zero digits, not `n`, below the digits of `num`: the sign is
unchanged but the magnitude is multiplied by `256 ^ (n + 1)`, which differs
from `256 ^ n` times the magnitude whenever that magnitude is not zero.  With
`n = 0` the number is left as it is. -/
theorem superlong_shift_left_bytes_one_digit_more (num : superlong) (n : Nat) (hn : n ≠ 0)
    (hz : superlong_is_zero num = false) :
    (superlong_shift_left_bytes num n).digits = List.replicate (n + 1) 0 ++ num.digits ∧
      (superlong_shift_left_bytes num n).sign = num.sign ∧
      magnitude (superlong_shift_left_bytes num n).digits =
        256 ^ (n + 1) * magnitude num.digits ∧
      (magnitude num.digits ≠ 0 →
        magnitude (superlong_shift_left_bytes num n).digits ≠
          magnitude num.digits * 256 ^ n) ∧
      superlong_shift_left_bytes num 0 = num := by
  obtain ⟨h1, h2, h3⟩ := shift_left_bytes_digits num n hn hz
  refine ⟨h1, h2, h3, fun hm => ?_, ?_⟩
  · rw [h3]
    intro h
    have hpos : 0 < 256 ^ n * magnitude num.digits :=
      Nat.mul_pos (by positivity) (Nat.pos_of_ne_zero hm)
    have e : 256 ^ n * magnitude num.digits * 256 = 256 ^ n * magnitude num.digits * 1 := by
      have h2 : 256 ^ n * magnitude num.digits * 256 = 256 ^ (n + 1) * magnitude num.digits := by
        rw [pow_succ]
        ring
      rw [h2, h]
      ring
    have := Nat.eq_of_mul_eq_mul_left hpos e
    omega
  · unfold superlong_shift_left_bytes
    simp

theorem superlong_shift_left_bytes_one_digit_more_witness :
    (1 : Nat) ≠ 0 ∧ superlong_is_zero ⟨[1], 1⟩ = false ∧
      (superlong_shift_left_bytes ⟨[1], 1⟩ 1).digits = [0, 0, 1] ∧
      magnitude (superlong_shift_left_bytes ⟨[1], 1⟩ 1).digits = 65536 ∧
      magnitude [1] * 256 ^ 1 = 256 :=
  ⟨by decide, by decide,
    (superlong_shift_left_bytes_one_digit_more ⟨[1], 1⟩ 1 (by decide) (by decide)).1,
    by decide, by decide⟩

end SuperLong
